import Mathlib

/-! # The Brainfuck interpreter of `examples/ll/brainfuck.c`

A shallow embedding of the C function `brainfuck(char *command_pointer, char *input)`
and of the properties stated about it.

Modelling conventions.

* A byte is a `Nat`; cell arithmetic is taken `% 256` explicitly, so a cell holds the
  byte representation of the C `char` whether `char` is signed or not (the byte written
  by `printf("%c", *dp)` is the value converted to `unsigned char`, and `!*dp` tests the
  same thing on both).
* A C string `s` is the list of its bytes; the memory it occupies is `s ++ [0]`
  (`cstr s`), the terminator included.  Reading outside that memory, or outside the
  `DATASIZE` cells of `data`, is reported as `outOfBounds`; pointer arithmetic alone
  (`dp--`, `command_pointer -= 2`) is plain integer arithmetic on indices.
* `bracket_flag` is a C `int`; it is an unbounded `Int` here (it stays below the number
  of brackets of the program text).
* The `while` loop is run with fuel: `run prog inp fuel s` performs at most `fuel`
  iterations of the loop.
-/

namespace Brainfuck

/-! ## Data model -/

/-- The number of cells of the tape, `#define DATASIZE 1001`. -/
abbrev DATASIZE : Nat := 1001

/-- Code of `>`. -/
abbrev cGt : Nat := 62
/-- Code of `<`. -/
abbrev cLt : Nat := 60
/-- Code of `+`. -/
abbrev cPlus : Nat := 43
/-- Code of `-`. -/
abbrev cMinus : Nat := 45
/-- Code of `.`. -/
abbrev cDot : Nat := 46
/-- Code of `,`. -/
abbrev cComma : Nat := 44
/-- Code of `[`. -/
abbrev cOpen : Nat := 91
/-- Code of `]`. -/
abbrev cClose : Nat := 93
/-- Code of the newline character. -/
abbrev cNewline : Nat := 10

/-- The variables of `brainfuck` at the head of its `while` loop, pointers being
indices into the memory they point into, together with the bytes written to standard
output so far. -/
structure State where
  /-- Index of `command_pointer` in the program text. -/
  cp : Int
  /-- Index of `dp` in `data`. -/
  dp : Int
  /-- The array `data`. -/
  data : List Nat
  /-- Index of `input` in the input text. -/
  input : Nat
  /-- Bytes written to standard output, oldest first. -/
  out : List Nat
deriving DecidableEq, Repr

/-- Outcome of one iteration of the `while` loop. -/
inductive Step where
  /-- The terminator was fetched: the loop is left. -/
  | halt : State → Step
  /-- One instruction was executed. -/
  | next : State → Step
  /-- A read or write outside the program text, the tape or the input text. -/
  | outOfBounds : Step
deriving DecidableEq, Repr

/-- Outcome of a run with fuel. -/
inductive Result where
  /-- The fuel ran out before the loop was left. -/
  | timeout : Result
  /-- A read or write outside the program text, the tape or the input text. -/
  | outOfBounds : Result
  /-- The function returned in this state. -/
  | done : State → Result
deriving DecidableEq, Repr

/-- Memory occupied by a C string: its bytes followed by the terminator. -/
def cstr (s : List Nat) : List Nat := s ++ [0]

/-- Dereference of a pointer at index `i` of the memory `mem`. -/
def readAt (mem : List Nat) (i : Int) : Option Nat :=
  if i < 0 then none else mem[i.toNat]?

/-- The bytes a pointer at index `i` reads when it is dereferenced and incremented
repeatedly; empty when the first read is already outside `mem`. -/
def memUp (mem : List Nat) (i : Int) : List Nat :=
  if i < 0 then [] else mem.drop i.toNat

/-- The bytes a pointer at index `i` reads when it is dereferenced and decremented
repeatedly; empty when the first read is already outside `mem`. -/
def memDown (mem : List Nat) (i : Int) : List Nat :=
  if i < 0 ∨ mem.length ≤ i.toNat then [] else (mem.take (i.toNat + 1)).reverse

/-! ## The bracket scans -/

/-- The loop `for (...; bracket_flag; command_pointer++)` of case `[`, entered with
`ahead` the bytes from `command_pointer` on: the index of `command_pointer` when the
loop is left, or `none` when it reads past the memory of the program. -/
def scanFwd : List Nat → Int → Int → Option Int
  | [], flag, cp => if flag = 0 then some cp else none
  | c :: ahead, flag, cp =>
    if flag = 0 then some cp
    else if c = cOpen then scanFwd ahead (flag + 1) (cp + 1)
    else if c = cClose then scanFwd ahead (flag - 1) (cp + 1)
    else scanFwd ahead flag (cp + 1)

/-- The loop `for (...; bracket_flag; command_pointer--)` of case `]`, entered with
`behind` the bytes from `command_pointer` downwards: the index of `command_pointer`
when the loop is left, or `none` when it reads before the memory of the program. -/
def scanBack : List Nat → Int → Int → Option Int
  | [], flag, cp => if flag = 0 then some cp else none
  | c :: behind, flag, cp =>
    if flag = 0 then some cp
    else if c = cClose then scanBack behind (flag + 1) (cp - 1)
    else if c = cOpen then scanBack behind (flag - 1) (cp - 1)
    else scanBack behind flag (cp - 1)

/-! ## The interpreter loop -/

/-- One iteration of `while (command = *command_pointer++) switch (command) ...`. -/
def step (prog inp : List Nat) (s : State) : Step :=
  match readAt (cstr prog) s.cp with
  | none => .outOfBounds
  | some command =>
    let cp := s.cp + 1
    if command = 0 then .halt { s with cp := cp }
    else if command = cGt then .next { s with cp := cp, dp := s.dp + 1 }
    else if command = cLt then .next { s with cp := cp, dp := s.dp - 1 }
    else if command = cPlus then
      match readAt s.data s.dp with
      | none => .outOfBounds
      | some v => .next { s with cp := cp, data := s.data.set s.dp.toNat ((v + 1) % 256) }
    else if command = cMinus then
      match readAt s.data s.dp with
      | none => .outOfBounds
      | some v => .next { s with cp := cp, data := s.data.set s.dp.toNat ((v + 255) % 256) }
    else if command = cDot then
      match readAt s.data s.dp with
      | none => .outOfBounds
      | some v => .next { s with cp := cp, out := s.out ++ [v] }
    else if command = cComma then
      match readAt (cstr inp) s.input, readAt s.data s.dp with
      | some c, some _ =>
        .next { s with cp := cp, data := s.data.set s.dp.toNat c, input := s.input + 1 }
      | _, _ => .outOfBounds
    else if command = cOpen then
      match readAt s.data s.dp with
      | none => .outOfBounds
      | some v =>
        if v = 0 then
          match scanFwd (memUp (cstr prog) cp) 1 cp with
          | none => .outOfBounds
          | some cp' => .next { s with cp := cp' }
        else .next { s with cp := cp }
    else if command = cClose then
      match readAt s.data s.dp with
      | none => .outOfBounds
      | some v =>
        if v ≠ 0 then
          match scanBack (memDown (cstr prog) (cp - 2)) 1 (cp - 2) with
          | none => .outOfBounds
          | some cp' => .next { s with cp := cp' + 1 }
        else .next { s with cp := cp }
    else .next { s with cp := cp }

/-- The `while` loop, at most `fuel` iterations of it. -/
def run (prog inp : List Nat) : Nat → State → Result
  | 0, _ => .timeout
  | fuel + 1, s =>
    match step prog inp s with
    | .halt s' => .done s'
    | .next s' => run prog inp fuel s'
    | .outOfBounds => .outOfBounds

/-- The state in which the `while` loop is entered: `data` all zero, `dp` at
`&data[DATASIZE / 2]`, both texts at their start, nothing written. -/
def initState : State :=
  { cp := 0, dp := ((DATASIZE / 2 : Nat) : Int), data := List.replicate DATASIZE 0,
    input := 0, out := [] }

/-- The function `brainfuck`: the loop from the initial state, then `printf` of a
newline.  The result carries the final variables and everything written. -/
def brainfuck (prog inp : List Nat) (fuel : Nat) : Result :=
  match run prog inp fuel initState with
  | .done s => .done { s with out := s.out ++ [cNewline] }
  | .timeout => .timeout
  | .outOfBounds => .outOfBounds

/-! ## Executions -/

/-- The states in which the first `fuel` iterations of the loop executed an instruction,
in order. -/
def trace (prog inp : List Nat) : Nat → State → List State
  | 0, _ => []
  | fuel + 1, s =>
    match step prog inp s with
    | .next s' => s :: trace prog inp fuel s'
    | _ => []

/-- The state after exactly `n` executed instructions, when there are that many. -/
def steps (prog inp : List Nat) : Nat → State → Option State
  | 0, s => some s
  | n + 1, s =>
    match step prog inp s with
    | .next s' => steps prog inp n s'
    | _ => none

/-- The byte a state is about to emit: the current cell when the instruction at
`command_pointer` is `.`, nothing otherwise. -/
def dotByte (prog : List Nat) (s : State) : Option Nat :=
  if readAt (cstr prog) s.cp = some cDot then readAt s.data s.dp else none

/-- The bytes emitted by the `.` instructions executed in the first `fuel` iterations,
in execution order. -/
def dotBytes (prog inp : List Nat) (fuel : Nat) (s : State) : List Nat :=
  (trace prog inp fuel s).filterMap (dotByte prog)

/-- How many of the instructions executed in the first `fuel` iterations were fetched
at index `i` of the program text. -/
def visits (prog inp : List Nat) (i : Int) (fuel : Nat) (s : State) : Nat :=
  (trace prog inp fuel s).countP (fun t => decide (t.cp = i))

/-! ## Bracket matching, as the specification words it -/

/-- One update of the nesting counter of a forward scan: incremented on `[`,
decremented on `]`, unchanged otherwise. -/
def bumpFwd (n : Int) (c : Nat) : Int :=
  if c = cOpen then n + 1 else if c = cClose then n - 1 else n

/-- One update of the nesting counter of a backward scan: incremented on `]`,
decremented on `[`, unchanged otherwise. -/
def bumpBack (n : Int) (c : Nat) : Int :=
  if c = cClose then n + 1 else if c = cOpen then n - 1 else n

/-- The nesting counter that starts at 1 after index `i` and has been updated with the
bytes at the indices `i + 1, ..., k`. -/
def counterFwd (prog : List Nat) (i k : Nat) : Int :=
  ((prog.drop (i + 1)).take (k - i)).foldl bumpFwd 1

/-- The nesting counter that starts at 1 before index `j` and has been updated with the
bytes at the indices `j - 1, j - 2, ..., k`. -/
def counterBack (prog : List Nat) (j k : Nat) : Int :=
  ((prog.take j).drop k).reverse.foldl bumpBack 1

/-- Index `j` holds the `]` matching the `[` at index `i`: `j` is the first index after
`i` at which the forward nesting counter reaches 0. -/
def MatchFwd (prog : List Nat) (i j : Nat) : Prop :=
  i < j ∧ j < prog.length ∧ counterFwd prog i j = 0 ∧
    ∀ k, k < j → i < k → counterFwd prog i k ≠ 0

instance (prog : List Nat) (i j : Nat) : Decidable (MatchFwd prog i j) := by
  unfold MatchFwd
  infer_instance

/-- Index `i` holds the `[` matching the `]` at index `j`: `i` is the first index
before `j`, going backward from `j - 1`, at which the backward nesting counter
reaches 0. -/
def MatchBack (prog : List Nat) (j i : Nat) : Prop :=
  i < j ∧ j < prog.length ∧ counterBack prog j i = 0 ∧
    ∀ k, k < j → i < k → counterBack prog j k ≠ 0

instance (prog : List Nat) (j i : Nat) : Decidable (MatchBack prog j i) := by
  unfold MatchBack
  infer_instance

/-! ## Comments -/

/-- A byte that is one of the eight commands. -/
def isCommand (c : Nat) : Bool :=
  c = cGt || c = cLt || c = cPlus || c = cMinus || c = cDot || c = cComma || c = cOpen ||
    c = cClose

/-- The program text with every byte that is not one of the eight commands removed. -/
def strip (prog : List Nat) : List Nat := prog.filter isCommand

/-- The bytes of a C string are not the terminator. -/
def IsCString (s : List Nat) : Prop := ∀ c ∈ s, c ≠ 0

instance (s : List Nat) : Decidable (IsCString s) := by
  unfold IsCString
  infer_instance

/-- Index in `strip prog` of the byte at index `i` of `prog`: the number of command
bytes before index `i`. -/
def stripIndex (prog : List Nat) (i : Int) : Int :=
  ((strip (prog.take i.toNat)).length : Int)

/-- The state of the run of `strip prog` that corresponds to a state of the run of
`prog`: the same variables, the instruction pointer moved to the corresponding index. -/
def shadow (prog : List Nat) (s : State) : State :=
  { s with cp := stripIndex prog s.cp }

/-! ## Programs used in the statements -/

/-- The program of `n` repetitions of `,.`. -/
def echoProgram (n : Nat) : List Nat := (List.replicate n [cComma, cDot]).flatten

/-- The program `++[>++[>+<-]<-]`. -/
def nestedProgram : List Nat :=
  [cPlus, cPlus, cOpen, cGt, cPlus, cPlus, cOpen, cGt, cPlus, cLt, cMinus, cClose, cLt, cMinus,
    cClose]

/-- The program of `a` copies of `+`, then `[>`, then `b` copies of `+`, then `<-]>.`. -/
def mulProgram (a b : Nat) : List Nat :=
  List.replicate a cPlus ++ [cOpen, cGt] ++ List.replicate b cPlus ++
    [cLt, cMinus, cClose, cGt, cDot]

/-- The program of `k` copies of `<` followed by `+.`. -/
def leftProgram (k : Nat) : List Nat := List.replicate k cLt ++ [cPlus, cDot]

/-- The program of `k` copies of `>` followed by `+.`. -/
def rightProgram (k : Nat) : List Nat := List.replicate k cGt ++ [cPlus, cDot]

/-- The program `+[]`. -/
def foreverProgram : List Nat := [cPlus, cOpen, cClose]

/-- The program `,[.,]`. -/
def catProgram : List Nat := [cComma, cOpen, cDot, cComma, cClose]

/-- The program of `n` copies of `+` followed by `[-].`. -/
def clearProgram (n : Nat) : List Nat := List.replicate n cPlus ++ [cOpen, cMinus, cClose, cDot]

/-! ## The reads of the bracket scans -/

/-- The indices at which the loop of case `[` dereferences `command_pointer`, in order,
the read that falls outside the memory of the program included. -/
def scanFwdReads : List Nat → Int → Int → List Int
  | [], flag, cp => if flag = 0 then [] else [cp]
  | c :: ahead, flag, cp =>
    if flag = 0 then []
    else if c = cOpen then cp :: scanFwdReads ahead (flag + 1) (cp + 1)
    else if c = cClose then cp :: scanFwdReads ahead (flag - 1) (cp + 1)
    else cp :: scanFwdReads ahead flag (cp + 1)

/-- The indices at which the loop of case `]` dereferences `command_pointer`, in order,
the read that falls outside the memory of the program included. -/
def scanBackReads : List Nat → Int → Int → List Int
  | [], flag, cp => if flag = 0 then [] else [cp]
  | c :: behind, flag, cp =>
    if flag = 0 then []
    else if c = cClose then cp :: scanBackReads behind (flag + 1) (cp - 1)
    else if c = cOpen then cp :: scanBackReads behind (flag - 1) (cp - 1)
    else cp :: scanBackReads behind flag (cp - 1)

/-- The indices of the program memory read by the bracket scan of one iteration of the
`while` loop; empty when the iteration runs no scan. -/
def scanReads (prog : List Nat) (s : State) : List Int :=
  match readAt (cstr prog) s.cp, readAt s.data s.dp with
  | some command, some v =>
    if command = cOpen then
      if v = 0 then scanFwdReads (memUp (cstr prog) (s.cp + 1)) 1 (s.cp + 1) else []
    else if command = cClose then
      if v ≠ 0 then scanBackReads (memDown (cstr prog) (s.cp + 1 - 2)) 1 (s.cp + 1 - 2) else []
    else []
  | _, _ => []

/-- The nesting depth after the first `k` bytes of a program text: the number of `[`
minus the number of `]` among them. -/
def depth (prog : List Nat) (k : Nat) : Int :=
  ((prog.take k).count cOpen : Int) - ((prog.take k).count cClose : Int)

/-- The brackets of a program text are balanced: no prefix holds more `]` than `[`, and
the whole text holds as many `[` as `]`. -/
def Balanced (prog : List Nat) : Prop :=
  (∀ k, k < prog.length + 1 → (prog.take k).count cClose ≤ (prog.take k).count cOpen) ∧
    prog.count cOpen = prog.count cClose

instance (prog : List Nat) : Decidable (Balanced prog) := by
  unfold Balanced
  infer_instance

/-! ## The entry point -/

/-- The bytes of the message `invalid arguments`. -/
def invalidArguments : List Nat :=
  [105, 110, 118, 97, 108, 105, 100, 32, 97, 114, 103, 117, 109, 101, 110, 116, 115]

/-- What a process that returned from `main` leaves behind. -/
structure Exit where
  /-- The exit code. -/
  code : Nat
  /-- Bytes written to standard output. -/
  stdout : List Nat
  /-- Bytes written to standard error. -/
  stderr : List Nat
deriving DecidableEq, Repr

/-- Outcome of `main` with fuel for the interpreter loop. -/
inductive MainResult where
  /-- The fuel ran out inside `brainfuck`. -/
  | timeout : MainResult
  /-- A read or write outside a buffer. -/
  | outOfBounds : MainResult
  /-- The function `main` returned. -/
  | exit : Exit → MainResult
deriving DecidableEq, Repr

/-- The function `main(argc, argv)`: a wrong argument count is reported on standard
error with exit code 1; otherwise `brainfuck(argv[1], argv[2])` runs and the end of
`main` is reached, which is exit code 0. -/
def main (argc : Int) (argv : List (List Nat)) (fuel : Nat) : MainResult :=
  if argc ≠ 3 then .exit { code := 1, stdout := [], stderr := invalidArguments }
  else
    match argv[1]?, argv[2]? with
    | some prog, some inp =>
      match brainfuck prog inp fuel with
      | .done r => .exit { code := 0, stdout := r.out, stderr := [] }
      | .timeout => .timeout
      | .outOfBounds => .outOfBounds
    | _, _ => .outOfBounds

/-! ## One iteration, instruction by instruction -/

section StepLemmas

variable {prog inp : List Nat} {s : State}

theorem step_fetch_none (h : readAt (cstr prog) s.cp = none) : step prog inp s = .outOfBounds := by
  simp [step, h]

theorem step_zero (h : readAt (cstr prog) s.cp = some 0) :
    step prog inp s = .halt { s with cp := s.cp + 1 } := by
  simp [step, h]

theorem step_gt (h : readAt (cstr prog) s.cp = some cGt) :
    step prog inp s = .next { s with cp := s.cp + 1, dp := s.dp + 1 } := by
  simp [step, h]

theorem step_lt (h : readAt (cstr prog) s.cp = some cLt) :
    step prog inp s = .next { s with cp := s.cp + 1, dp := s.dp - 1 } := by
  simp [step, h]

theorem step_cell_none {c : Nat} (h : readAt (cstr prog) s.cp = some c)
    (hc : c = cPlus ∨ c = cMinus ∨ c = cDot ∨ c = cComma ∨ c = cOpen ∨ c = cClose)
    (hv : readAt s.data s.dp = none) : step prog inp s = .outOfBounds := by
  rcases hc with rfl | rfl | rfl | rfl | rfl | rfl <;> simp [step, h, hv]

theorem step_plus {v : Nat} (h : readAt (cstr prog) s.cp = some cPlus)
    (hv : readAt s.data s.dp = some v) :
    step prog inp s =
      .next { s with cp := s.cp + 1, data := s.data.set s.dp.toNat ((v + 1) % 256) } := by
  simp [step, h, hv]

theorem step_minus {v : Nat} (h : readAt (cstr prog) s.cp = some cMinus)
    (hv : readAt s.data s.dp = some v) :
    step prog inp s =
      .next { s with cp := s.cp + 1, data := s.data.set s.dp.toNat ((v + 255) % 256) } := by
  simp [step, h, hv]

theorem step_dot {v : Nat} (h : readAt (cstr prog) s.cp = some cDot)
    (hv : readAt s.data s.dp = some v) :
    step prog inp s = .next { s with cp := s.cp + 1, out := s.out ++ [v] } := by
  simp [step, h, hv]

theorem step_comma {v c : Nat} (h : readAt (cstr prog) s.cp = some cComma)
    (hv : readAt s.data s.dp = some v) (hi : readAt (cstr inp) s.input = some c) :
    step prog inp s =
      .next { s with cp := s.cp + 1, data := s.data.set s.dp.toNat c, input := s.input + 1 } := by
  simp [step, h, hv, hi]

theorem step_comma_none (h : readAt (cstr prog) s.cp = some cComma)
    (hi : readAt (cstr inp) s.input = none) : step prog inp s = .outOfBounds := by
  simp [step, h, hi]

theorem step_open_skip {v : Nat} (h : readAt (cstr prog) s.cp = some cOpen)
    (hv : readAt s.data s.dp = some v) (hz : v ≠ 0) :
    step prog inp s = .next { s with cp := s.cp + 1 } := by
  simp [step, h, hv, hz]

theorem step_open_jump {cp' : Int} (h : readAt (cstr prog) s.cp = some cOpen)
    (hv : readAt s.data s.dp = some 0)
    (hj : scanFwd (memUp (cstr prog) (s.cp + 1)) 1 (s.cp + 1) = some cp') :
    step prog inp s = .next { s with cp := cp' } := by
  simp [step, h, hv, hj]

theorem step_open_none (h : readAt (cstr prog) s.cp = some cOpen)
    (hv : readAt s.data s.dp = some 0)
    (hj : scanFwd (memUp (cstr prog) (s.cp + 1)) 1 (s.cp + 1) = none) :
    step prog inp s = .outOfBounds := by
  simp [step, h, hv, hj]

theorem step_close_skip (h : readAt (cstr prog) s.cp = some cClose)
    (hv : readAt s.data s.dp = some 0) :
    step prog inp s = .next { s with cp := s.cp + 1 } := by
  simp [step, h, hv]

theorem step_close_jump {v : Nat} {cp' : Int} (h : readAt (cstr prog) s.cp = some cClose)
    (hv : readAt s.data s.dp = some v) (hz : v ≠ 0)
    (hj : scanBack (memDown (cstr prog) (s.cp - 1)) 1 (s.cp - 1) = some cp') :
    step prog inp s = .next { s with cp := cp' + 1 } := by
  have e : s.cp + 1 - 2 = s.cp - 1 := by omega
  simp [step, h, hv, hz, e, hj]

theorem step_close_none {v : Nat} (h : readAt (cstr prog) s.cp = some cClose)
    (hv : readAt s.data s.dp = some v) (hz : v ≠ 0)
    (hj : scanBack (memDown (cstr prog) (s.cp - 1)) 1 (s.cp - 1) = none) :
    step prog inp s = .outOfBounds := by
  have e : s.cp + 1 - 2 = s.cp - 1 := by omega
  simp [step, h, hv, hz, e, hj]

theorem step_other {c : Nat} (h : readAt (cstr prog) s.cp = some c) (h0 : c ≠ 0)
    (hc : isCommand c = false) : step prog inp s = .next { s with cp := s.cp + 1 } := by
  simp [isCommand] at hc
  simp [step, h, h0, hc]

/-- Every byte is the terminator, one of the eight commands, or something else. -/
theorem command_cases (c : Nat) :
    c = 0 ∨ c = cGt ∨ c = cLt ∨ c = cPlus ∨ c = cMinus ∨ c = cDot ∨ c = cComma ∨ c = cOpen ∨
      c = cClose ∨ (c ≠ 0 ∧ isCommand c = false) := by
  simp only [isCommand, Bool.or_eq_false_iff, decide_eq_false_iff_not]
  omega

theorem step_next_out {s' : State} (h : step prog inp s = .next s') :
    s'.out = s.out ++ (dotByte prog s).toList := by
  unfold dotByte
  cases hc : readAt (cstr prog) s.cp with
  | none => simp [step_fetch_none hc] at h
  | some c =>
    rcases command_cases c with rfl | rfl | rfl | rfl | rfl | rfl | rfl | rfl | rfl | ⟨h0, hn⟩
    · simp [step_zero hc] at h
    · simp [step_gt hc] at h; subst h; simp
    · simp [step_lt hc] at h; subst h; simp
    · cases hv : readAt s.data s.dp with
      | none => simp [step_cell_none hc (by simp) hv] at h
      | some v => simp [step_plus hc hv] at h; subst h; simp
    · cases hv : readAt s.data s.dp with
      | none => simp [step_cell_none hc (by simp) hv] at h
      | some v => simp [step_minus hc hv] at h; subst h; simp
    · cases hv : readAt s.data s.dp with
      | none => simp [step_cell_none hc (by simp) hv] at h
      | some v => simp [step_dot hc hv] at h; subst h; simp
    · cases hv : readAt s.data s.dp with
      | none => simp [step_cell_none hc (by simp) hv] at h
      | some v =>
        cases hi : readAt (cstr inp) s.input with
        | none => simp [step_comma_none hc hi] at h
        | some c => simp [step_comma hc hv hi] at h; subst h; simp
    · cases hv : readAt s.data s.dp with
      | none => simp [step_cell_none hc (by simp) hv] at h
      | some v =>
        by_cases hz : v = 0
        · subst hz
          cases hj : scanFwd (memUp (cstr prog) (s.cp + 1)) 1 (s.cp + 1) with
          | none => simp [step_open_none hc hv hj] at h
          | some cp' => simp [step_open_jump hc hv hj] at h; subst h; simp
        · simp [step_open_skip hc hv hz] at h; subst h; simp
    · cases hv : readAt s.data s.dp with
      | none => simp [step_cell_none hc (by simp) hv] at h
      | some v =>
        by_cases hz : v = 0
        · subst hz
          simp [step_close_skip hc hv] at h; subst h; simp
        · cases hj : scanBack (memDown (cstr prog) (s.cp - 1)) 1 (s.cp - 1) with
          | none => simp [step_close_none hc hv hz hj] at h
          | some cp' => simp [step_close_jump hc hv hz hj] at h; subst h; simp
    · simp [step_other hc h0 hn] at h; subst h
      have : c ≠ cDot := by rintro rfl; simp [isCommand] at hn
      simp [this]

end StepLemmas

/-! ## Runs -/

section RunLemmas

variable {prog inp : List Nat}

theorem step_halt_inv {s s' : State} (h : step prog inp s = .halt s') :
    readAt (cstr prog) s.cp = some 0 ∧ s' = { s with cp := s.cp + 1 } := by
  cases hc : readAt (cstr prog) s.cp with
  | none => simp [step_fetch_none hc] at h
  | some c =>
    rcases command_cases c with rfl | rfl | rfl | rfl | rfl | rfl | rfl | rfl | rfl | ⟨h0, hn⟩
    · simp [step_zero hc] at h; exact ⟨rfl, h.symm⟩
    · simp [step_gt hc] at h
    · simp [step_lt hc] at h
    · cases hv : readAt s.data s.dp with
      | none => simp [step_cell_none hc (by simp) hv] at h
      | some v => simp [step_plus hc hv] at h
    · cases hv : readAt s.data s.dp with
      | none => simp [step_cell_none hc (by simp) hv] at h
      | some v => simp [step_minus hc hv] at h
    · cases hv : readAt s.data s.dp with
      | none => simp [step_cell_none hc (by simp) hv] at h
      | some v => simp [step_dot hc hv] at h
    · cases hv : readAt s.data s.dp with
      | none => simp [step_cell_none hc (by simp) hv] at h
      | some v =>
        cases hi : readAt (cstr inp) s.input with
        | none => simp [step_comma_none hc hi] at h
        | some c => simp [step_comma hc hv hi] at h
    · cases hv : readAt s.data s.dp with
      | none => simp [step_cell_none hc (by simp) hv] at h
      | some v =>
        by_cases hz : v = 0
        · subst hz
          cases hj : scanFwd (memUp (cstr prog) (s.cp + 1)) 1 (s.cp + 1) with
          | none => simp [step_open_none hc hv hj] at h
          | some cp' => simp [step_open_jump hc hv hj] at h
        · simp [step_open_skip hc hv hz] at h
    · cases hv : readAt s.data s.dp with
      | none => simp [step_cell_none hc (by simp) hv] at h
      | some v =>
        by_cases hz : v = 0
        · subst hz
          simp [step_close_skip hc hv] at h
        · cases hj : scanBack (memDown (cstr prog) (s.cp - 1)) 1 (s.cp - 1) with
          | none => simp [step_close_none hc hv hz hj] at h
          | some cp' => simp [step_close_jump hc hv hz hj] at h
    · simp [step_other hc h0 hn] at h

theorem run_succ_next {s s' : State} (h : step prog inp s = .next s') (fuel : Nat) :
    run prog inp (fuel + 1) s = run prog inp fuel s' := by
  simp [run, h]

theorem run_succ_halt {s s' : State} (h : step prog inp s = .halt s') (fuel : Nat) :
    run prog inp (fuel + 1) s = .done s' := by
  simp [run, h]

/-- More fuel does not change a run that returned. -/
theorem run_done_mono : ∀ (fuel k : Nat) (s r : State),
    run prog inp fuel s = .done r → run prog inp (fuel + k) s = .done r := by
  intro fuel
  induction fuel with
  | zero => intro k s r h; simp [run] at h
  | succ n ih =>
    intro k s r h
    have e : n + 1 + k = (n + k) + 1 := by omega
    rw [e]
    cases hs : step prog inp s with
    | halt s' => rw [run_succ_halt hs] at h ⊢; exact h
    | next s' => rw [run_succ_next hs] at h ⊢; exact ih k s' r h
    | outOfBounds => simp [run, hs] at h

/-- A run that returned, returned the same with any other sufficient fuel. -/
theorem run_done_unique {fuel fuel' : Nat} {s r r' : State}
    (h : run prog inp fuel s = .done r) (h' : run prog inp fuel' s = .done r') : r = r' := by
  have a := run_done_mono fuel fuel' s r h
  have b := run_done_mono fuel' fuel s r' h'
  rw [Nat.add_comm] at b
  rw [a] at b
  injection b

theorem steps_succ_next {s s' : State} (h : step prog inp s = .next s') (n : Nat) :
    steps prog inp (n + 1) s = steps prog inp n s' := by
  simp [steps, h]

/-- Executed instructions compose. -/
theorem steps_add : ∀ (m n : Nat) (s s' : State),
    steps prog inp m s = some s' → steps prog inp (m + n) s = steps prog inp n s' := by
  intro m
  induction m with
  | zero => intro n s s' h; simp [steps] at h; subst h; simp
  | succ m ih =>
    intro n s s' h
    have e : m + 1 + n = (m + n) + 1 := by omega
    rw [e]
    cases hs : step prog inp s with
    | halt t => simp [steps, hs] at h
    | next t => rw [steps_succ_next hs] at h ⊢; exact ih n t s' h
    | outOfBounds => simp [steps, hs] at h

/-- A run after `m` executed instructions continues from the state they reach. -/
theorem run_steps : ∀ (m k : Nat) (s s' : State),
    steps prog inp m s = some s' → run prog inp (m + k) s = run prog inp k s' := by
  intro m
  induction m with
  | zero => intro k s s' h; simp [steps] at h; subst h; simp
  | succ m ih =>
    intro k s s' h
    have e : m + 1 + k = (m + k) + 1 := by omega
    rw [e]
    cases hs : step prog inp s with
    | halt t => simp [steps, hs] at h
    | next t => rw [steps_succ_next hs] at h; rw [run_succ_next hs]; exact ih k t s' h
    | outOfBounds => simp [steps, hs] at h

/-- The trace of a run splits at any state it reaches. -/
theorem trace_steps : ∀ (m k : Nat) (s s' : State),
    steps prog inp m s = some s' →
      trace prog inp (m + k) s = trace prog inp m s ++ trace prog inp k s' := by
  intro m
  induction m with
  | zero => intro k s s' h; simp [steps] at h; subst h; simp [trace]
  | succ m ih =>
    intro k s s' h
    have e : m + 1 + k = (m + k) + 1 := by omega
    rw [e]
    cases hs : step prog inp s with
    | halt t => simp [steps, hs] at h
    | next t =>
      rw [steps_succ_next hs] at h
      simp [trace, hs, ih k t s' h]
    | outOfBounds => simp [steps, hs] at h

theorem run_done_out : ∀ (fuel : Nat) (s r : State),
    run prog inp fuel s = .done r → r.out = s.out ++ dotBytes prog inp fuel s := by
  intro fuel
  induction fuel with
  | zero => intro s r h; simp [run] at h
  | succ n ih =>
    intro s r h
    cases hs : step prog inp s with
    | halt s' =>
      rw [run_succ_halt hs] at h
      injection h with h
      subst h
      simp [dotBytes, trace, hs, (step_halt_inv hs).2]
    | next s' =>
      rw [run_succ_next hs] at h
      rw [ih s' r h, step_next_out hs]
      cases hd : dotByte prog s <;> simp [dotBytes, trace, hs, List.filterMap_cons, hd]
    | outOfBounds => simp [run, hs] at h

theorem brainfuck_done_iff {fuel : Nat} {r : State} :
    brainfuck prog inp fuel = .done r ↔
      ∃ s, run prog inp fuel initState = .done s ∧ r = { s with out := s.out ++ [cNewline] } := by
  unfold brainfuck
  cases h : run prog inp fuel initState with
  | timeout => simp
  | outOfBounds => simp
  | done s => simp [eq_comm]

end RunLemmas

/-! ## The bracket scans and the nesting counter -/

theorem scanFwd_zero (l : List Nat) (cp : Int) : scanFwd l 0 cp = some cp := by
  cases l <;> simp [scanFwd]

theorem scanBack_zero (l : List Nat) (cp : Int) : scanBack l 0 cp = some cp := by
  cases l <;> simp [scanBack]

theorem scanFwd_cons {c : Nat} {l : List Nat} {f : Int} (hf : f ≠ 0) (cp : Int) :
    scanFwd (c :: l) f cp = scanFwd l (bumpFwd f c) (cp + 1) := by
  simp only [scanFwd, bumpFwd, hf, if_false]
  split_ifs <;> rfl

theorem scanBack_cons {c : Nat} {l : List Nat} {f : Int} (hf : f ≠ 0) (cp : Int) :
    scanBack (c :: l) f cp = scanBack l (bumpBack f c) (cp - 1) := by
  simp only [scanBack, bumpBack, hf, if_false]
  split_ifs <;> rfl

theorem bumpFwd_ge (f : Int) (c : Nat) : f - 1 ≤ bumpFwd f c := by
  unfold bumpFwd; split_ifs <;> omega

theorem bumpBack_ge (f : Int) (c : Nat) : f - 1 ≤ bumpBack f c := by
  unfold bumpBack; split_ifs <;> omega

/-- The forward scan stops right after the first byte at which the counter is 0. -/
theorem scanFwd_first_zero : ∀ (l : List Nat) (f cp : Int) (n : Nat), 0 < f → n < l.length →
    (l.take (n + 1)).foldl bumpFwd f = 0 →
    (∀ m, m < n → (l.take (m + 1)).foldl bumpFwd f ≠ 0) →
    scanFwd l f cp = some (cp + n + 1) := by
  intro l
  induction l with
  | nil => intro f cp n _ hn; simp at hn
  | cons c l ih =>
    intro f cp n hf hn hz hnz
    rw [scanFwd_cons (by omega)]
    cases n with
    | zero =>
      simp at hz
      rw [hz, scanFwd_zero]
      simp
    | succ n =>
      have h0 := hnz 0 (by omega)
      simp at h0
      have hge := bumpFwd_ge f c
      rw [ih (bumpFwd f c) (cp + 1) n (by omega) (by simpa using hn) (by simpa using hz)
        (fun m hm => by simpa using hnz (m + 1) (by omega))]
      congr 1
      push_cast
      omega

/-- The backward scan stops right after the first byte at which the counter is 0. -/
theorem scanBack_first_zero : ∀ (l : List Nat) (f cp : Int) (n : Nat), 0 < f → n < l.length →
    (l.take (n + 1)).foldl bumpBack f = 0 →
    (∀ m, m < n → (l.take (m + 1)).foldl bumpBack f ≠ 0) →
    scanBack l f cp = some (cp - n - 1) := by
  intro l
  induction l with
  | nil => intro f cp n _ hn; simp at hn
  | cons c l ih =>
    intro f cp n hf hn hz hnz
    rw [scanBack_cons (by omega)]
    cases n with
    | zero =>
      simp at hz
      rw [hz, scanBack_zero]
      simp
    | succ n =>
      have h0 := hnz 0 (by omega)
      simp at h0
      have hge := bumpBack_ge f c
      rw [ih (bumpBack f c) (cp - 1) n (by omega) (by simpa using hn) (by simpa using hz)
        (fun m hm => by simpa using hnz (m + 1) (by omega))]
      congr 1
      push_cast
      omega

theorem readAt_natCast (mem : List Nat) (i : Nat) : readAt mem (i : Int) = mem[i]? := by
  simp [readAt]

theorem readAt_cstr_of_lt {prog : List Nat} {i : Nat} (h : i < prog.length) :
    readAt (cstr prog) (i : Int) = prog[i]? := by
  simp [readAt_natCast, cstr, List.getElem?_append_left h]

theorem readAt_cstr_length (prog : List Nat) : readAt (cstr prog) (prog.length : Int) = some 0 := by
  simp [readAt_natCast, cstr]

theorem memUp_cstr {prog : List Nat} {i : Nat} (h : i ≤ prog.length) :
    memUp (cstr prog) (i : Int) = prog.drop i ++ [0] := by
  simp [memUp, cstr, List.drop_append_of_le_length h]

theorem memDown_cstr {prog : List Nat} {j : Nat} (h : j ≤ prog.length) :
    memDown (cstr prog) ((j : Int) - 1) = (prog.take j).reverse := by
  unfold memDown
  cases j with
  | zero => simp
  | succ j =>
    have e : ((j + 1 : Nat) : Int) - 1 = (j : Int) := by push_cast; omega
    rw [e]
    have : ¬ ((j : Int) < 0 ∨ (cstr prog).length ≤ (j : Int).toNat) := by
      simp [cstr]; omega
    rw [if_neg this]
    simp [cstr, List.take_append_of_le_length h]

/-- The last byte scanned before a counter started positive reaches 0 is a `]`. -/
theorem foldl_bumpFwd_last {l : List Nat} {f : Int} {c : Nat}
    (hprev : l.foldl bumpFwd f ≠ 0) (hz : (l ++ [c]).foldl bumpFwd f = 0)
    (hpos : 0 ≤ l.foldl bumpFwd f) : c = cClose := by
  simp only [List.foldl_append, List.foldl_cons, List.foldl_nil] at hz
  generalize l.foldl bumpFwd f = a at hprev hz hpos
  unfold bumpFwd at hz
  split_ifs at hz with h1 h2
  · omega
  · exact h2
  · exact absurd hz hprev

theorem foldl_bumpBack_last {l : List Nat} {f : Int} {c : Nat}
    (hprev : l.foldl bumpBack f ≠ 0) (hz : (l ++ [c]).foldl bumpBack f = 0)
    (hpos : 0 ≤ l.foldl bumpBack f) : c = cOpen := by
  simp only [List.foldl_append, List.foldl_cons, List.foldl_nil] at hz
  generalize l.foldl bumpBack f = a at hprev hz hpos
  unfold bumpBack at hz
  split_ifs at hz with h1 h2
  · omega
  · exact h2
  · exact absurd hz hprev

theorem foldl_bumpFwd_pos (l : List Nat) (f : Int) (hf : 0 < f) : ∀ n : Nat,
    (∀ m, m ≤ n → (l.take m).foldl bumpFwd f ≠ 0) → 0 < (l.take n).foldl bumpFwd f := by
  intro n
  induction n with
  | zero => intro _; simpa using hf
  | succ n ih =>
    intro h
    have hn := ih (fun m hm => h m (by omega))
    have h1 := h (n + 1) (by omega)
    rw [List.take_succ] at h1 ⊢
    cases hc : l[n]? with
    | none => simpa [hc] using hn
    | some c =>
      simp only [hc, Option.toList, List.foldl_append, List.foldl_cons, List.foldl_nil] at h1 ⊢
      have := bumpFwd_ge ((l.take n).foldl bumpFwd f) c
      omega

theorem foldl_bumpBack_pos (l : List Nat) (f : Int) (hf : 0 < f) : ∀ n : Nat,
    (∀ m, m ≤ n → (l.take m).foldl bumpBack f ≠ 0) → 0 < (l.take n).foldl bumpBack f := by
  intro n
  induction n with
  | zero => intro _; simpa using hf
  | succ n ih =>
    intro h
    have hn := ih (fun m hm => h m (by omega))
    have h1 := h (n + 1) (by omega)
    rw [List.take_succ] at h1 ⊢
    cases hc : l[n]? with
    | none => simpa [hc] using hn
    | some c =>
      simp only [hc, Option.toList, List.foldl_append, List.foldl_cons, List.foldl_nil] at h1 ⊢
      have := bumpBack_ge ((l.take n).foldl bumpBack f) c
      omega

/-- The byte at which a counter started positive first reaches 0 is a `]`. -/
theorem first_zero_fwd_is_close {l : List Nat} {f : Int} {n : Nat} (hf : 0 < f)
    (hn : n < l.length) (hz : (l.take (n + 1)).foldl bumpFwd f = 0)
    (hnz : ∀ m, m < n → (l.take (m + 1)).foldl bumpFwd f ≠ 0) : l[n]? = some cClose := by
  have hpos := foldl_bumpFwd_pos l f hf n (fun m hm => by
    cases m with
    | zero => simpa using (by omega : f ≠ 0)
    | succ m => exact hnz m (by omega))
  rw [List.take_succ, List.getElem?_eq_getElem hn] at hz
  rw [List.getElem?_eq_getElem hn]
  exact congrArg some (foldl_bumpFwd_last (by omega) hz (by omega))

/-- The byte at which a counter started positive first reaches 0 is a `[`. -/
theorem first_zero_back_is_open {l : List Nat} {f : Int} {n : Nat} (hf : 0 < f)
    (hn : n < l.length) (hz : (l.take (n + 1)).foldl bumpBack f = 0)
    (hnz : ∀ m, m < n → (l.take (m + 1)).foldl bumpBack f ≠ 0) : l[n]? = some cOpen := by
  have hpos := foldl_bumpBack_pos l f hf n (fun m hm => by
    cases m with
    | zero => simpa using (by omega : f ≠ 0)
    | succ m => exact hnz m (by omega))
  rw [List.take_succ, List.getElem?_eq_getElem hn] at hz
  rw [List.getElem?_eq_getElem hn]
  exact congrArg some (foldl_bumpBack_last (by omega) hz (by omega))

theorem counterFwd_eq {prog : List Nat} {i m : Nat} (h : i + 1 + m < prog.length) :
    counterFwd prog i (i + 1 + m) = ((prog.drop (i + 1) ++ [0]).take (m + 1)).foldl bumpFwd 1 := by
  unfold counterFwd
  rw [List.take_append_of_le_length (by simp; omega)]
  congr 2
  omega

/-- The forward scan entered after a `[` that has a match leaves `command_pointer`
just past the match. -/
theorem scanFwd_of_match {prog : List Nat} {i j : Nat} (hm : MatchFwd prog i j) :
    scanFwd (memUp (cstr prog) ((i : Int) + 1)) 1 ((i : Int) + 1) = some ((j : Int) + 1) := by
  obtain ⟨hij, hj, hz, hnz⟩ := hm
  have e : (i : Int) + 1 = ((i + 1 : Nat) : Int) := by push_cast; rfl
  rw [e, memUp_cstr (by omega)]
  obtain ⟨n, rfl⟩ : ∃ n, j = i + 1 + n := ⟨j - i - 1, by omega⟩
  rw [scanFwd_first_zero _ 1 _ n (by omega) (by simp; omega)
    (by rw [← counterFwd_eq hj]; exact hz)
    (fun m hm => by rw [← counterFwd_eq (by omega)]; exact hnz _ (by omega) (by omega))]
  exact congrArg some (by omega)

theorem close_of_matchFwd {prog : List Nat} {i j : Nat} (hm : MatchFwd prog i j) :
    prog[j]? = some cClose := by
  obtain ⟨hij, hj, hz, hnz⟩ := hm
  obtain ⟨n, rfl⟩ : ∃ n, j = i + 1 + n := ⟨j - i - 1, by omega⟩
  have := first_zero_fwd_is_close (l := prog.drop (i + 1) ++ [0]) (f := 1) (n := n) (by omega)
    (by simp; omega) (by rw [← counterFwd_eq hj]; exact hz)
    (fun m hm => by rw [← counterFwd_eq (by omega)]; exact hnz _ (by omega) (by omega))
  rw [List.getElem?_append_left (by simp; omega), List.getElem?_drop] at this
  exact this

theorem counterBack_eq {prog : List Nat} {j m : Nat} (hj : j ≤ prog.length) (h : m < j) :
    counterBack prog j (j - 1 - m) = ((prog.take j).reverse.take (m + 1)).foldl bumpBack 1 := by
  unfold counterBack
  rw [List.take_reverse]
  congr 3
  simp
  omega

/-- The backward scan entered before a `]` that has a match leaves `command_pointer`
just before the match. -/
theorem scanBack_of_match {prog : List Nat} {j i : Nat} (hm : MatchBack prog j i) :
    scanBack (memDown (cstr prog) ((j : Int) - 1)) 1 ((j : Int) - 1) = some ((i : Int) - 1) := by
  obtain ⟨hij, hj, hz, hnz⟩ := hm
  rw [memDown_cstr (by omega)]
  obtain ⟨n, hn, rfl⟩ : ∃ n, n < j ∧ i = j - 1 - n := ⟨j - 1 - i, by omega, by omega⟩
  rw [scanBack_first_zero _ 1 _ n (by omega) (by simp; omega)
    (by rw [← counterBack_eq (by omega) hn]; exact hz)
    (fun m hm => by
      rw [← counterBack_eq (by omega) (by omega)]; exact hnz _ (by omega) (by omega))]
  congr 1
  omega

theorem open_of_matchBack {prog : List Nat} {j i : Nat} (hm : MatchBack prog j i) :
    prog[i]? = some cOpen := by
  obtain ⟨hij, hj, hz, hnz⟩ := hm
  obtain ⟨n, hn, rfl⟩ : ∃ n, n < j ∧ i = j - 1 - n := ⟨j - 1 - i, by omega, by omega⟩
  have := first_zero_back_is_open (l := (prog.take j).reverse) (f := 1) (n := n) (by omega)
    (by simp; omega) (by rw [← counterBack_eq (by omega) hn]; exact hz)
    (fun m hm => by rw [← counterBack_eq (by omega) (by omega)]; exact hnz _ (by omega) (by omega))
  rw [List.getElem?_reverse (by simp; omega), List.getElem?_take_of_lt (by simp; omega)] at this
  simpa [Nat.min_eq_left (by omega : j ≤ prog.length)] using this

/-! ## Memory accesses and blocks of `+` and `-` -/

section Blocks

variable {prog inp : List Nat}

theorem readAt_some_iff {mem : List Nat} {i : Int} {v : Nat} :
    readAt mem i = some v ↔ 0 ≤ i ∧ mem[i.toNat]? = some v := by
  unfold readAt
  split_ifs with h
  · simp; omega
  · simp; omega

theorem readAt_some_lt {mem : List Nat} {i : Int} {v : Nat} (h : readAt mem i = some v) :
    i.toNat < mem.length := by
  obtain ⟨_, hv⟩ := readAt_some_iff.mp h
  rcases Nat.lt_or_ge i.toNat mem.length with h | h
  · exact h
  · rw [List.getElem?_eq_none h] at hv; exact absurd hv (by simp)

theorem readAt_set_self {mem : List Nat} {i : Int} {v : Nat} (w : Nat)
    (h : readAt mem i = some v) : readAt (mem.set i.toNat w) i = some w := by
  have hlt := readAt_some_lt h
  rw [readAt_some_iff]
  exact ⟨(readAt_some_iff.mp h).1, by simp [List.getElem?_set, hlt]⟩

theorem readAt_set_of_ne {mem : List Nat} {i j : Int} (w : Nat) (hi : 0 ≤ i) (hj : 0 ≤ j)
    (hne : i ≠ j) : readAt (mem.set j.toNat w) i = readAt mem i := by
  unfold readAt
  have : j.toNat ≠ i.toNat := by omega
  simp [List.getElem?_set, this]

theorem set_of_getElem? {l : List Nat} {i v : Nat} (h : l[i]? = some v) : l.set i v = l := by
  apply List.ext_getElem?
  intro k
  rw [List.getElem?_set]
  split_ifs with h1 h2
  · rw [← h1, h]
  · rw [← h1, List.getElem?_eq_none (by omega)]
  · rfl

theorem set_of_readAt {mem : List Nat} {i : Int} {v : Nat} (h : readAt mem i = some v) :
    mem.set i.toNat v = mem :=
  set_of_getElem? (readAt_some_iff.mp h).2

theorem readAt_cstr_append (pre rest : List Nat) (k : Nat) :
    readAt (cstr (pre ++ rest)) ((pre.length + k : Nat) : Int) = readAt (cstr rest) (k : Int) := by
  rw [readAt_natCast, readAt_natCast]
  simp [cstr, List.append_assoc, List.getElem?_append_right]

theorem readAt_cstr_replicate {n k : Nat} (c : Nat) (rest : List Nat) (h : k < n) :
    readAt (cstr (List.replicate n c ++ rest)) (k : Int) = some c := by
  rw [readAt_natCast]
  simp [cstr, List.append_assoc, List.getElem?_append_left, h, List.getElem?_replicate]

/-- A block of `n` consecutive `+` adds `n` to the current cell, modulo 256. -/
theorem steps_plus_block : ∀ (n : Nat) (s : State) (v : Nat),
    (∀ k : Nat, k < n → readAt (cstr prog) (s.cp + k) = some cPlus) →
    readAt s.data s.dp = some v → v < 256 →
    steps prog inp n s =
      some { s with cp := s.cp + n, data := s.data.set s.dp.toNat ((v + n) % 256) } := by
  intro n
  induction n with
  | zero =>
    intro s v _ hv hlt
    simp [steps, Nat.mod_eq_of_lt hlt, set_of_readAt hv]
  | succ n ih =>
    intro s v hp hv _
    have h0 : readAt (cstr prog) s.cp = some cPlus := by simpa using hp 0 (by omega)
    rw [steps_succ_next (step_plus h0 hv)]
    rw [ih _ ((v + 1) % 256) (fun k hk => by
      have := hp (k + 1) (by omega)
      rw [← this]; dsimp only; congr 1; push_cast; omega) (readAt_set_self _ hv)
      (Nat.mod_lt _ (by omega))]
    simp only [List.set_set]
    congr 2
    · simp; omega
    · congr 1; omega

/-- A block of `n` consecutive `-` subtracts `n` from the current cell, modulo 256. -/
theorem steps_minus_block : ∀ (n : Nat) (s : State) (v : Nat),
    (∀ k : Nat, k < n → readAt (cstr prog) (s.cp + k) = some cMinus) →
    readAt s.data s.dp = some v → v < 256 →
    steps prog inp n s =
      some { s with cp := s.cp + n, data := s.data.set s.dp.toNat ((v + 255 * n) % 256) } := by
  intro n
  induction n with
  | zero =>
    intro s v _ hv hlt
    simp [steps, Nat.mod_eq_of_lt hlt, set_of_readAt hv]
  | succ n ih =>
    intro s v hp hv _
    have h0 : readAt (cstr prog) s.cp = some cMinus := by simpa using hp 0 (by omega)
    rw [steps_succ_next (step_minus h0 hv)]
    rw [ih _ ((v + 255) % 256) (fun k hk => by
      have := hp (k + 1) (by omega)
      rw [← this]; dsimp only; congr 1; push_cast; omega) (readAt_set_self _ hv)
      (Nat.mod_lt _ (by omega))]
    simp only [List.set_set]
    congr 2
    · simp; omega
    · congr 1; omega

theorem readAt_init_cell : readAt initState.data initState.dp = some 0 := by
  have h500 : 500 < DATASIZE := by decide
  simp [readAt, initState, List.getElem?_replicate, h500]

end Blocks

/-! ## The echo program -/

theorem echoProgram_succ (n : Nat) : echoProgram (n + 1) = cComma :: cDot :: echoProgram n := by
  simp [echoProgram, List.replicate_succ]

theorem echoProgram_length (n : Nat) : (echoProgram n).length = 2 * n := by
  induction n with
  | zero => simp [echoProgram]
  | succ n ih => rw [echoProgram_succ]; simp [ih]; omega

theorem echoProgram_get : ∀ (n k : Nat), k < n →
    (echoProgram n)[2 * k]? = some cComma ∧ (echoProgram n)[2 * k + 1]? = some cDot := by
  intro n
  induction n with
  | zero => intro k hk; omega
  | succ n ih =>
    intro k hk
    rw [echoProgram_succ]
    cases k with
    | zero => simp
    | succ k =>
      have := ih k (by omega)
      have e1 : 2 * (k + 1) = (2 * k) + 1 + 1 := by omega
      rw [e1]
      simpa using this

/-- The state of the run of `echoProgram` on `s` after `k` repetitions. -/
theorem echo_steps (s : List Nat) : ∀ k : Nat, k ≤ s.length →
    ∃ d v, steps (echoProgram s.length) s (2 * k) initState =
        some { cp := ((2 * k : Nat) : Int), dp := 500, data := d, input := k, out := s.take k } ∧
      readAt d 500 = some v := by
  intro k
  induction k with
  | zero =>
    intro _
    exact ⟨initState.data, 0, by simp [steps, initState], readAt_init_cell⟩
  | succ k ih =>
    intro hk
    obtain ⟨d, v, hsteps, hv⟩ := ih (by omega)
    obtain ⟨hc, hd⟩ := echoProgram_get s.length k (by omega)
    have hlen := echoProgram_length s.length
    have hk' : k < s.length := by omega
    have s1 : step (echoProgram s.length) s
        { cp := ((2 * k : Nat) : Int), dp := 500, data := d, input := k, out := s.take k } =
        .next { cp := ((2 * k + 1 : Nat) : Int), dp := 500, data := d.set 500 s[k],
                input := k + 1, out := s.take k } := by
      rw [step_comma
        (s := { cp := ((2 * k : Nat) : Int), dp := 500, data := d, input := k, out := s.take k })
        (v := v) (c := s[k])
        (by rw [readAt_cstr_of_lt (by omega)]; exact hc) hv
        (by rw [readAt_cstr_of_lt hk']; simp)]
      simp
    have s2 : step (echoProgram s.length) s
        { cp := ((2 * k + 1 : Nat) : Int), dp := 500, data := d.set 500 s[k],
          input := k + 1, out := s.take k } =
        .next { cp := ((2 * (k + 1) : Nat) : Int), dp := 500, data := d.set 500 s[k],
                input := k + 1, out := s.take (k + 1) } := by
      rw [step_dot
        (s := { cp := ((2 * k + 1 : Nat) : Int), dp := 500, data := d.set 500 s[k],
                input := k + 1, out := s.take k })
        (v := s[k])
        (by rw [readAt_cstr_of_lt (by omega)]; exact hd) (readAt_set_self (i := 500) _ hv)]
      rw [List.take_succ, List.getElem?_eq_getElem hk']
      simp only [Option.toList, Step.next.injEq, State.mk.injEq, and_true, true_and]
      push_cast
      omega
    refine ⟨d.set 500 s[k], s[k], ?_, readAt_set_self (i := 500) _ hv⟩
    have e : 2 * (k + 1) = 2 * k + 2 := by omega
    rw [e, steps_add (2 * k) 2 _ _ hsteps, steps_succ_next s1, steps_succ_next s2]
    simp only [steps]
    rw [← e]

/-! ## Straight-line stretches and visit counts -/

section Straight

variable {prog inp : List Nat}

theorem trace_succ_next {s s' : State} (h : step prog inp s = .next s') (n : Nat) :
    trace prog inp (n + 1) s = s :: trace prog inp n s' := by
  simp [trace, h]

theorem visits_succ_next {s s' : State} (h : step prog inp s = .next s') (i : Int) (n : Nat) :
    visits prog inp i (n + 1) s = (if s.cp = i then 1 else 0) + visits prog inp i n s' := by
  unfold visits
  rw [trace_succ_next h, List.countP_cons]
  simp only [decide_eq_true_eq]
  omega

theorem visits_zero (i : Int) (s : State) : visits prog inp i 0 s = 0 := by
  simp [visits, trace]

theorem visits_steps {m : Nat} {s s' : State} (h : steps prog inp m s = some s') (i : Int)
    (k : Nat) : visits prog inp i (m + k) s = visits prog inp i m s + visits prog inp i k s' := by
  unfold visits
  rw [trace_steps m k s s' h, List.countP_append]

theorem visits_eq_zero {i : Int} {n : Nat} {s : State}
    (h : ∀ t ∈ trace prog inp n s, t.cp ≠ i) : visits prog inp i n s = 0 := by
  unfold visits
  rw [List.countP_eq_zero]
  intro t ht
  simpa using h t ht

/-- An instruction other than a bracket advances the instruction pointer by one. -/
theorem step_next_cp {s s' : State} {c : Nat} (h : step prog inp s = .next s')
    (hc : readAt (cstr prog) s.cp = some c) (ho : c ≠ cOpen) (hcl : c ≠ cClose) :
    s'.cp = s.cp + 1 := by
  rcases command_cases c with rfl | rfl | rfl | rfl | rfl | rfl | rfl | rfl | rfl | ⟨h0, hn⟩
  · simp [step_zero hc] at h
  · simp [step_gt hc] at h; subst h; rfl
  · simp [step_lt hc] at h; subst h; rfl
  · cases hv : readAt s.data s.dp with
    | none => simp [step_cell_none hc (by simp) hv] at h
    | some v => simp [step_plus hc hv] at h; subst h; rfl
  · cases hv : readAt s.data s.dp with
    | none => simp [step_cell_none hc (by simp) hv] at h
    | some v => simp [step_minus hc hv] at h; subst h; rfl
  · cases hv : readAt s.data s.dp with
    | none => simp [step_cell_none hc (by simp) hv] at h
    | some v => simp [step_dot hc hv] at h; subst h; rfl
  · cases hv : readAt s.data s.dp with
    | none => simp [step_cell_none hc (by simp) hv] at h
    | some v =>
      cases hi : readAt (cstr inp) s.input with
      | none => simp [step_comma_none hc hi] at h
      | some c => simp [step_comma hc hv hi] at h; subst h; rfl
  · exact absurd rfl ho
  · exact absurd rfl hcl
  · simp [step_other hc h0 hn] at h; subst h; rfl

/-- The instructions executed in a stretch of text without brackets are fetched inside
that stretch. -/
theorem trace_straight : ∀ (n : Nat) (s : State),
    (∀ k : Nat, k < n → ∃ c, readAt (cstr prog) (s.cp + k) = some c ∧ c ≠ cOpen ∧ c ≠ cClose) →
    ∀ t ∈ trace prog inp n s, s.cp ≤ t.cp ∧ t.cp < s.cp + n := by
  intro n
  induction n with
  | zero => intro s _ t ht; simp [trace] at ht
  | succ n ih =>
    intro s hp t ht
    cases hs : step prog inp s with
    | halt s' => simp [trace, hs] at ht
    | outOfBounds => simp [trace, hs] at ht
    | next s' =>
      rw [trace_succ_next hs, List.mem_cons] at ht
      rcases ht with rfl | ht
      · constructor
        · omega
        · push_cast; omega
      · obtain ⟨c, hc, ho, hcl⟩ := hp 0 (by omega)
        have hcp := step_next_cp hs (by simpa using hc) ho hcl
        have := ih s' (fun k hk => by
          obtain ⟨c', hc', h'⟩ := hp (k + 1) (by omega)
          refine ⟨c', ?_, h'⟩
          rw [← hc', hcp]; congr 1; push_cast; omega) t ht
        rw [hcp] at this
        constructor
        · omega
        · push_cast; omega

theorem visits_straight {i : Int} {n : Nat} {s : State}
    (hp : ∀ k : Nat, k < n → ∃ c, readAt (cstr prog) (s.cp + k) = some c ∧ c ≠ cOpen ∧ c ≠ cClose)
    (hi : i < s.cp ∨ s.cp + n ≤ i) : visits prog inp i n s = 0 := by
  apply visits_eq_zero
  intro t ht
  have := trace_straight n s hp t ht
  omega

/-- A scan runs over bytes that are not brackets without changing its counter. -/
theorem scanFwd_skip : ∀ (l rest : List Nat) (f cp : Int),
    (∀ c ∈ l, c ≠ cOpen ∧ c ≠ cClose) →
    scanFwd (l ++ rest) f cp = if f = 0 then some cp else scanFwd rest f (cp + l.length) := by
  intro l
  induction l with
  | nil => intro rest f cp _; split_ifs with h <;> simp [h, scanFwd_zero]
  | cons c l ih =>
    intro rest f cp hl
    by_cases hf : f = 0
    · simp [hf, scanFwd_zero]
    · have hc := hl c (by simp)
      rw [List.cons_append, scanFwd_cons hf, ih rest _ _ (fun x hx => hl x (by simp [hx]))]
      simp only [bumpFwd, hc.1, hc.2, if_false, hf]
      congr 1
      simp only [List.length_cons]; push_cast; omega

theorem scanBack_skip : ∀ (l rest : List Nat) (f cp : Int),
    (∀ c ∈ l, c ≠ cOpen ∧ c ≠ cClose) →
    scanBack (l ++ rest) f cp = if f = 0 then some cp else scanBack rest f (cp - l.length) := by
  intro l
  induction l with
  | nil => intro rest f cp _; split_ifs with h <;> simp [h, scanBack_zero]
  | cons c l ih =>
    intro rest f cp hl
    by_cases hf : f = 0
    · simp [hf, scanBack_zero]
    · have hc := hl c (by simp)
      rw [List.cons_append, scanBack_cons hf, ih rest _ _ (fun x hx => hl x (by simp [hx]))]
      simp only [bumpBack, hc.1, hc.2, if_false, hf]
      congr 1
      simp only [List.length_cons]; push_cast; omega

end Straight

/-! ## The multiplication program -/

section Mul

variable (a b : Nat)

theorem mulProgram_eq :
    mulProgram a b = List.replicate a cPlus ++ (cOpen :: cGt :: (List.replicate b cPlus ++
      [cLt, cMinus, cClose, cGt, cDot])) := by
  simp [mulProgram]

theorem mulProgram_length : (mulProgram a b).length = a + b + 7 := by
  simp [mulProgram]; omega

theorem mulProgram_getElem? (k : Nat) :
    (mulProgram a b)[k]? =
      if k < a then some cPlus
      else if k = a then some cOpen
      else if k = a + 1 then some cGt
      else if k < a + 2 + b then some cPlus
      else [cLt, cMinus, cClose, cGt, cDot][k - (a + 2 + b)]? := by
  rw [mulProgram_eq]
  by_cases h1 : k < a
  · simp [h1, List.getElem?_append_left, List.getElem?_replicate]
  · rw [List.getElem?_append_right (by simpa using h1), if_neg h1]
    simp only [List.length_replicate]
    obtain ⟨j, rfl⟩ : ∃ j, k = a + j := ⟨k - a, by omega⟩
    have e : a + j - a = j := by omega
    rw [e]
    rcases j with _ | _ | j
    · simp
    · simp
    · have e2 : a + (j + 1 + 1) - (a + 2 + b) = j - b := by omega
      rw [if_neg (by omega), if_neg (by omega), e2]
      simp only [List.getElem?_cons_succ]
      by_cases h2 : j < b
      · rw [if_pos (by omega), List.getElem?_append_left (by simpa using h2)]
        simp [List.getElem?_replicate, h2]
      · rw [if_neg (by omega), List.getElem?_append_right (by simpa using h2)]
        simp

theorem mulProgram_read {k : Nat} (h : k < a + b + 7) :
    readAt (cstr (mulProgram a b)) (k : Int) = (mulProgram a b)[k]? :=
  readAt_cstr_of_lt (by rw [mulProgram_length]; exact h)

theorem mulProgram_plusA {k : Nat} (h : k < a) :
    readAt (cstr (mulProgram a b)) (k : Int) = some cPlus := by
  rw [mulProgram_read a b (by omega), mulProgram_getElem?, if_pos h]

theorem mulProgram_open : readAt (cstr (mulProgram a b)) (a : Int) = some cOpen := by
  rw [mulProgram_read a b (by omega), mulProgram_getElem?]
  simp

theorem mulProgram_gt : readAt (cstr (mulProgram a b)) ((a : Int) + 1) = some cGt := by
  have e : (a : Int) + 1 = ((a + 1 : Nat) : Int) := by push_cast; rfl
  rw [e, mulProgram_read a b (by omega), mulProgram_getElem?]
  simp

theorem mulProgram_plusB {k : Nat} (h : k < b) :
    readAt (cstr (mulProgram a b)) ((a : Int) + 2 + k) = some cPlus := by
  have e : (a : Int) + 2 + k = ((a + 2 + k : Nat) : Int) := by push_cast; rfl
  rw [e, mulProgram_read a b (by omega), mulProgram_getElem?, if_neg (by omega),
    if_neg (by omega), if_neg (by omega), if_pos (by omega)]

theorem mulProgram_tail {j : Nat} (h : j < 5) :
    readAt (cstr (mulProgram a b)) ((a : Int) + b + 2 + j) =
      [cLt, cMinus, cClose, cGt, cDot][j]? := by
  have e : (a : Int) + b + 2 + j = ((a + 2 + b + j : Nat) : Int) := by push_cast; ring
  have e2 : a + 2 + b + j - (a + 2 + b) = j := by omega
  rw [e, mulProgram_read a b (by omega), mulProgram_getElem?, if_neg (by omega),
    if_neg (by omega), if_neg (by omega), if_neg (by omega), e2]

theorem mulProgram_end : readAt (cstr (mulProgram a b)) ((a : Int) + b + 7) = some 0 := by
  have e : (a : Int) + b + 7 = (((mulProgram a b).length : Nat) : Int) := by
    rw [mulProgram_length]; push_cast; rfl
  rw [e]
  exact readAt_cstr_length _

theorem mulProgram_scanFwd :
    scanFwd (memUp (cstr (mulProgram a b)) ((a : Int) + 1)) 1 ((a : Int) + 1) =
      some ((a : Int) + b + 5) := by
  have e : (a : Int) + 1 = ((a + 1 : Nat) : Int) := by push_cast; rfl
  rw [e, memUp_cstr (by rw [mulProgram_length]; omega)]
  have hd : (mulProgram a b).drop (a + 1) ++ [0] =
      (cGt :: (List.replicate b cPlus ++ [cLt, cMinus])) ++ [cClose, cGt, cDot, 0] := by
    rw [mulProgram_eq, List.drop_append_eq_append_drop]
    simp
  rw [hd, scanFwd_skip _ _ _ _ (by
    intro c hc
    simp only [List.mem_cons, List.mem_append, List.mem_replicate, List.mem_singleton,
      List.not_mem_nil, or_false] at hc
    rcases hc with rfl | ⟨_, rfl⟩ | rfl | rfl <;> decide)]
  rw [if_neg (by decide), scanFwd_cons (by decide)]
  have : bumpFwd 1 cClose = 0 := by decide
  rw [this, scanFwd_zero]
  congr 1
  simp only [List.length_cons, List.length_append, List.length_replicate, List.length_nil]
  push_cast
  omega

theorem mulProgram_scanBack :
    scanBack (memDown (cstr (mulProgram a b)) ((a : Int) + b + 4 - 1)) 1 ((a : Int) + b + 4 - 1) =
      some ((a : Int) - 1) := by
  have e : (a : Int) + b + 4 = ((a + b + 4 : Nat) : Int) := by push_cast; rfl
  rw [e, memDown_cstr (by rw [mulProgram_length]; omega)]
  have hd : ((mulProgram a b).take (a + b + 4)).reverse =
      (cMinus :: cLt :: (List.replicate b cPlus ++ [cGt])) ++ (cOpen :: List.replicate a cPlus) := by
    have : mulProgram a b = (List.replicate a cPlus ++ (cOpen :: cGt :: (List.replicate b cPlus ++
        [cLt, cMinus]))) ++ [cClose, cGt, cDot] := by
      simp [mulProgram]
    rw [this, List.take_left' (by simp; omega)]
    simp
  rw [hd, scanBack_skip _ _ _ _ (by
    intro c hc
    simp only [List.mem_cons, List.mem_append, List.mem_replicate, List.mem_singleton,
      List.not_mem_nil, or_false] at hc
    rcases hc with rfl | rfl | ⟨_, rfl⟩ | rfl <;> decide)]
  rw [if_neg (by decide), scanBack_cons (by decide)]
  have : bumpBack 1 cOpen = 0 := by decide
  rw [this, scanBack_zero]
  congr 1
  simp only [List.length_cons, List.length_append, List.length_replicate, List.length_nil]
  push_cast
  omega

end Mul

section MulRun

variable (a b : Nat) (inp : List Nat)

/-- One turn of the loop of `mulProgram`, entered at its `[` with a non-zero counter
cell: the counter cell loses 1, the cell to its right gains `b`, the body is entered
once, and control is back at the `[`, or past the `]` when the counter reached 0. -/
theorem mul_turn (d : List Nat) (i0 : Nat) (o0 : List Nat) (x y : Nat)
    (hx : readAt d 500 = some x) (hx0 : 0 < x) (hx1 : x < 256)
    (hy : readAt d 501 = some y) (hy1 : y < 256) :
    ∃ d', steps (mulProgram a b) inp (b + 5)
          { cp := (a : Int), dp := 500, data := d, input := i0, out := o0 } =
        some { cp := if x = 1 then (a : Int) + b + 5 else (a : Int), dp := 500, data := d',
               input := i0, out := o0 } ∧
      readAt d' 500 = some (x - 1) ∧ readAt d' 501 = some ((y + b) % 256) ∧
      visits (mulProgram a b) inp ((a : Int) + 1) (b + 5)
          { cp := (a : Int), dp := 500, data := d, input := i0, out := o0 } = 1 := by
  have s1 : step (mulProgram a b) inp
      { cp := (a : Int), dp := 500, data := d, input := i0, out := o0 } =
      .next { cp := (a : Int) + 1, dp := 500, data := d, input := i0, out := o0 } :=
    step_open_skip (s := { cp := (a : Int), dp := 500, data := d, input := i0, out := o0 })
      (mulProgram_open a b) hx (by omega)
  have s2 : step (mulProgram a b) inp
      { cp := (a : Int) + 1, dp := 500, data := d, input := i0, out := o0 } =
      .next { cp := (a : Int) + 2, dp := 501, data := d, input := i0, out := o0 } := by
    rw [step_gt (s := { cp := (a : Int) + 1, dp := 500, data := d, input := i0, out := o0 })
      (mulProgram_gt a b)]
    simp only [Step.next.injEq, State.mk.injEq, and_true, true_and]
    constructor <;> omega
  have blk : steps (mulProgram a b) inp b
      { cp := (a : Int) + 2, dp := 501, data := d, input := i0, out := o0 } =
      some { cp := (a : Int) + b + 2, dp := 501, data := d.set 501 ((y + b) % 256),
             input := i0, out := o0 } := by
    rw [steps_plus_block b
      { cp := (a : Int) + 2, dp := 501, data := d, input := i0, out := o0 } y
      (fun k hk => mulProgram_plusB a b hk) hy hy1]
    simp only [Option.some.injEq, State.mk.injEq, and_true, true_and]
    constructor
    · omega
    · rfl
  have hx' : readAt (d.set 501 ((y + b) % 256)) 500 = some x := by
    rw [show (501 : Nat) = (501 : Int).toNat from rfl,
      readAt_set_of_ne _ (by omega) (by omega) (by omega)]
    exact hx
  have hy' : readAt (d.set 501 ((y + b) % 256)) 501 = some ((y + b) % 256) :=
    readAt_set_self (i := 501) _ hy
  have s4 : step (mulProgram a b) inp
      { cp := (a : Int) + b + 2, dp := 501, data := d.set 501 ((y + b) % 256),
        input := i0, out := o0 } =
      .next { cp := (a : Int) + b + 3, dp := 500, data := d.set 501 ((y + b) % 256),
              input := i0, out := o0 } := by
    rw [step_lt
      (s := { cp := (a : Int) + b + 2, dp := 501, data := d.set 501 ((y + b) % 256),
              input := i0, out := o0 })
      (by simpa using mulProgram_tail a b (j := 0) (by omega))]
    simp only [Step.next.injEq, State.mk.injEq, and_true, true_and]
    constructor <;> omega
  have s5 : step (mulProgram a b) inp
      { cp := (a : Int) + b + 3, dp := 500, data := d.set 501 ((y + b) % 256),
        input := i0, out := o0 } =
      .next { cp := (a : Int) + b + 4, dp := 500,
              data := (d.set 501 ((y + b) % 256)).set 500 (x - 1), input := i0, out := o0 } := by
    rw [step_minus
      (s := { cp := (a : Int) + b + 3, dp := 500, data := d.set 501 ((y + b) % 256),
              input := i0, out := o0 })
      (v := x) (by simpa using mulProgram_tail a b (j := 1) (by omega)) hx']
    simp only [Step.next.injEq, State.mk.injEq, and_true, true_and]
    refine ⟨by omega, ?_⟩
    congr 1
    omega
  have hx'' : readAt ((d.set 501 ((y + b) % 256)).set 500 (x - 1)) 500 = some (x - 1) :=
    readAt_set_self (i := 500) _ hx'
  have hy'' : readAt ((d.set 501 ((y + b) % 256)).set 500 (x - 1)) 501 =
      some ((y + b) % 256) := by
    rw [show (500 : Nat) = (500 : Int).toNat from rfl,
      readAt_set_of_ne _ (by omega) (by omega) (by omega)]
    exact hy'
  have hclose : readAt (cstr (mulProgram a b)) ((a : Int) + b + 4) = some cClose := by
    simpa using mulProgram_tail a b (j := 2) (by omega)
  have s6 : step (mulProgram a b) inp
      { cp := (a : Int) + b + 4, dp := 500,
        data := (d.set 501 ((y + b) % 256)).set 500 (x - 1), input := i0, out := o0 } =
      .next { cp := if x = 1 then (a : Int) + b + 5 else (a : Int), dp := 500,
              data := (d.set 501 ((y + b) % 256)).set 500 (x - 1), input := i0, out := o0 } := by
    by_cases h1 : x = 1
    · subst h1
      rw [step_close_skip
        (s := { cp := (a : Int) + b + 4, dp := 500,
                data := (d.set 501 ((y + b) % 256)).set 500 (1 - 1), input := i0, out := o0 })
        hclose hx'']
      simp only [if_true, Step.next.injEq, State.mk.injEq, and_true]
      omega
    · rw [step_close_jump
        (s := { cp := (a : Int) + b + 4, dp := 500,
                data := (d.set 501 ((y + b) % 256)).set 500 (x - 1), input := i0, out := o0 })
        (v := x - 1) hclose hx'' (by omega) (mulProgram_scanBack a b)]
      simp [h1]
  refine ⟨(d.set 501 ((y + b) % 256)).set 500 (x - 1), ?_, hx'', hy'', ?_⟩
  · have e : b + 5 = (b + 3) + 1 + 1 := by omega
    rw [e, steps_succ_next s1, steps_succ_next s2, steps_add b 3 _ _ blk, steps_succ_next s4,
      steps_succ_next s5, steps_succ_next s6]
    rfl
  · have e : b + 5 = (b + 3) + 1 + 1 := by omega
    rw [e, visits_succ_next s1, visits_succ_next s2, visits_steps blk, visits_succ_next s4,
      visits_succ_next s5, visits_succ_next s6, visits_zero,
      visits_straight (fun k hk => ⟨cPlus, mulProgram_plusB a b hk, by decide, by decide⟩)
        (Or.inl (by simp))]
    simp only [if_pos, if_true]
    rw [if_neg (by omega), if_neg (by omega), if_neg (by omega), if_neg (by omega)]

/-- The whole loop of `mulProgram`, entered at its `[` with the counter cell at `x > 0`:
the body is entered `x` times and the cell to the right gains `x * b`. -/
theorem mul_loop : ∀ (x : Nat) (d : List Nat) (i0 : Nat) (o0 : List Nat) (y : Nat),
    readAt d 500 = some x → 0 < x → x < 256 → readAt d 501 = some y → y < 256 →
    ∃ d', steps (mulProgram a b) inp (x * (b + 5))
          { cp := (a : Int), dp := 500, data := d, input := i0, out := o0 } =
        some { cp := (a : Int) + b + 5, dp := 500, data := d', input := i0, out := o0 } ∧
      readAt d' 501 = some ((y + x * b) % 256) ∧
      visits (mulProgram a b) inp ((a : Int) + 1) (x * (b + 5))
          { cp := (a : Int), dp := 500, data := d, input := i0, out := o0 } = x := by
  intro x
  induction x with
  | zero => intro d i0 o0 y _ h; omega
  | succ x ih =>
    intro d i0 o0 y hx hx0 hx1 hy hy1
    obtain ⟨d1, hsteps, hx', hy', hvis⟩ := mul_turn a b inp d i0 o0 (x + 1) y hx hx0 hx1 hy hy1
    by_cases h0 : x = 0
    · subst h0
      refine ⟨d1, ?_, ?_, ?_⟩
      · simpa using hsteps
      · simpa using hy'
      · simpa using hvis
    · rw [if_neg (by omega)] at hsteps
      obtain ⟨d2, hsteps2, hy2, hvis2⟩ := ih d1 i0 o0 ((y + b) % 256) (by simpa using hx')
        (by omega) (by omega) hy' (Nat.mod_lt _ (by omega))
      have e : (x + 1) * (b + 5) = (b + 5) + x * (b + 5) := by rw [Nat.succ_mul]; omega
      refine ⟨d2, ?_, ?_, ?_⟩
      · rw [e, steps_add (b + 5) _ _ _ hsteps, hsteps2]
      · rw [hy2, Nat.succ_mul]
        congr 1
        omega
      · rw [e, visits_steps hsteps, hvis, hvis2]
        omega

/-- The run of `mulProgram` up to the fetch of the terminator. -/
theorem mul_run : ∃ (N : Nat) (d' : List Nat),
    steps (mulProgram a b) inp N initState =
        some { cp := (a : Int) + b + 7, dp := 501, data := d', input := 0,
               out := [(a * b) % 256] } ∧
      visits (mulProgram a b) inp ((a : Int) + 1) N initState = a % 256 := by
  have h500 : 500 < DATASIZE := by decide
  have h501 : 501 < DATASIZE := by decide
  -- the block of `+` that sets the counter
  have blk : steps (mulProgram a b) inp a initState =
      some { cp := (a : Int), dp := 500, data := (List.replicate DATASIZE 0).set 500 (a % 256),
             input := 0, out := [] } := by
    rw [steps_plus_block a initState 0 (fun k hk => by
      have : initState.cp + (k : Int) = (k : Int) := by simp [initState]
      rw [this]; exact mulProgram_plusA a b hk) readAt_init_cell (by omega)]
    simp [initState]
  have vblk : visits (mulProgram a b) inp ((a : Int) + 1) a initState = 0 :=
    visits_straight (fun k hk => ⟨cPlus, by
      have : initState.cp + (k : Int) = (k : Int) := by simp [initState]
      rw [this]; exact mulProgram_plusA a b hk, by decide, by decide⟩)
      (Or.inr (by simp [initState]))
  have hx : readAt ((List.replicate DATASIZE 0).set 500 (a % 256)) 500 = some (a % 256) := by
    simp [readAt, List.getElem?_set, h500]
  have hy : readAt ((List.replicate DATASIZE 0).set 500 (a % 256)) 501 = some 0 := by
    simp [readAt, List.getElem?_set, List.getElem?_replicate, h501]
  -- the loop, then `>` and `.`
  have tail : ∀ (L : Nat) (d' : List Nat) (r : Nat),
      steps (mulProgram a b) inp L
          { cp := (a : Int), dp := 500, data := (List.replicate DATASIZE 0).set 500 (a % 256),
            input := 0, out := [] } =
        some { cp := (a : Int) + b + 5, dp := 500, data := d', input := 0, out := [] } →
      readAt d' 501 = some r →
      visits (mulProgram a b) inp ((a : Int) + 1) L
          { cp := (a : Int), dp := 500, data := (List.replicate DATASIZE 0).set 500 (a % 256),
            input := 0, out := [] } = a % 256 →
      steps (mulProgram a b) inp (a + (L + 2)) initState =
          some { cp := (a : Int) + b + 7, dp := 501, data := d', input := 0, out := [r] } ∧
        visits (mulProgram a b) inp ((a : Int) + 1) (a + (L + 2)) initState = a % 256 := by
    intro L d' r hL hr hv
    have t1 : step (mulProgram a b) inp
        { cp := (a : Int) + b + 5, dp := 500, data := d', input := 0, out := [] } =
        .next { cp := (a : Int) + b + 6, dp := 501, data := d', input := 0, out := [] } := by
      rw [step_gt
        (s := { cp := (a : Int) + b + 5, dp := 500, data := d', input := 0, out := [] })
        (by simpa using mulProgram_tail a b (j := 3) (by omega))]
      simp only [Step.next.injEq, State.mk.injEq, and_true, true_and]
      constructor <;> omega
    have t2 : step (mulProgram a b) inp
        { cp := (a : Int) + b + 6, dp := 501, data := d', input := 0, out := [] } =
        .next { cp := (a : Int) + b + 7, dp := 501, data := d', input := 0, out := [r] } := by
      rw [step_dot
        (s := { cp := (a : Int) + b + 6, dp := 501, data := d', input := 0, out := [] })
        (v := r) (by simpa using mulProgram_tail a b (j := 4) (by omega)) hr]
      simp only [Step.next.injEq, State.mk.injEq, and_true, true_and, List.nil_append]
      omega
    constructor
    · rw [steps_add a _ _ _ blk, steps_add L 2 _ _ hL, steps_succ_next t1, steps_succ_next t2]
      rfl
    · rw [visits_steps blk, vblk, visits_steps hL, hv, visits_succ_next t1, visits_succ_next t2,
        visits_zero]
      dsimp only
      rw [if_neg (by omega), if_neg (by omega)]
      omega
  by_cases hm : a % 256 = 0
  · -- the counter is 0: the `[` jumps past the `]`
    have j1 : step (mulProgram a b) inp
        { cp := (a : Int), dp := 500, data := (List.replicate DATASIZE 0).set 500 (a % 256),
          input := 0, out := [] } =
        .next { cp := (a : Int) + b + 5, dp := 500,
                data := (List.replicate DATASIZE 0).set 500 (a % 256), input := 0, out := [] } :=
      step_open_jump
        (s := { cp := (a : Int), dp := 500,
                data := (List.replicate DATASIZE 0).set 500 (a % 256), input := 0, out := [] })
        (mulProgram_open a b) (by rw [hx, hm]) (mulProgram_scanFwd a b)
    have hr : (a * b) % 256 = 0 := by rw [Nat.mul_mod, hm]; simp
    refine ⟨a + (1 + 2), (List.replicate DATASIZE 0).set 500 (a % 256), ?_⟩
    rw [hr]
    refine tail 1 _ 0 ?_ hy ?_
    · rw [steps_succ_next j1]; rfl
    · rw [visits_succ_next j1, visits_zero, hm]
      dsimp only
      rw [if_neg (by omega)]
  · obtain ⟨d', hL, hr, hv⟩ := mul_loop a b inp (a % 256) _ 0 [] 0 hx (by omega)
      (Nat.mod_lt _ (by omega)) hy (by omega)
    have e : (0 + a % 256 * b) % 256 = (a * b) % 256 := by
      rw [Nat.zero_add, Nat.mod_mul_mod]
    rw [e] at hr
    exact ⟨a + (a % 256 * (b + 5) + 2), d', tail _ d' _ hL hr hv⟩

end MulRun

theorem visits_succ_halt {prog inp : List Nat} {s s' : State} (h : step prog inp s = .halt s')
    (i : Int) (n : Nat) : visits prog inp i (n + 1) s = 0 := by
  simp [visits, trace, h]

/-! ## Comments: the run of a text and of its stripped text -/

section Strip

theorem strip_append (l r : List Nat) : strip (l ++ r) = strip l ++ strip r := by
  simp [strip]

theorem strip_cons_command {c : Nat} (h : isCommand c = true) (l : List Nat) :
    strip (c :: l) = c :: strip l := by
  simp [strip, h]

theorem strip_cons_other {c : Nat} (h : isCommand c = false) (l : List Nat) :
    strip (c :: l) = strip l := by
  simp [strip, h]

theorem strip_reverse (l : List Nat) : strip l.reverse = (strip l).reverse := by
  simp [strip]

theorem isCommand_open : isCommand cOpen = true := by decide

theorem isCommand_close : isCommand cClose = true := by decide

theorem not_bracket_of_other {c : Nat} (h : isCommand c = false) : c ≠ cOpen ∧ c ≠ cClose := by
  constructor <;> rintro rfl <;> simp [isCommand] at h

theorem bumpFwd_other {c : Nat} (h : isCommand c = false) (f : Int) : bumpFwd f c = f := by
  have := not_bracket_of_other h
  simp [bumpFwd, this.1, this.2]

theorem bumpBack_other {c : Nat} (h : isCommand c = false) (f : Int) : bumpBack f c = f := by
  have := not_bracket_of_other h
  simp [bumpBack, this.1, this.2]

/-- The forward scan of the stripped text stops at the byte that corresponds to the byte
at which the scan of the full text stops, and runs off the end when that one does. -/
theorem scanFwd_strip : ∀ (l : List Nat) (f cp cq : Int),
    (∀ r, scanFwd (l ++ [0]) f cp = some r →
      ∃ n : Nat, n ≤ l.length ∧ r = cp + n ∧
        scanFwd (strip l ++ [0]) f cq = some (cq + ((strip (l.take n)).length : Nat))) ∧
    (scanFwd (l ++ [0]) f cp = none → scanFwd (strip l ++ [0]) f cq = none) := by
  intro l
  induction l with
  | nil =>
    intro f cp cq
    by_cases hf : f = 0
    · subst hf
      simp only [List.nil_append, scanFwd_zero]
      refine ⟨fun r hr => ⟨0, by simp, by simpa using hr.symm, by simp [strip, scanFwd_zero]⟩, ?_⟩
      intro h; simp at h
    · have e : scanFwd ([] ++ [0]) f cp = none := by
        simp [scanFwd, hf, cOpen, cClose]
      have e' : scanFwd (strip [] ++ [0]) f cq = none := by
        simp [strip, scanFwd, hf, cOpen, cClose]
      rw [e]
      exact ⟨fun r hr => by simp at hr, fun _ => e'⟩
  | cons c l ih =>
    intro f cp cq
    by_cases hf : f = 0
    · subst hf
      simp only [scanFwd_zero]
      refine ⟨fun r hr => ⟨0, by simp, by simpa using hr.symm, by simp [strip]⟩, ?_⟩
      intro h; simp at h
    · rw [List.cons_append, scanFwd_cons hf]
      by_cases hc : isCommand c = true
      · rw [strip_cons_command hc, List.cons_append, scanFwd_cons hf]
        obtain ⟨ih1, ih2⟩ := ih (bumpFwd f c) (cp + 1) (cq + 1)
        refine ⟨fun r hr => ?_, ih2⟩
        obtain ⟨n, hn, hr', hq⟩ := ih1 r hr
        refine ⟨n + 1, by simpa using hn, by rw [hr']; push_cast; omega, ?_⟩
        rw [hq, List.take_succ_cons, strip_cons_command hc]
        congr 1
        simp only [List.length_cons]; push_cast; omega
      · have hc' : isCommand c = false := by simpa using hc
        rw [strip_cons_other hc', bumpFwd_other hc']
        obtain ⟨ih1, ih2⟩ := ih f (cp + 1) cq
        refine ⟨fun r hr => ?_, ih2⟩
        obtain ⟨n, hn, hr', hq⟩ := ih1 r hr
        refine ⟨n + 1, by simpa using hn, by rw [hr']; push_cast; omega, ?_⟩
        rw [hq, List.take_succ_cons, strip_cons_other hc']

/-- The backward scan of the stripped text stops at the byte that corresponds to the
byte at which the scan of the full text stops, and runs off the start when that one
does. -/
theorem scanBack_strip : ∀ (l : List Nat) (f cp cq : Int),
    (∀ r, scanBack l f cp = some r →
      ∃ n : Nat, n ≤ l.length ∧ r = cp - n ∧
        scanBack (strip l) f cq = some (cq - ((strip (l.take n)).length : Nat))) ∧
    (scanBack l f cp = none → scanBack (strip l) f cq = none) := by
  intro l
  induction l with
  | nil =>
    intro f cp cq
    by_cases hf : f = 0
    · subst hf
      simp only [scanBack_zero]
      refine ⟨fun r hr => ⟨0, by simp, by simpa using hr.symm, by simp [strip]⟩, ?_⟩
      intro h; simp at h
    · have e : scanBack [] f cp = none := by simp [scanBack, hf]
      have e' : scanBack (strip []) f cq = none := by simp [strip, scanBack, hf]
      rw [e]
      exact ⟨fun r hr => by simp at hr, fun _ => e'⟩
  | cons c l ih =>
    intro f cp cq
    by_cases hf : f = 0
    · subst hf
      simp only [scanBack_zero]
      refine ⟨fun r hr => ⟨0, by simp, by simpa using hr.symm, by simp [strip]⟩, ?_⟩
      intro h; simp at h
    · rw [scanBack_cons hf]
      by_cases hc : isCommand c = true
      · rw [strip_cons_command hc, scanBack_cons hf]
        obtain ⟨ih1, ih2⟩ := ih (bumpBack f c) (cp - 1) (cq - 1)
        refine ⟨fun r hr => ?_, ih2⟩
        obtain ⟨n, hn, hr', hq⟩ := ih1 r hr
        refine ⟨n + 1, by simpa using hn, by rw [hr']; push_cast; omega, ?_⟩
        rw [hq, List.take_succ_cons, strip_cons_command hc]
        congr 1
        simp only [List.length_cons]; push_cast; omega
      · have hc' : isCommand c = false := by simpa using hc
        rw [strip_cons_other hc', bumpBack_other hc']
        obtain ⟨ih1, ih2⟩ := ih f (cp - 1) cq
        refine ⟨fun r hr => ?_, ih2⟩
        obtain ⟨n, hn, hr', hq⟩ := ih1 r hr
        refine ⟨n + 1, by simpa using hn, by rw [hr']; push_cast; omega, ?_⟩
        rw [hq, List.take_succ_cons, strip_cons_other hc']

theorem stripIndex_natCast (p : List Nat) (i : Nat) :
    stripIndex p (i : Int) = ((strip (p.take i)).length : Nat) := by
  simp [stripIndex]

theorem strip_take_succ_command {p : List Nat} {i : Nat} (hi : i < p.length)
    (hc : isCommand p[i] = true) : strip (p.take (i + 1)) = strip (p.take i) ++ [p[i]] := by
  rw [List.take_succ, List.getElem?_eq_getElem hi, strip_append]
  simp [strip, hc]

theorem strip_take_succ_other {p : List Nat} {i : Nat} (hi : i < p.length)
    (hc : isCommand p[i] = false) : strip (p.take (i + 1)) = strip (p.take i) := by
  rw [List.take_succ, List.getElem?_eq_getElem hi, strip_append]
  simp [strip, hc]

theorem strip_split_at {p : List Nat} {i : Nat} (hi : i < p.length)
    (hc : isCommand p[i] = true) :
    strip p = strip (p.take i) ++ p[i] :: strip (p.drop (i + 1)) := by
  conv_lhs => rw [← List.take_append_drop i p]
  rw [strip_append, List.drop_eq_getElem_cons hi, strip_cons_command hc]

theorem strip_length_take_add (p : List Nat) (i n : Nat) :
    (strip (p.take (i + n))).length =
      (strip (p.take i)).length + (strip ((p.drop i).take n)).length := by
  rw [List.take_add, strip_append, List.length_append]

/-- The stripped text holds, at the corresponding index, the command the text holds. -/
theorem readAt_strip_command {p : List Nat} {i : Nat} (hi : i < p.length)
    (hc : isCommand p[i] = true) :
    readAt (cstr (strip p)) (stripIndex p (i : Int)) = some p[i] := by
  rw [stripIndex_natCast, readAt_natCast]
  conv_lhs => rw [strip_split_at hi hc]
  rw [cstr, List.append_assoc, List.getElem?_append_right (Nat.le_refl _)]
  simp

theorem readAt_strip_end (p : List Nat) :
    readAt (cstr (strip p)) (stripIndex p (p.length : Int)) = some 0 := by
  rw [stripIndex_natCast, List.take_length]
  exact readAt_cstr_length _

theorem memUp_strip {p : List Nat} {i : Nat} (hi : i < p.length)
    (hc : isCommand p[i] = true) :
    memUp (cstr (strip p)) (stripIndex p (i : Int) + 1) = strip (p.drop (i + 1)) ++ [0] := by
  rw [stripIndex_natCast]
  have e : (((strip (p.take i)).length : Nat) : Int) + 1 =
      (((strip (p.take i)).length + 1 : Nat) : Int) := by push_cast; rfl
  rw [e, memUp, if_neg (by omega), Int.toNat_ofNat, cstr, strip_split_at hi hc]
  simp [List.drop_append_eq_append_drop]

theorem strip_take_eq (p : List Nat) (i : Nat) :
    (strip p).take (strip (p.take i)).length = strip (p.take i) ∧
      (strip (p.take i)).length ≤ (strip p).length := by
  have h := strip_append (p.take i) (p.drop i)
  rw [List.take_append_drop] at h
  generalize strip (p.take i) = A at h ⊢
  rw [h]
  exact ⟨List.take_left' rfl, by simp⟩

theorem memDown_strip (p : List Nat) (i : Nat) :
    memDown (cstr (strip p)) (stripIndex p (i : Int) - 1) = strip (p.take i).reverse := by
  rw [stripIndex_natCast, memDown_cstr (strip_take_eq p i).2, strip_reverse,
    (strip_take_eq p i).1]


/-- An instruction other than a bracket does the same thing wherever it stands. -/
theorem step_shift {p q : List Nat} (inp : List Nat) {s : State} {c : Nat} (x : Int)
    (hP : readAt (cstr p) s.cp = some c) (hQ : readAt (cstr q) x = some c)
    (ho : c ≠ cOpen) (hcl : c ≠ cClose) :
    step q inp { s with cp := x } =
      match step p inp s with
      | .next s' => .next { s' with cp := x + 1 }
      | .halt s' => .halt { s' with cp := x + 1 }
      | .outOfBounds => .outOfBounds := by
  have hQ' : readAt (cstr q) ({ s with cp := x } : State).cp = some c := hQ
  rcases command_cases c with rfl | rfl | rfl | rfl | rfl | rfl | rfl | rfl | rfl | ⟨h0, hn⟩
  · rw [step_zero hP, step_zero hQ']
  · rw [step_gt hP, step_gt hQ']
  · rw [step_lt hP, step_lt hQ']
  · cases hv : readAt s.data s.dp with
    | none => rw [step_cell_none hP (by simp) hv, step_cell_none hQ' (by simp) hv]
    | some v => rw [step_plus hP hv, step_plus hQ' hv]
  · cases hv : readAt s.data s.dp with
    | none => rw [step_cell_none hP (by simp) hv, step_cell_none hQ' (by simp) hv]
    | some v => rw [step_minus hP hv, step_minus hQ' hv]
  · cases hv : readAt s.data s.dp with
    | none => rw [step_cell_none hP (by simp) hv, step_cell_none hQ' (by simp) hv]
    | some v => rw [step_dot hP hv, step_dot hQ' hv]
  · cases hv : readAt s.data s.dp with
    | none => rw [step_cell_none hP (by simp) hv, step_cell_none hQ' (by simp) hv]
    | some v =>
      cases hi : readAt (cstr inp) s.input with
      | none => rw [step_comma_none hP hi, step_comma_none hQ' hi]
      | some b => rw [step_comma hP hv hi, step_comma hQ' hv hi]
  · exact absurd rfl ho
  · exact absurd rfl hcl
  · rw [step_other hP h0 hn, step_other hQ' h0 hn]

section Sim

variable {p : List Nat} (inp : List Nat) {s : State} {i : Nat}

/-- At the end of the text both runs leave the loop. -/
theorem sim_end (hcp : s.cp = (p.length : Int)) :
    step p inp s = .halt { s with cp := s.cp + 1 } ∧
      step (strip p) inp (shadow p s) =
        .halt { s with cp := stripIndex p s.cp + 1 } := by
  have hP : readAt (cstr p) s.cp = some 0 := by rw [hcp]; exact readAt_cstr_length p
  have hQ : readAt (cstr (strip p)) (shadow p s).cp = some 0 := by
    show readAt (cstr (strip p)) (stripIndex p s.cp) = some 0
    rw [hcp]; exact readAt_strip_end p
  exact ⟨step_zero hP, step_zero hQ⟩

/-- A byte that is not a command is skipped, and the corresponding state of the run of
the stripped text does not change. -/
theorem sim_comment (hp : IsCString p) (hcp : s.cp = (i : Int)) (hi : i < p.length)
    (hc : isCommand p[i] = false) :
    step p inp s = .next { s with cp := s.cp + 1 } ∧
      shadow p { s with cp := s.cp + 1 } = shadow p s := by
  have hP : readAt (cstr p) s.cp = some p[i] := by
    rw [hcp, readAt_cstr_of_lt hi, List.getElem?_eq_getElem hi]
  refine ⟨step_other hP (hp _ (List.getElem_mem _)) hc, ?_⟩
  have e : s.cp + 1 = ((i + 1 : Nat) : Int) := by rw [hcp]; push_cast; rfl
  show ({ s with cp := stripIndex p (s.cp + 1) } : State) = { s with cp := stripIndex p s.cp }
  rw [e, hcp, stripIndex_natCast, stripIndex_natCast, strip_take_succ_other hi hc]

/-- A command other than a bracket is executed by both runs with the same effect. -/
theorem sim_plain (hcp : s.cp = (i : Int)) (hi : i < p.length)
    (hc : isCommand p[i] = true) (ho : p[i] ≠ cOpen) (hcl : p[i] ≠ cClose) :
    (∀ s', step p inp s = .next s' →
      s'.cp = ((i + 1 : Nat) : Int) ∧ step (strip p) inp (shadow p s) = .next (shadow p s')) ∧
    (step p inp s = .outOfBounds → step (strip p) inp (shadow p s) = .outOfBounds) := by
  have hP : readAt (cstr p) s.cp = some p[i] := by
    rw [hcp, readAt_cstr_of_lt hi, List.getElem?_eq_getElem hi]
  have hQ : readAt (cstr (strip p)) (stripIndex p s.cp) = some p[i] := by
    rw [hcp]; exact readAt_strip_command hi hc
  have hshift := step_shift inp (stripIndex p s.cp) hP hQ ho hcl
  constructor
  · intro s' hs'
    have hcp' : s'.cp = ((i + 1 : Nat) : Int) := by
      rw [step_next_cp hs' hP ho hcl, hcp]; push_cast; rfl
    refine ⟨hcp', ?_⟩
    rw [hs'] at hshift
    rw [show shadow p s = { s with cp := stripIndex p s.cp } from rfl, hshift]
    simp only [shadow, hcp', hcp, stripIndex_natCast, strip_take_succ_command hi hc,
      List.length_append, List.length_singleton]
    push_cast
    rfl
  · intro hs'
    rw [hs'] at hshift
    exact hshift


theorem strip_length_take_sub (p : List Nat) {i n : Nat} (hi : i ≤ p.length) (hn : n ≤ i) :
    (strip (p.take i)).length =
      (strip (p.take (i - n))).length + (strip ((p.take i).reverse.take n)).length := by
  have h1 : (p.take i).reverse.take n = ((p.take i).drop (i - n)).reverse := by
    rw [List.take_reverse]
    congr 2
    simp [Nat.min_eq_left hi]
  have h2 : p.take i = p.take (i - n) ++ (p.take i).drop (i - n) := by
    conv_lhs => rw [← List.take_append_drop (i - n) (p.take i)]
    rw [List.take_take, Nat.min_eq_left (by omega)]
  rw [h1, strip_reverse, List.length_reverse]
  conv_lhs => rw [h2, strip_append, List.length_append]

/-- A `[` is executed by both runs with the same effect: both fall into the loop, or both
jump past the matching `]`, or both scans run off the end. -/
theorem sim_open (hcp : s.cp = (i : Int)) (hi : i < p.length) (hc : p[i] = cOpen) :
    (∀ s', step p inp s = .next s' →
      (∃ i' : Nat, s'.cp = (i' : Int) ∧ i' ≤ p.length) ∧
        step (strip p) inp (shadow p s) = .next (shadow p s')) ∧
    (step p inp s = .outOfBounds → step (strip p) inp (shadow p s) = .outOfBounds) := by
  have hcmd : isCommand p[i] = true := by rw [hc]; decide
  have hP : readAt (cstr p) s.cp = some cOpen := by
    rw [hcp, readAt_cstr_of_lt hi, List.getElem?_eq_getElem hi, hc]
  have hQ : readAt (cstr (strip p)) (shadow p s).cp = some cOpen := by
    show readAt (cstr (strip p)) (stripIndex p s.cp) = some cOpen
    rw [hcp, readAt_strip_command hi hcmd, hc]
  have hnext : stripIndex p ((i + 1 : Nat) : Int) = stripIndex p (i : Int) + 1 := by
    rw [stripIndex_natCast, stripIndex_natCast, strip_take_succ_command hi hcmd]
    simp
  cases hv : readAt s.data s.dp with
  | none =>
    have hv' : readAt (shadow p s).data (shadow p s).dp = none := hv
    rw [step_cell_none hP (by simp) hv, step_cell_none hQ (by simp) hv']
    exact ⟨fun s' h => by simp at h, fun _ => rfl⟩
  | some v =>
    have hv' : readAt (shadow p s).data (shadow p s).dp = some v := hv
    by_cases hz : v = 0
    · subst hz
      have hup : memUp (cstr p) (s.cp + 1) = p.drop (i + 1) ++ [0] := by
        have e : s.cp + 1 = ((i + 1 : Nat) : Int) := by rw [hcp]; push_cast; rfl
        rw [e, memUp_cstr (by omega)]
      have hupq : memUp (cstr (strip p)) ((shadow p s).cp + 1) =
          strip (p.drop (i + 1)) ++ [0] := by
        show memUp (cstr (strip p)) (stripIndex p s.cp + 1) = _
        rw [hcp, memUp_strip hi hcmd]
      obtain ⟨h1, h2⟩ := scanFwd_strip (p.drop (i + 1)) 1 (s.cp + 1) ((shadow p s).cp + 1)
      cases hA : scanFwd (memUp (cstr p) (s.cp + 1)) 1 (s.cp + 1) with
      | none =>
        rw [step_open_none hP hv hA]
        refine ⟨fun s' h => by simp at h, fun _ => ?_⟩
        exact step_open_none hQ hv' (by rw [hupq]; exact h2 (by rw [← hup]; exact hA))
      | some r =>
        rw [step_open_jump hP hv hA]
        refine ⟨fun s' h => ?_, fun h => by simp at h⟩
        obtain ⟨n, hn, hr, hB⟩ := h1 r (by rw [← hup]; exact hA)
        simp only [Step.next.injEq] at h
        subst h
        have hr' : r = ((i + 1 + n : Nat) : Int) := by rw [hr, hcp]; push_cast; rfl
        refine ⟨⟨i + 1 + n, hr', by simp at hn; omega⟩, ?_⟩
        rw [step_open_jump hQ hv' (by rw [hupq]; exact hB)]
        show Step.next _ = Step.next ({ s with cp := stripIndex p r } : State)
        rw [hr', stripIndex_natCast, strip_length_take_add]
        show Step.next ({ s with cp := stripIndex p s.cp + 1 + _ } : State) = _
        rw [hcp, stripIndex_natCast, strip_take_succ_command hi hcmd]
        simp only [List.length_append, List.length_singleton]
        push_cast
        rfl
    · rw [step_open_skip hP hv hz, step_open_skip hQ hv' hz]
      refine ⟨fun s' h => ?_, fun h => by simp at h⟩
      simp only [Step.next.injEq] at h
      subst h
      have e : s.cp + 1 = ((i + 1 : Nat) : Int) := by rw [hcp]; push_cast; rfl
      refine ⟨⟨i + 1, e, by omega⟩, ?_⟩
      show Step.next ({ s with cp := stripIndex p s.cp + 1 } : State) =
        Step.next ({ s with cp := stripIndex p (s.cp + 1) } : State)
      rw [e, hnext, hcp]

/-- A `]` is executed by both runs with the same effect: both leave the loop, or both
jump back to the matching `[`, or both scans run off the start. -/
theorem sim_close (hcp : s.cp = (i : Int)) (hi : i < p.length) (hc : p[i] = cClose) :
    (∀ s', step p inp s = .next s' →
      (∃ i' : Nat, s'.cp = (i' : Int) ∧ i' ≤ p.length) ∧
        step (strip p) inp (shadow p s) = .next (shadow p s')) ∧
    (step p inp s = .outOfBounds → step (strip p) inp (shadow p s) = .outOfBounds) := by
  have hcmd : isCommand p[i] = true := by rw [hc]; decide
  have hP : readAt (cstr p) s.cp = some cClose := by
    rw [hcp, readAt_cstr_of_lt hi, List.getElem?_eq_getElem hi, hc]
  have hQ : readAt (cstr (strip p)) (shadow p s).cp = some cClose := by
    show readAt (cstr (strip p)) (stripIndex p s.cp) = some cClose
    rw [hcp, readAt_strip_command hi hcmd, hc]
  have hnext : stripIndex p ((i + 1 : Nat) : Int) = stripIndex p (i : Int) + 1 := by
    rw [stripIndex_natCast, stripIndex_natCast, strip_take_succ_command hi hcmd]
    simp
  cases hv : readAt s.data s.dp with
  | none =>
    have hv' : readAt (shadow p s).data (shadow p s).dp = none := hv
    rw [step_cell_none hP (by simp) hv, step_cell_none hQ (by simp) hv']
    exact ⟨fun s' h => by simp at h, fun _ => rfl⟩
  | some v =>
    have hv' : readAt (shadow p s).data (shadow p s).dp = some v := hv
    by_cases hz : v = 0
    · subst hz
      rw [step_close_skip hP hv, step_close_skip hQ hv']
      refine ⟨fun s' h => ?_, fun h => by simp at h⟩
      simp only [Step.next.injEq] at h
      subst h
      have e : s.cp + 1 = ((i + 1 : Nat) : Int) := by rw [hcp]; push_cast; rfl
      refine ⟨⟨i + 1, e, by omega⟩, ?_⟩
      show Step.next ({ s with cp := stripIndex p s.cp + 1 } : State) =
        Step.next ({ s with cp := stripIndex p (s.cp + 1) } : State)
      rw [e, hnext, hcp]
    · have hdown : memDown (cstr p) (s.cp - 1) = (p.take i).reverse := by
        rw [hcp, memDown_cstr (by omega)]
      have hdownq : memDown (cstr (strip p)) ((shadow p s).cp - 1) =
          strip (p.take i).reverse := by
        show memDown (cstr (strip p)) (stripIndex p s.cp - 1) = _
        rw [hcp, memDown_strip]
      obtain ⟨h1, h2⟩ := scanBack_strip (p.take i).reverse 1 (s.cp - 1) ((shadow p s).cp - 1)
      cases hA : scanBack (memDown (cstr p) (s.cp - 1)) 1 (s.cp - 1) with
      | none =>
        rw [step_close_none hP hv hz hA]
        refine ⟨fun s' h => by simp at h, fun _ => ?_⟩
        exact step_close_none hQ hv' hz (by rw [hdownq]; exact h2 (by rw [← hdown]; exact hA))
      | some r =>
        rw [step_close_jump hP hv hz hA]
        refine ⟨fun s' h => ?_, fun h => by simp at h⟩
        obtain ⟨n, hn, hr, hB⟩ := h1 r (by rw [← hdown]; exact hA)
        simp only [Step.next.injEq] at h
        subst h
        have hn' : n ≤ i := by
          simp only [List.length_reverse, List.length_take] at hn; omega
        have hr' : r + 1 = ((i - n : Nat) : Int) := by rw [hr, hcp]; omega
        refine ⟨⟨i - n, hr', by omega⟩, ?_⟩
        rw [step_close_jump hQ hv' hz (by rw [hdownq]; exact hB)]
        show Step.next _ = Step.next ({ s with cp := stripIndex p (r + 1) } : State)
        rw [hr', stripIndex_natCast]
        show Step.next ({ s with cp := stripIndex p s.cp - 1 - _ + 1 } : State) = _
        rw [hcp, stripIndex_natCast, strip_length_take_sub p (Nat.le_of_lt hi) hn']
        congr 2
        push_cast
        omega


/-- A command is executed by both runs with the same effect. -/
theorem sim_command (hcp : s.cp = (i : Int)) (hi : i < p.length)
    (hc : isCommand p[i] = true) :
    (∀ s', step p inp s = .next s' →
      (∃ i' : Nat, s'.cp = (i' : Int) ∧ i' ≤ p.length) ∧
        step (strip p) inp (shadow p s) = .next (shadow p s')) ∧
    (step p inp s = .outOfBounds → step (strip p) inp (shadow p s) = .outOfBounds) ∧
    (∀ s', step p inp s ≠ .halt s') := by
  have hhalt : ∀ s', step p inp s ≠ .halt s' := by
    intro s' h
    have h0 := (step_halt_inv h).1
    rw [hcp, readAt_cstr_of_lt hi, List.getElem?_eq_getElem hi] at h0
    injection h0 with h0
    rw [h0] at hc
    exact absurd hc (by decide)
  by_cases ho : p[i] = cOpen
  · exact ⟨(sim_open inp hcp hi ho).1, (sim_open inp hcp hi ho).2, hhalt⟩
  · by_cases hcl : p[i] = cClose
    · exact ⟨(sim_close inp hcp hi hcl).1, (sim_close inp hcp hi hcl).2, hhalt⟩
    · obtain ⟨h1, h2⟩ := sim_plain inp hcp hi hc ho hcl
      exact ⟨fun s' hs' => ⟨⟨i + 1, (h1 s' hs').1, by omega⟩, (h1 s' hs').2⟩, h2, hhalt⟩

/-- Whenever the run of a text returns, so does the run of the stripped text from the
corresponding state, with the same tape, data pointer, input cursor and output. -/
theorem run_strip_forward (hp : IsCString p) : ∀ (fuel : Nat) (s r : State),
    (∃ i : Nat, s.cp = (i : Int) ∧ i ≤ p.length) → run p inp fuel s = .done r →
    ∃ fuel' r', run (strip p) inp fuel' (shadow p s) = .done r' ∧
      r'.dp = r.dp ∧ r'.data = r.data ∧ r'.input = r.input ∧ r'.out = r.out := by
  intro fuel
  induction fuel with
  | zero => intro s r _ h; simp [run] at h
  | succ n ih =>
    intro s r ⟨i, hcp, hi⟩ h
    rcases Nat.lt_or_ge i p.length with hlt | hge
    · by_cases hc : isCommand p[i] = true
      · obtain ⟨h1, _, h3⟩ := sim_command inp hcp hlt hc
        cases hs : step p inp s with
        | halt s' => exact absurd hs (h3 s')
        | outOfBounds => simp [run, hs] at h
        | next s' =>
          rw [run_succ_next hs] at h
          obtain ⟨hv, hq⟩ := h1 s' hs
          obtain ⟨fuel', r', hr', hsame⟩ := ih s' r hv h
          exact ⟨fuel' + 1, r', by rw [run_succ_next hq]; exact hr', hsame⟩
      · have hc' : isCommand p[i] = false := by simpa using hc
        obtain ⟨h1, h2⟩ := sim_comment inp hp hcp hlt hc'
        rw [run_succ_next h1] at h
        obtain ⟨fuel', r', hr', hsame⟩ := ih _ r
          ⟨i + 1, by show s.cp + 1 = _; rw [hcp]; push_cast; rfl, by omega⟩ h
        rw [h2] at hr'
        exact ⟨fuel', r', hr', hsame⟩
    · have hlen : s.cp = (p.length : Int) := by rw [hcp]; congr 1; omega
      obtain ⟨h1, h2⟩ := sim_end inp hlen
      rw [run_succ_halt h1] at h
      injection h with h
      subst h
      exact ⟨1, _, run_succ_halt h2 0, rfl, rfl, rfl, rfl⟩

/-- Whenever the run of the stripped text returns from a corresponding state, so does
the run of the text, with the same tape, data pointer, input cursor and output. -/
theorem run_strip_backward (hp : IsCString p) : ∀ (fuel' m : Nat) (s r' : State) (i : Nat),
    s.cp = (i : Int) → i ≤ p.length → p.length - i ≤ m →
    run (strip p) inp fuel' (shadow p s) = .done r' →
    ∃ fuel r, run p inp fuel s = .done r ∧
      r'.dp = r.dp ∧ r'.data = r.data ∧ r'.input = r.input ∧ r'.out = r.out := by
  intro fuel'
  induction fuel' with
  | zero => intro m s r' i _ _ _ h; simp [run] at h
  | succ k ihk =>
    intro m
    induction m with
    | zero =>
      intro s r' i hcp hi hm h
      have hlen : s.cp = (p.length : Int) := by rw [hcp]; congr 1; omega
      obtain ⟨h1, h2⟩ := sim_end inp hlen
      rw [run_succ_halt h2] at h
      injection h with h
      subst h
      exact ⟨1, _, run_succ_halt h1 0, rfl, rfl, rfl, rfl⟩
    | succ m ihm =>
      intro s r' i hcp hi hm h
      rcases Nat.lt_or_ge i p.length with hlt | hge
      · by_cases hc : isCommand p[i] = true
        · obtain ⟨h1, h2, h3⟩ := sim_command inp hcp hlt hc
          cases hs : step p inp s with
          | halt s' => exact absurd hs (h3 s')
          | outOfBounds => simp [run, h2 hs] at h
          | next s' =>
            obtain ⟨⟨i', hcp', hi'⟩, hq⟩ := h1 s' hs
            rw [run_succ_next hq] at h
            obtain ⟨fuel, r, hr, hsame⟩ := ihk (p.length - i') s' r' i' hcp' hi' (Nat.le_refl _) h
            exact ⟨fuel + 1, r, by rw [run_succ_next hs]; exact hr, hsame⟩
        · have hc' : isCommand p[i] = false := by simpa using hc
          obtain ⟨h1, h2⟩ := sim_comment inp hp hcp hlt hc'
          rw [← h2] at h
          obtain ⟨fuel, r, hr, hsame⟩ := ihm _ r' (i + 1)
            (by show s.cp + 1 = _; rw [hcp]; push_cast; rfl) (by omega) (by omega) h
          exact ⟨fuel + 1, r, by rw [run_succ_next h1]; exact hr, hsame⟩
      · have hlen : s.cp = (p.length : Int) := by rw [hcp]; congr 1; omega
        obtain ⟨h1, h2⟩ := sim_end inp hlen
        rw [run_succ_halt h2] at h
        injection h with h
        subst h
        exact ⟨1, _, run_succ_halt h1 0, rfl, rfl, rfl, rfl⟩

theorem shadow_initState (p : List Nat) : shadow p initState = initState := by
  simp [shadow, initState, stripIndex, strip]

end Sim
end Strip

/-! ## The entry point -/

theorem invalidArguments_eq :
    invalidArguments = "invalid arguments".toList.map Char.toNat := by
  decide

theorem main_of_ne {argc : Int} (h : argc ≠ 3) (argv : List (List Nat)) (fuel : Nat) :
    main argc argv fuel = .exit { code := 1, stdout := [], stderr := invalidArguments } := by
  simp [main, h]

theorem main_three_done {prog inp : List Nat} {fuel : Nat} {r : State}
    (h : brainfuck prog inp fuel = .done r) (a0 : List Nat) :
    main 3 [a0, prog, inp] fuel = .exit { code := 0, stdout := r.out, stderr := [] } := by
  simp [main, h]

theorem main_three_timeout {prog inp : List Nat} {fuel : Nat}
    (h : brainfuck prog inp fuel = .timeout) (a0 : List Nat) :
    main 3 [a0, prog, inp] fuel = .timeout := by
  simp [main, h]

theorem main_three_outOfBounds {prog inp : List Nat} {fuel : Nat}
    (h : brainfuck prog inp fuel = .outOfBounds) (a0 : List Nat) :
    main 3 [a0, prog, inp] fuel = .outOfBounds := by
  simp [main, h]

theorem main_three_code {argv : List (List Nat)} {fuel : Nat} {e : Exit}
    (h : main 3 argv fuel = .exit e) : e.code = 0 ∧ e.stderr = [] := by
  unfold main at h
  simp only [ne_eq, not_true_eq_false, if_false] at h
  split at h
  · split at h
    · injection h with h; subst h; exact ⟨rfl, rfl⟩
    · exact absurd h (by simp)
    · exact absurd h (by simp)
  · exact absurd h (by simp)

/-! ## Faults and pointer moves -/

section Faults

variable {prog inp : List Nat}

theorem run_succ_outOfBounds {s : State} (h : step prog inp s = .outOfBounds) (fuel : Nat) :
    run prog inp (fuel + 1) s = .outOfBounds := by
  simp [run, h]

/-- More fuel does not change a run that ended in a fault. -/
theorem run_outOfBounds_mono : ∀ (fuel k : Nat) (s : State),
    run prog inp fuel s = .outOfBounds → run prog inp (fuel + k) s = .outOfBounds := by
  intro fuel
  induction fuel with
  | zero => intro k s h; simp [run] at h
  | succ n ih =>
    intro k s h
    have e : n + 1 + k = (n + k) + 1 := by omega
    rw [e]
    cases hs : step prog inp s with
    | halt s' => simp [run, hs] at h
    | next s' => rw [run_succ_next hs] at h ⊢; exact ih k s' h
    | outOfBounds => exact run_succ_outOfBounds hs _

/-- A run that ends in a fault with some fuel returns with no fuel. -/
theorem run_ne_done_of_outOfBounds {fuel : Nat} {s : State}
    (h : run prog inp fuel s = .outOfBounds) (fuel' : Nat) (r : State) :
    run prog inp fuel' s ≠ .done r := by
  intro hd
  have a := run_done_mono fuel' fuel s r hd
  have b := run_outOfBounds_mono fuel fuel' s h
  rw [Nat.add_comm] at b
  rw [a] at b
  exact absurd b (by simp)

theorem brainfuck_outOfBounds_iff {fuel : Nat} :
    brainfuck prog inp fuel = .outOfBounds ↔ run prog inp fuel initState = .outOfBounds := by
  unfold brainfuck
  cases h : run prog inp fuel initState <;> simp

theorem brainfuck_timeout_iff {fuel : Nat} :
    brainfuck prog inp fuel = .timeout ↔ run prog inp fuel initState = .timeout := by
  unfold brainfuck
  cases h : run prog inp fuel initState <;> simp

/-- A fault after `n` executed instructions is the outcome for every larger fuel, and
no fuel gives a normal result. -/
theorem brainfuck_fault_of_steps {n : Nat} {s : State} (h : steps prog inp n initState = some s)
    (hs : step prog inp s = .outOfBounds) :
    (∀ fuel, n + 1 ≤ fuel → brainfuck prog inp fuel = .outOfBounds) ∧
      ∀ fuel r, brainfuck prog inp fuel ≠ .done r := by
  have key : run prog inp (n + 1) initState = .outOfBounds := by
    rw [run_steps n 1 _ _ h]; exact run_succ_outOfBounds hs 0
  constructor
  · intro fuel hf
    obtain ⟨k, rfl⟩ : ∃ k, fuel = n + 1 + k := ⟨fuel - (n + 1), by omega⟩
    exact brainfuck_outOfBounds_iff.mpr (run_outOfBounds_mono _ k _ key)
  · intro fuel r hd
    obtain ⟨t, ht, _⟩ := brainfuck_done_iff.mp hd
    exact run_ne_done_of_outOfBounds key fuel t ht

/-- A block of `n` consecutive `<` moves the data pointer `n` cells down. -/
theorem steps_lt_block : ∀ (n : Nat) (s : State),
    (∀ k : Nat, k < n → readAt (cstr prog) (s.cp + k) = some cLt) →
    steps prog inp n s = some { s with cp := s.cp + n, dp := s.dp - n } := by
  intro n
  induction n with
  | zero => intro s _; simp [steps]
  | succ n ih =>
    intro s hp
    have h0 : readAt (cstr prog) s.cp = some cLt := by simpa using hp 0 (by omega)
    rw [steps_succ_next (step_lt h0)]
    rw [ih _ (fun k hk => by
      have := hp (k + 1) (by omega)
      rw [← this]; dsimp only; congr 1; push_cast; omega)]
    simp only [Option.some.injEq, State.mk.injEq, and_true]
    constructor <;> (push_cast; omega)

/-- A block of `n` consecutive `>` moves the data pointer `n` cells up. -/
theorem steps_gt_block : ∀ (n : Nat) (s : State),
    (∀ k : Nat, k < n → readAt (cstr prog) (s.cp + k) = some cGt) →
    steps prog inp n s = some { s with cp := s.cp + n, dp := s.dp + n } := by
  intro n
  induction n with
  | zero => intro s _; simp [steps]
  | succ n ih =>
    intro s hp
    have h0 : readAt (cstr prog) s.cp = some cGt := by simpa using hp 0 (by omega)
    rw [steps_succ_next (step_gt h0)]
    rw [ih _ (fun k hk => by
      have := hp (k + 1) (by omega)
      rw [← this]; dsimp only; congr 1; push_cast; omega)]
    simp only [Option.some.injEq, State.mk.injEq, and_true]
    constructor <;> (push_cast; omega)

end Faults

section Moves

variable (inp : List Nat)

theorem readAt_move_tail (c : Nat) (k j : Nat) (rest : List Nat) :
    readAt (cstr (List.replicate k c ++ rest)) ((k : Int) + j) = readAt (cstr rest) (j : Int) := by
  have := readAt_cstr_append (List.replicate k c) rest j
  simpa using this

/-- The run of `k` moves in one direction from the initial state. -/
theorem move_steps (c : Nat) (hc : c = cLt ∨ c = cGt) (k : Nat) (rest : List Nat) :
    steps (List.replicate k c ++ rest) inp k initState =
      some { cp := (k : Int), dp := if c = cLt then 500 - (k : Int) else 500 + (k : Int),
             data := List.replicate DATASIZE 0, input := 0, out := [] } := by
  have hp : ∀ j : Nat, j < k →
      readAt (cstr (List.replicate k c ++ rest)) (initState.cp + j) = some c := by
    intro j hj
    have : initState.cp + (j : Int) = (j : Int) := by simp [initState]
    rw [this]; exact readAt_cstr_replicate _ _ hj
  rcases hc with rfl | rfl
  · rw [steps_lt_block k initState hp]
    simp [initState]
  · rw [steps_gt_block k initState hp]
    simp [initState]

/-- After the moves, `+.` on a cell inside the tape writes the byte 1. -/
theorem move_run (c : Nat) (hc : c = cLt ∨ c = cGt) (k : Nat) (d : Int) (i : Nat)
    (hd : d = if c = cLt then 500 - (k : Int) else 500 + (k : Int)) (hi : d = (i : Int))
    (hlt : i < DATASIZE) :
    brainfuck (List.replicate k c ++ [cPlus, cDot]) inp (k + 3) =
      .done { cp := (k : Int) + 3, dp := d, data := (List.replicate DATASIZE 0).set i 1,
              input := 0, out := [1, cNewline] } := by
  have h0 := move_steps inp c hc k [cPlus, cDot]
  rw [← hd] at h0
  have hcell : readAt (List.replicate DATASIZE 0) d = some 0 := by
    rw [hi, readAt_natCast]
    simp [List.getElem?_replicate, hlt]
  have hcell' : readAt ((List.replicate DATASIZE 0).set i 1) d = some 1 := by
    rw [hi, readAt_natCast]
    simp [List.getElem?_set, hlt]
  have s1 : step (List.replicate k c ++ [cPlus, cDot]) inp
      { cp := (k : Int), dp := d, data := List.replicate DATASIZE 0, input := 0, out := [] } =
      .next { cp := (k : Int) + 1, dp := d, data := (List.replicate DATASIZE 0).set i 1,
              input := 0, out := [] } := by
    rw [step_plus
      (s := { cp := (k : Int), dp := d, data := List.replicate DATASIZE 0, input := 0,
              out := [] })
      (v := 0) (by simpa [readAt, cstr] using readAt_move_tail c k 0 [cPlus, cDot]) hcell]
    simp [hi]
  have s2 : step (List.replicate k c ++ [cPlus, cDot]) inp
      { cp := (k : Int) + 1, dp := d, data := (List.replicate DATASIZE 0).set i 1,
        input := 0, out := [] } =
      .next { cp := (k : Int) + 2, dp := d, data := (List.replicate DATASIZE 0).set i 1,
              input := 0, out := [1] } := by
    rw [step_dot
      (s := { cp := (k : Int) + 1, dp := d, data := (List.replicate DATASIZE 0).set i 1,
              input := 0, out := [] })
      (v := 1) (by simpa [readAt, cstr] using readAt_move_tail c k 1 [cPlus, cDot]) hcell']
    simp only [Step.next.injEq, State.mk.injEq, and_true, true_and, List.nil_append]
    omega
  have s3 : step (List.replicate k c ++ [cPlus, cDot]) inp
      { cp := (k : Int) + 2, dp := d, data := (List.replicate DATASIZE 0).set i 1,
        input := 0, out := [1] } =
      .halt { cp := (k : Int) + 3, dp := d, data := (List.replicate DATASIZE 0).set i 1,
              input := 0, out := [1] } := by
    rw [step_zero
      (s := { cp := (k : Int) + 2, dp := d, data := (List.replicate DATASIZE 0).set i 1,
              input := 0, out := [1] })
      (by simpa [readAt, cstr] using readAt_move_tail c k 2 [cPlus, cDot])]
    simp only [Step.halt.injEq, State.mk.injEq, and_true, true_and]
    omega
  unfold brainfuck
  rw [run_steps k 3 _ _ h0, run_succ_next s1, run_succ_next s2, run_succ_halt s3]
  simp

/-- After the moves, `+` on a cell outside the tape is a fault. -/
theorem move_fault (c : Nat) (k : Nat) (d : Int) (hout : d < 0 ∨ (DATASIZE : Int) ≤ d) :
    step (List.replicate k c ++ [cPlus, cDot]) inp
      { cp := (k : Int), dp := d, data := List.replicate DATASIZE 0, input := 0, out := [] } =
      .outOfBounds := by
  have hcell : readAt (List.replicate DATASIZE 0) d = none := by
    unfold readAt
    split_ifs with h
    · rfl
    · rw [List.getElem?_eq_none]
      simp only [List.length_replicate]
      omega
  exact step_cell_none
    (s := { cp := (k : Int), dp := d, data := List.replicate DATASIZE 0, input := 0, out := [] })
    (c := cPlus) (by simpa [readAt, cstr] using readAt_move_tail c k 0 [cPlus, cDot])
    (by simp) hcell

/-- The `k` moves to the left. -/
theorem left_steps (k : Nat) :
    steps (leftProgram k) inp k initState =
      some { cp := (k : Int), dp := 500 - (k : Int), data := List.replicate DATASIZE 0,
             input := 0, out := [] } := by
  have := move_steps inp cLt (Or.inl rfl) k [cPlus, cDot]
  simpa [leftProgram] using this

/-- The `k` moves to the right. -/
theorem right_steps (k : Nat) :
    steps (rightProgram k) inp k initState =
      some { cp := (k : Int), dp := 500 + (k : Int), data := List.replicate DATASIZE 0,
             input := 0, out := [] } := by
  have := move_steps inp cGt (Or.inr rfl) k [cPlus, cDot]
  simpa [rightProgram] using this

theorem left_plus (k : Nat) : readAt (cstr (leftProgram k)) (k : Int) = some cPlus := by
  simpa [readAt, cstr, leftProgram] using readAt_move_tail cLt k 0 [cPlus, cDot]

theorem right_plus (k : Nat) : readAt (cstr (rightProgram k)) (k : Int) = some cPlus := by
  simpa [readAt, cstr, rightProgram] using readAt_move_tail cGt k 0 [cPlus, cDot]

end Moves

/-! ## The reads of the bracket scans and unmatched brackets -/

section Reads

theorem scanFwdReads_cons {c : Nat} {l : List Nat} {f : Int} (hf : f ≠ 0) (cp : Int) :
    scanFwdReads (c :: l) f cp = cp :: scanFwdReads l (bumpFwd f c) (cp + 1) := by
  simp only [scanFwdReads, bumpFwd, hf, if_false]
  split_ifs <;> rfl

theorem scanBackReads_cons {c : Nat} {l : List Nat} {f : Int} (hf : f ≠ 0) (cp : Int) :
    scanBackReads (c :: l) f cp = cp :: scanBackReads l (bumpBack f c) (cp - 1) := by
  simp only [scanBackReads, bumpBack, hf, if_false]
  split_ifs <;> rfl

theorem scanFwdReads_zero (l : List Nat) (cp : Int) : scanFwdReads l 0 cp = [] := by
  cases l <;> simp [scanFwdReads]

theorem scanBackReads_zero (l : List Nat) (cp : Int) : scanBackReads l 0 cp = [] := by
  cases l <;> simp [scanBackReads]

/-- A forward scan that stops has read exactly indices from its start up to just before
the index at which it leaves `command_pointer`. -/
theorem scanFwdReads_of_some : ∀ (l : List Nat) (f cp r : Int),
    scanFwd l f cp = some r →
    cp ≤ r ∧ r ≤ cp + l.length ∧ ∀ x ∈ scanFwdReads l f cp, cp ≤ x ∧ x < r := by
  intro l
  induction l with
  | nil =>
    intro f cp r h
    by_cases hf : f = 0
    · subst hf
      simp [scanFwd] at h
      simp [scanFwdReads, h]
    · simp [scanFwd, hf] at h
  | cons c l ih =>
    intro f cp r h
    by_cases hf : f = 0
    · subst hf
      rw [scanFwd_zero] at h
      injection h with h
      subst h
      simp only [scanFwdReads_zero, List.length_cons]
      refine ⟨le_refl _, by push_cast; omega, fun x hx => by simp at hx⟩
    · rw [scanFwd_cons hf] at h
      obtain ⟨h1, h2, h3⟩ := ih _ _ _ h
      rw [scanFwdReads_cons hf]
      refine ⟨by omega, by simp only [List.length_cons]; push_cast; omega, ?_⟩
      intro x hx
      rw [List.mem_cons] at hx
      rcases hx with rfl | hx
      · omega
      · have := h3 x hx
        omega

/-- A forward scan that runs off its memory has read every index of it and the one
after. -/
theorem scanFwdReads_of_none : ∀ (l : List Nat) (f cp : Int),
    scanFwd l f cp = none → ∀ k : Nat, k ≤ l.length → cp + k ∈ scanFwdReads l f cp := by
  intro l
  induction l with
  | nil =>
    intro f cp h k hk
    by_cases hf : f = 0
    · simp [scanFwd, hf] at h
    · have : k = 0 := by simpa using hk
      subst this
      simp [scanFwdReads, hf]
  | cons c l ih =>
    intro f cp h k hk
    by_cases hf : f = 0
    · subst hf
      rw [scanFwd_zero] at h
      exact absurd h (by simp)
    · rw [scanFwd_cons hf] at h
      rw [scanFwdReads_cons hf, List.mem_cons]
      cases k with
      | zero => left; simp
      | succ k =>
        right
        have := ih _ _ h k (by simpa using hk)
        have e : cp + ((k + 1 : Nat) : Int) = cp + 1 + (k : Int) := by push_cast; omega
        rw [e]
        exact this

/-- A backward scan that stops has read exactly indices from its start down to just
after the index at which it leaves `command_pointer`. -/
theorem scanBackReads_of_some : ∀ (l : List Nat) (f cp r : Int),
    scanBack l f cp = some r →
    r ≤ cp ∧ cp - l.length ≤ r ∧ ∀ x ∈ scanBackReads l f cp, r < x ∧ x ≤ cp := by
  intro l
  induction l with
  | nil =>
    intro f cp r h
    by_cases hf : f = 0
    · subst hf
      simp [scanBack] at h
      simp [scanBackReads, h]
    · simp [scanBack, hf] at h
  | cons c l ih =>
    intro f cp r h
    by_cases hf : f = 0
    · subst hf
      rw [scanBack_zero] at h
      injection h with h
      subst h
      simp only [scanBackReads_zero, List.length_cons]
      refine ⟨le_refl _, by push_cast; omega, fun x hx => by simp at hx⟩
    · rw [scanBack_cons hf] at h
      obtain ⟨h1, h2, h3⟩ := ih _ _ _ h
      rw [scanBackReads_cons hf]
      refine ⟨by omega, by simp only [List.length_cons]; push_cast; omega, ?_⟩
      intro x hx
      rw [List.mem_cons] at hx
      rcases hx with rfl | hx
      · omega
      · have := h3 x hx
        omega

/-- A backward scan that runs off its memory has read every index of it and the one
before. -/
theorem scanBackReads_of_none : ∀ (l : List Nat) (f cp : Int),
    scanBack l f cp = none → ∀ k : Nat, k ≤ l.length → cp - k ∈ scanBackReads l f cp := by
  intro l
  induction l with
  | nil =>
    intro f cp h k hk
    by_cases hf : f = 0
    · simp [scanBack, hf] at h
    · have : k = 0 := by simpa using hk
      subst this
      simp [scanBackReads, hf]
  | cons c l ih =>
    intro f cp h k hk
    by_cases hf : f = 0
    · subst hf
      rw [scanBack_zero] at h
      exact absurd h (by simp)
    · rw [scanBack_cons hf] at h
      rw [scanBackReads_cons hf, List.mem_cons]
      cases k with
      | zero => left; simp
      | succ k =>
        right
        have := ih _ _ h k (by simpa using hk)
        have e : cp - ((k + 1 : Nat) : Int) = cp - 1 - (k : Int) := by push_cast; omega
        rw [e]
        exact this

/-- A forward scan that stops, stops right after the first byte at which its counter
is 0. -/
theorem scanFwd_some_first_zero : ∀ (l : List Nat) (f cp r : Int), 0 < f →
    scanFwd l f cp = some r →
    ∃ n : Nat, n < l.length ∧ r = cp + n + 1 ∧ (l.take (n + 1)).foldl bumpFwd f = 0 ∧
      ∀ m, m < n → (l.take (m + 1)).foldl bumpFwd f ≠ 0 := by
  intro l
  induction l with
  | nil => intro f cp r hf h; simp [scanFwd] at h; omega
  | cons c l ih =>
    intro f cp r hf h
    rw [scanFwd_cons (by omega)] at h
    by_cases hb : bumpFwd f c = 0
    · rw [hb, scanFwd_zero] at h
      injection h with h
      exact ⟨0, by simp, by rw [← h]; simp, by simpa using hb, fun m hm => by omega⟩
    · have hge := bumpFwd_ge f c
      obtain ⟨n, hn, hr, hz, hnz⟩ := ih _ _ _ (by omega) h
      refine ⟨n + 1, by simpa using hn, by rw [hr]; push_cast; omega, by simpa using hz, ?_⟩
      intro m hm
      cases m with
      | zero => simpa using hb
      | succ m => simpa using hnz m (by omega)

/-- A backward scan that stops, stops right after the first byte at which its counter
is 0. -/
theorem scanBack_some_first_zero : ∀ (l : List Nat) (f cp r : Int), 0 < f →
    scanBack l f cp = some r →
    ∃ n : Nat, n < l.length ∧ r = cp - n - 1 ∧ (l.take (n + 1)).foldl bumpBack f = 0 ∧
      ∀ m, m < n → (l.take (m + 1)).foldl bumpBack f ≠ 0 := by
  intro l
  induction l with
  | nil => intro f cp r hf h; simp [scanBack] at h; omega
  | cons c l ih =>
    intro f cp r hf h
    rw [scanBack_cons (by omega)] at h
    by_cases hb : bumpBack f c = 0
    · rw [hb, scanBack_zero] at h
      injection h with h
      exact ⟨0, by simp, by rw [← h]; simp, by simpa using hb, fun m hm => by omega⟩
    · have hge := bumpBack_ge f c
      obtain ⟨n, hn, hr, hz, hnz⟩ := ih _ _ _ (by omega) h
      refine ⟨n + 1, by simpa using hn, by rw [hr]; push_cast; omega, by simpa using hz, ?_⟩
      intro m hm
      cases m with
      | zero => simpa using hb
      | succ m => simpa using hnz m (by omega)


theorem bumpFwd_terminator (f : Int) : bumpFwd f 0 = f := by
  simp [bumpFwd, cOpen, cClose]

/-- A forward scan that stops has found the matching `]`. -/
theorem scanFwd_some_match {prog : List Nat} {i : Nat} {r : Int} (hi : i < prog.length)
    (h : scanFwd (memUp (cstr prog) ((i : Int) + 1)) 1 ((i : Int) + 1) = some r) :
    ∃ j, MatchFwd prog i j ∧ r = (j : Int) + 1 := by
  have e : (i : Int) + 1 = ((i + 1 : Nat) : Int) := by push_cast; rfl
  rw [e, memUp_cstr (by omega)] at h
  obtain ⟨n, hn, hr, hz, hnz⟩ := scanFwd_some_first_zero _ 1 _ r (by omega) h
  have hlen : (prog.drop (i + 1) ++ [0]).length = prog.length - (i + 1) + 1 := by simp
  have hn' : n < prog.length - (i + 1) := by
    by_contra hcon
    have hnL : n = prog.length - (i + 1) := by omega
    have hwhole : (prog.drop (i + 1) ++ [0]).take (n + 1) = prog.drop (i + 1) ++ [0] :=
      List.take_of_length_le (by rw [hlen]; omega)
    rw [hwhole, List.foldl_append, List.foldl_cons, List.foldl_nil, bumpFwd_terminator] at hz
    cases n with
    | zero =>
      have : prog.drop (i + 1) = [] := by
        apply List.eq_nil_of_length_eq_zero; simp; omega
      rw [this] at hz
      simp at hz
    | succ m =>
      have := hnz m (by omega)
      rw [List.take_append_of_le_length (by simp; omega), List.take_of_length_le (by simp; omega)]
        at this
      exact this hz
  refine ⟨i + 1 + n, ⟨by omega, by omega, ?_, ?_⟩, by rw [hr]; push_cast; omega⟩
  · rw [counterFwd_eq (by omega)]; exact hz
  · intro k hk hik
    obtain ⟨m, rfl⟩ : ∃ m, k = i + 1 + m := ⟨k - (i + 1), by omega⟩
    rw [counterFwd_eq (by omega)]
    exact hnz m (by omega)

/-- A backward scan that stops has found the matching `[`. -/
theorem scanBack_some_match {prog : List Nat} {j : Nat} {r : Int} (hj : j < prog.length)
    (h : scanBack (memDown (cstr prog) ((j : Int) - 1)) 1 ((j : Int) - 1) = some r) :
    ∃ i, MatchBack prog j i ∧ r = (i : Int) - 1 := by
  rw [memDown_cstr (by omega)] at h
  obtain ⟨n, hn, hr, hz, hnz⟩ := scanBack_some_first_zero _ 1 _ r (by omega) h
  have hn' : n < j := by
    simp only [List.length_reverse, List.length_take] at hn; omega
  refine ⟨j - 1 - n, ⟨by omega, hj, ?_, ?_⟩, by rw [hr]; omega⟩
  · rw [counterBack_eq (by omega) hn']; exact hz
  · intro k hk hik
    obtain ⟨m, hm, rfl⟩ : ∃ m, m < n ∧ k = j - 1 - m := ⟨j - 1 - k, by omega, by omega⟩
    rw [counterBack_eq (by omega) (by omega)]
    exact hnz m hm

theorem scanReads_open {prog : List Nat} {s : State}
    (h : readAt (cstr prog) s.cp = some cOpen) (hv : readAt s.data s.dp = some 0) :
    scanReads prog s = scanFwdReads (memUp (cstr prog) (s.cp + 1)) 1 (s.cp + 1) := by
  simp [scanReads, h, hv]

theorem scanReads_close {prog : List Nat} {s : State} {v : Nat}
    (h : readAt (cstr prog) s.cp = some cClose) (hv : readAt s.data s.dp = some v)
    (hz : v ≠ 0) :
    scanReads prog s = scanBackReads (memDown (cstr prog) (s.cp - 1)) 1 (s.cp - 1) := by
  have e : s.cp + 1 - 2 = s.cp - 1 := by omega
  simp [scanReads, h, hv, hz, e]

theorem scanReads_open_skip {prog : List Nat} {s : State} {v : Nat}
    (h : readAt (cstr prog) s.cp = some cOpen) (hv : readAt s.data s.dp = some v)
    (hz : v ≠ 0) : scanReads prog s = [] := by
  simp [scanReads, h, hv, hz]

theorem scanReads_close_skip {prog : List Nat} {s : State}
    (h : readAt (cstr prog) s.cp = some cClose) (hv : readAt s.data s.dp = some 0) :
    scanReads prog s = [] := by
  simp [scanReads, h, hv]

theorem scanReads_plain {prog : List Nat} {s : State} {c : Nat}
    (h : readAt (cstr prog) s.cp = some c) (ho : c ≠ cOpen) (hc : c ≠ cClose) :
    scanReads prog s = [] := by
  unfold scanReads
  rw [h]
  cases readAt s.data s.dp <;> simp [ho, hc]

theorem scanReads_fetch_none {prog : List Nat} {s : State}
    (h : readAt (cstr prog) s.cp = none) : scanReads prog s = [] := by
  simp [scanReads, h]

theorem scanReads_cell_none {prog : List Nat} {s : State}
    (h : readAt s.data s.dp = none) : scanReads prog s = [] := by
  unfold scanReads
  rw [h]
  cases readAt (cstr prog) s.cp <;> simp

/-- A `[` without a match, executed on a zero cell, reads the terminator and the index
after it, and the iteration ends in the fault. -/
theorem open_unmatched {prog : List Nat} (inp : List Nat) {s : State} {i : Nat}
    (hcp : s.cp = (i : Int)) (hi : prog[i]? = some cOpen)
    (hcell : readAt s.data s.dp = some 0) (hno : ∀ j, ¬ MatchFwd prog i j) :
    step prog inp s = .outOfBounds ∧ (prog.length : Int) ∈ scanReads prog s ∧
      (prog.length : Int) + 1 ∈ scanReads prog s := by
  have hlen : i < prog.length := by
    rcases Nat.lt_or_ge i prog.length with h | h
    · exact h
    · rw [List.getElem?_eq_none h] at hi; exact absurd hi (by simp)
  have hfetch : readAt (cstr prog) s.cp = some cOpen := by
    rw [hcp, readAt_cstr_of_lt hlen, hi]
  have hscan : scanFwd (memUp (cstr prog) (s.cp + 1)) 1 (s.cp + 1) = none := by
    cases h : scanFwd (memUp (cstr prog) (s.cp + 1)) 1 (s.cp + 1) with
    | none => rfl
    | some r =>
      rw [hcp] at h
      obtain ⟨j, hj, _⟩ := scanFwd_some_match hlen h
      exact absurd hj (hno j)
  refine ⟨step_open_none hfetch hcell hscan, ?_⟩
  rw [scanReads_open hfetch hcell]
  have hmem := scanFwdReads_of_none _ _ _ hscan
  have e : s.cp + 1 = ((i + 1 : Nat) : Int) := by rw [hcp]; push_cast; rfl
  have hup : memUp (cstr prog) (s.cp + 1) = prog.drop (i + 1) ++ [0] := by
    rw [e, memUp_cstr (by omega)]
  rw [hup] at hmem ⊢
  constructor
  · have := hmem (prog.length - (i + 1)) (by simp)
    have e2 : s.cp + 1 + ((prog.length - (i + 1) : Nat) : Int) = (prog.length : Int) := by
      rw [hcp]; omega
    rw [e2] at this
    exact this
  · have := hmem (prog.length - (i + 1) + 1) (by simp)
    have e2 : s.cp + 1 + ((prog.length - (i + 1) + 1 : Nat) : Int) = (prog.length : Int) + 1 := by
      rw [hcp]; omega
    rw [e2] at this
    exact this

/-- A `]` without a match, executed on a non-zero cell, reads the index before the start
of the program text, and the iteration ends in the fault. -/
theorem close_unmatched {prog : List Nat} (inp : List Nat) {s : State} {j v : Nat}
    (hcp : s.cp = (j : Int)) (hj : prog[j]? = some cClose)
    (hcell : readAt s.data s.dp = some v) (hv : v ≠ 0) (hno : ∀ i, ¬ MatchBack prog j i) :
    step prog inp s = .outOfBounds ∧ (-1 : Int) ∈ scanReads prog s := by
  have hlen : j < prog.length := by
    rcases Nat.lt_or_ge j prog.length with h | h
    · exact h
    · rw [List.getElem?_eq_none h] at hj; exact absurd hj (by simp)
  have hfetch : readAt (cstr prog) s.cp = some cClose := by
    rw [hcp, readAt_cstr_of_lt hlen, hj]
  have hscan : scanBack (memDown (cstr prog) (s.cp - 1)) 1 (s.cp - 1) = none := by
    cases h : scanBack (memDown (cstr prog) (s.cp - 1)) 1 (s.cp - 1) with
    | none => rfl
    | some r =>
      rw [hcp] at h
      obtain ⟨i, hi, _⟩ := scanBack_some_match hlen h
      exact absurd hi (hno i)
  refine ⟨step_close_none hfetch hcell hv hscan, ?_⟩
  rw [scanReads_close hfetch hcell hv]
  have hmem := scanBackReads_of_none _ _ _ hscan
  have hdown : memDown (cstr prog) (s.cp - 1) = (prog.take j).reverse := by
    rw [hcp, memDown_cstr (by omega)]
  rw [hdown] at hmem ⊢
  have := hmem j (by simp; omega)
  have e2 : s.cp - 1 - (j : Int) = -1 := by rw [hcp]; omega
  rw [e2] at this
  exact this

end Reads

/-! ## The program that loops forever -/

section Forever

variable (inp : List Nat)

set_option maxRecDepth 1000000 in
theorem forever_step_init :
    step foreverProgram inp initState =
      .next { initState with cp := 1, data := initState.data.set 500 1 } := rfl

set_option maxRecDepth 1000000 in
theorem forever_step_open :
    step foreverProgram inp { initState with cp := 1, data := initState.data.set 500 1 } =
      .next { initState with cp := 2, data := initState.data.set 500 1 } := rfl

set_option maxRecDepth 1000000 in
theorem forever_step_close :
    step foreverProgram inp { initState with cp := 2, data := initState.data.set 500 1 } =
      .next { initState with cp := 1, data := initState.data.set 500 1 } := rfl

/-- From the `[` or the `]` of `+[]`, any number of instructions leads to the `[` or the
`]` again. -/
theorem forever_steps : ∀ n : Nat,
    (steps foreverProgram inp n { initState with cp := 1, data := initState.data.set 500 1 } =
        some { initState with cp := 1, data := initState.data.set 500 1 } ∨
      steps foreverProgram inp n { initState with cp := 1, data := initState.data.set 500 1 } =
        some { initState with cp := 2, data := initState.data.set 500 1 }) ∧
    (steps foreverProgram inp n { initState with cp := 2, data := initState.data.set 500 1 } =
        some { initState with cp := 1, data := initState.data.set 500 1 } ∨
      steps foreverProgram inp n { initState with cp := 2, data := initState.data.set 500 1 } =
        some { initState with cp := 2, data := initState.data.set 500 1 }) := by
  intro n
  induction n with
  | zero => exact ⟨Or.inl rfl, Or.inr rfl⟩
  | succ n ih =>
    rw [steps_succ_next (forever_step_open inp), steps_succ_next (forever_step_close inp)]
    exact ⟨ih.2, ih.1⟩

/-- From the `[` or the `]` of `+[]`, no fuel is enough. -/
theorem forever_run : ∀ fuel : Nat,
    run foreverProgram inp fuel { initState with cp := 1, data := initState.data.set 500 1 } =
        .timeout ∧
      run foreverProgram inp fuel { initState with cp := 2, data := initState.data.set 500 1 } =
        .timeout := by
  intro fuel
  induction fuel with
  | zero => exact ⟨rfl, rfl⟩
  | succ n ih =>
    rw [run_succ_next (forever_step_open inp), run_succ_next (forever_step_close inp)]
    exact ⟨ih.2, ih.1⟩

end Forever

/-! ## What one instruction does -/

section Inversion

variable {prog inp : List Nat}

/-- What one executed instruction can have done, according to the byte fetched. -/
theorem step_next_cases {s s' : State} (h : step prog inp s = .next s') :
    ∃ c, readAt (cstr prog) s.cp = some c ∧ c ≠ 0 ∧
      ((c = cGt ∧ s' = { s with cp := s.cp + 1, dp := s.dp + 1 }) ∨
       (c = cLt ∧ s' = { s with cp := s.cp + 1, dp := s.dp - 1 }) ∨
       (c = cPlus ∧ ∃ v, readAt s.data s.dp = some v ∧
          s' = { s with cp := s.cp + 1, data := s.data.set s.dp.toNat ((v + 1) % 256) }) ∨
       (c = cMinus ∧ ∃ v, readAt s.data s.dp = some v ∧
          s' = { s with cp := s.cp + 1, data := s.data.set s.dp.toNat ((v + 255) % 256) }) ∨
       (c = cDot ∧ ∃ v, readAt s.data s.dp = some v ∧
          s' = { s with cp := s.cp + 1, out := s.out ++ [v] }) ∨
       (c = cComma ∧ ∃ v b, readAt s.data s.dp = some v ∧ readAt (cstr inp) s.input = some b ∧
          s' = { s with cp := s.cp + 1, data := s.data.set s.dp.toNat b,
                        input := s.input + 1 }) ∨
       (c = cOpen ∧ ∃ v cp', readAt s.data s.dp = some v ∧ s' = { s with cp := cp' }) ∨
       (c = cClose ∧ ∃ v cp', readAt s.data s.dp = some v ∧ s' = { s with cp := cp' }) ∨
       (isCommand c = false ∧ s' = { s with cp := s.cp + 1 })) := by
  cases hc : readAt (cstr prog) s.cp with
  | none => simp [step_fetch_none hc] at h
  | some c =>
    refine ⟨c, rfl, ?_⟩
    rcases command_cases c with rfl | rfl | rfl | rfl | rfl | rfl | rfl | rfl | rfl | ⟨h0, hn⟩
    · simp [step_zero hc] at h
    · rw [step_gt hc] at h; injection h with h
      exact ⟨by decide, Or.inl ⟨rfl, h.symm⟩⟩
    · rw [step_lt hc] at h; injection h with h
      exact ⟨by decide, Or.inr (Or.inl ⟨rfl, h.symm⟩)⟩
    · cases hv : readAt s.data s.dp with
      | none => simp [step_cell_none hc (by simp) hv] at h
      | some v =>
        rw [step_plus hc hv] at h; injection h with h
        exact ⟨by decide, Or.inr (Or.inr (Or.inl ⟨rfl, v, rfl, h.symm⟩))⟩
    · cases hv : readAt s.data s.dp with
      | none => simp [step_cell_none hc (by simp) hv] at h
      | some v =>
        rw [step_minus hc hv] at h; injection h with h
        exact ⟨by decide, Or.inr (Or.inr (Or.inr (Or.inl ⟨rfl, v, rfl, h.symm⟩)))⟩
    · cases hv : readAt s.data s.dp with
      | none => simp [step_cell_none hc (by simp) hv] at h
      | some v =>
        rw [step_dot hc hv] at h; injection h with h
        exact ⟨by decide, Or.inr (Or.inr (Or.inr (Or.inr (Or.inl ⟨rfl, v, rfl, h.symm⟩))))⟩
    · cases hv : readAt s.data s.dp with
      | none => simp [step_cell_none hc (by simp) hv] at h
      | some v =>
        cases hi : readAt (cstr inp) s.input with
        | none => simp [step_comma_none hc hi] at h
        | some b =>
          rw [step_comma hc hv hi] at h; injection h with h
          exact ⟨by decide,
            Or.inr (Or.inr (Or.inr (Or.inr (Or.inr (Or.inl ⟨rfl, v, b, rfl, rfl, h.symm⟩)))))⟩
    · cases hv : readAt s.data s.dp with
      | none => simp [step_cell_none hc (by simp) hv] at h
      | some v =>
        refine ⟨by decide, Or.inr (Or.inr (Or.inr (Or.inr (Or.inr (Or.inr (Or.inl ⟨rfl, v, ?_⟩))))))⟩
        by_cases hz : v = 0
        · subst hz
          cases hj : scanFwd (memUp (cstr prog) (s.cp + 1)) 1 (s.cp + 1) with
          | none => simp [step_open_none hc hv hj] at h
          | some cp' =>
            rw [step_open_jump hc hv hj] at h; injection h with h
            exact ⟨cp', rfl, h.symm⟩
        · rw [step_open_skip hc hv hz] at h; injection h with h
          exact ⟨s.cp + 1, rfl, h.symm⟩
    · cases hv : readAt s.data s.dp with
      | none => simp [step_cell_none hc (by simp) hv] at h
      | some v =>
        refine ⟨by decide,
          Or.inr (Or.inr (Or.inr (Or.inr (Or.inr (Or.inr (Or.inr (Or.inl ⟨rfl, v, ?_⟩)))))))⟩
        by_cases hz : v = 0
        · subst hz
          rw [step_close_skip hc hv] at h; injection h with h
          exact ⟨s.cp + 1, rfl, h.symm⟩
        · cases hj : scanBack (memDown (cstr prog) (s.cp - 1)) 1 (s.cp - 1) with
          | none => simp [step_close_none hc hv hz hj] at h
          | some cp' =>
            rw [step_close_jump hc hv hz hj] at h; injection h with h
            exact ⟨cp' + 1, rfl, h.symm⟩
    · rw [step_other hc h0 hn] at h; injection h with h
      exact ⟨h0, Or.inr (Or.inr (Or.inr (Or.inr (Or.inr (Or.inr (Or.inr (Or.inr
        ⟨hn, h.symm⟩)))))))⟩

end Inversion

/-! ## The program that copies its input -/

section Cat

variable (s : List Nat)

theorem readAt_cstr_le {k : Nat} (hk : k ≤ s.length) :
    ∃ c, readAt (cstr s) (k : Int) = some c ∧ (k < s.length → s[k]? = some c) ∧
      (k = s.length → c = 0) := by
  rcases Nat.lt_or_ge k s.length with h | h
  · exact ⟨s[k], by rw [readAt_cstr_of_lt h, List.getElem?_eq_getElem h],
      fun _ => List.getElem?_eq_getElem h, fun e => by omega⟩
  · have e : k = s.length := by omega
    subst e
    exact ⟨0, readAt_cstr_length s, fun h => by omega, fun _ => rfl⟩

theorem cat_scanFwd : scanFwd (memUp (cstr catProgram) (1 + 1)) 1 (1 + 1) = some 5 := by decide

theorem cat_scanBack : scanBack (memDown (cstr catProgram) (4 - 1)) 1 (4 - 1) = some 0 := by
  decide

/-- The loop of `,[.,]`, entered at its `[` with the byte of index `k` of the input
memory in the current cell: it writes the rest of the input and leaves the loop. -/
theorem cat_loop (hs : IsCString s) : ∀ (m k : Nat) (d : List Nat) (o : List Nat) (c : Nat),
    k + m = s.length → readAt (cstr s) (k : Int) = some c → readAt d 500 = some c →
    ∃ n d', steps catProgram s n
          { cp := 1, dp := 500, data := d, input := k + 1, out := o } =
        some { cp := 5, dp := 500, data := d', input := s.length + 1,
               out := o ++ s.drop k } := by
  intro m
  induction m with
  | zero =>
    intro k d o c hk hc hd
    have hkl : k = s.length := by omega
    subst hkl
    rw [readAt_cstr_length] at hc
    injection hc with hc
    subst hc
    have j1 : step catProgram s
        { cp := 1, dp := 500, data := d, input := s.length + 1, out := o } =
        .next { cp := 5, dp := 500, data := d, input := s.length + 1, out := o } :=
      step_open_jump
        (s := { cp := 1, dp := 500, data := d, input := s.length + 1, out := o })
        (show readAt (cstr catProgram) 1 = some cOpen by decide) hd cat_scanFwd
    exact ⟨1, d, by rw [steps_succ_next j1]; simp [steps]⟩
  | succ m ih =>
    intro k d o c hk hc hd
    have hkl : k < s.length := by omega
    have hck : s[k]? = some c := by
      rw [readAt_cstr_of_lt hkl] at hc; exact hc
    have hc0 : c ≠ 0 := by
      have hmem : c ∈ s := by
        rw [List.getElem?_eq_getElem hkl] at hck
        injection hck with hck
        rw [← hck]
        exact List.getElem_mem _
      exact hs c hmem
    obtain ⟨b, hb, hb1, hb2⟩ := readAt_cstr_le s (k := k + 1) (by omega)
    have s1 : step catProgram s
        { cp := 1, dp := 500, data := d, input := k + 1, out := o } =
        .next { cp := 2, dp := 500, data := d, input := k + 1, out := o } := by
      rw [step_open_skip
        (s := { cp := 1, dp := 500, data := d, input := k + 1, out := o })
        (v := c) (show readAt (cstr catProgram) 1 = some cOpen by decide) hd hc0]
      rfl
    have s2 : step catProgram s
        { cp := 2, dp := 500, data := d, input := k + 1, out := o } =
        .next { cp := 3, dp := 500, data := d, input := k + 1, out := o ++ [c] } := by
      rw [step_dot
        (s := { cp := 2, dp := 500, data := d, input := k + 1, out := o })
        (v := c) (show readAt (cstr catProgram) 2 = some cDot by decide) hd]
      rfl
    have s3 : step catProgram s
        { cp := 3, dp := 500, data := d, input := k + 1, out := o ++ [c] } =
        .next { cp := 4, dp := 500, data := d.set 500 b, input := k + 1 + 1,
                out := o ++ [c] } := by
      rw [step_comma
        (s := { cp := 3, dp := 500, data := d, input := k + 1, out := o ++ [c] })
        (v := c) (c := b) (show readAt (cstr catProgram) 3 = some cComma by decide) hd hb]
      rfl
    have hd' : readAt (d.set 500 b) 500 = some b := readAt_set_self (i := 500) _ hd
    have hdrop : s.drop k = c :: s.drop (k + 1) := by
      rw [List.drop_eq_getElem_cons hkl]
      rw [List.getElem?_eq_getElem hkl] at hck
      injection hck with hck
      rw [hck]
    by_cases hbz : b = 0
    · subst hbz
      have hlast : k + 1 = s.length := by
        by_contra hne
        have hlt : k + 1 < s.length := by omega
        have h0 := hb1 hlt
        rw [List.getElem?_eq_getElem hlt] at h0
        injection h0 with h0
        exact hs _ (List.getElem_mem _) h0
      have s4 : step catProgram s
          { cp := 4, dp := 500, data := d.set 500 0, input := k + 1 + 1, out := o ++ [c] } =
          .next { cp := 5, dp := 500, data := d.set 500 0, input := k + 1 + 1,
                  out := o ++ [c] } := by
        rw [step_close_skip
          (s := { cp := 4, dp := 500, data := d.set 500 0, input := k + 1 + 1,
                  out := o ++ [c] })
          (show readAt (cstr catProgram) 4 = some cClose by decide) hd']
        rfl
      refine ⟨4, d.set 500 0, ?_⟩
      rw [steps_succ_next s1, steps_succ_next s2, steps_succ_next s3, steps_succ_next s4]
      simp only [steps, Option.some.injEq, State.mk.injEq, true_and]
      refine ⟨by omega, ?_⟩
      rw [hdrop, List.drop_of_length_le (by omega)]
    · have s4 : step catProgram s
          { cp := 4, dp := 500, data := d.set 500 b, input := k + 1 + 1, out := o ++ [c] } =
          .next { cp := 1, dp := 500, data := d.set 500 b, input := k + 1 + 1,
                  out := o ++ [c] } := by
        rw [step_close_jump
          (s := { cp := 4, dp := 500, data := d.set 500 b, input := k + 1 + 1,
                  out := o ++ [c] })
          (v := b) (show readAt (cstr catProgram) 4 = some cClose by decide) hd' hbz cat_scanBack]
        rfl
      obtain ⟨n, d', hn⟩ := ih (k + 1) (d.set 500 b) (o ++ [c]) b (by omega) hb hd'
      refine ⟨n + 4, d', ?_⟩
      have e : n + 4 = n + 1 + 1 + 1 + 1 := by omega
      rw [e, steps_succ_next s1, steps_succ_next s2, steps_succ_next s3, steps_succ_next s4, hn,
        hdrop]
      simp

/-- The run of `,[.,]` up to the fetch of the terminator. -/
theorem cat_steps (hs : IsCString s) :
    ∃ n d', steps catProgram s n initState =
      some { cp := 5, dp := 500, data := d', input := s.length + 1, out := s } := by
  obtain ⟨c, hc, _, _⟩ := readAt_cstr_le s (k := 0) (Nat.zero_le _)
  have s0 : step catProgram s initState =
      .next { cp := 1, dp := 500, data := (List.replicate DATASIZE 0).set 500 c, input := 0 + 1,
              out := [] } := by
    rw [step_comma (s := initState) (v := 0) (c := c)
      (show readAt (cstr catProgram) 0 = some cComma by decide) readAt_init_cell hc]
    simp [initState]
  have hd : readAt ((List.replicate DATASIZE 0).set 500 c) 500 = some c := by
    have h500 : 500 < DATASIZE := by decide
    simp [readAt, List.getElem?_set, h500]
  obtain ⟨n, d', hn⟩ := cat_loop s hs s.length 0 _ [] c (by omega) hc hd
  exact ⟨n + 1, d', by rw [steps_succ_next s0, hn]; simp⟩

end Cat

/-! ## The fragment that clears a cell -/

section Clear

variable {prog : List Nat} (inp : List Nat) {i : Nat}

theorem clear_scanFwd (h1 : prog[i + 1]? = some cMinus) (h2 : prog[i + 2]? = some cClose) :
    scanFwd (memUp (cstr prog) ((i : Int) + 1)) 1 ((i : Int) + 1) = some ((i : Int) + 3) := by
  have hl2 : i + 2 < prog.length := by
    rcases Nat.lt_or_ge (i + 2) prog.length with h | h
    · exact h
    · rw [List.getElem?_eq_none h] at h2; exact absurd h2 (by simp)
  have e : (i : Int) + 1 = ((i + 1 : Nat) : Int) := by push_cast; rfl
  rw [e, memUp_cstr (by omega)]
  rw [List.getElem?_eq_getElem (by omega)] at h1
  rw [List.getElem?_eq_getElem hl2] at h2
  injection h1 with h1
  injection h2 with h2
  rw [List.drop_eq_getElem_cons (by omega : i + 1 < prog.length),
    List.drop_eq_getElem_cons (by omega : i + 1 + 1 < prog.length), h1, h2]
  simp only [List.cons_append]
  rw [scanFwd_cons (by decide), scanFwd_cons (by decide)]
  have b1 : bumpFwd 1 cMinus = 1 := by decide
  have b2 : bumpFwd 1 cClose = 0 := by decide
  rw [b1, b2, scanFwd_zero]
  exact congrArg some (by push_cast; omega)

theorem clear_scanBack (h0 : prog[i]? = some cOpen) (h1 : prog[i + 1]? = some cMinus)
    (h2 : prog[i + 2]? = some cClose) :
    scanBack (memDown (cstr prog) ((i : Int) + 2 - 1)) 1 ((i : Int) + 2 - 1) =
      some ((i : Int) - 1) := by
  have hl2 : i + 2 < prog.length := by
    rcases Nat.lt_or_ge (i + 2) prog.length with h | h
    · exact h
    · rw [List.getElem?_eq_none h] at h2; exact absurd h2 (by simp)
  have e : (i : Int) + 2 = ((i + 2 : Nat) : Int) := by push_cast; rfl
  rw [e, memDown_cstr (by omega)]
  have ht : prog.take (i + 2) = prog.take i ++ [cOpen, cMinus] := by
    rw [show i + 2 = (i + 1) + 1 from rfl, List.take_succ, List.take_succ, h0, h1]
    simp
  rw [ht, List.reverse_append]
  simp only [List.reverse_cons, List.reverse_nil, List.nil_append, List.cons_append]
  rw [scanBack_cons (by decide), scanBack_cons (by decide)]
  have b1 : bumpBack 1 cMinus = 1 := by decide
  have b2 : bumpBack 1 cOpen = 0 := by decide
  rw [b1, b2, scanBack_zero]
  exact congrArg some (by push_cast; omega)

/-- The fragment `[-]`, entered at its `[` with the current cell at `v`, runs its body
`v` times and leaves the loop with the current cell at 0 and nothing else changed. -/
theorem clear_loop (h0 : prog[i]? = some cOpen) (h1 : prog[i + 1]? = some cMinus)
    (h2 : prog[i + 2]? = some cClose) : ∀ (v : Nat) (s : State),
    s.cp = (i : Int) → readAt s.data s.dp = some v → v < 256 →
    ∃ n, steps prog inp n s =
        some { s with cp := (i : Int) + 3, data := s.data.set s.dp.toNat 0 } ∧
      visits prog inp ((i : Int) + 1) n s = v ∧ n = if v = 0 then 1 else 3 * v := by
  have hl2 : i + 2 < prog.length := by
    rcases Nat.lt_or_ge (i + 2) prog.length with h | h
    · exact h
    · rw [List.getElem?_eq_none h] at h2; exact absurd h2 (by simp)
  have r0 : readAt (cstr prog) (i : Int) = some cOpen := by
    rw [readAt_cstr_of_lt (by omega), h0]
  have r1 : readAt (cstr prog) ((i : Int) + 1) = some cMinus := by
    have e : (i : Int) + 1 = ((i + 1 : Nat) : Int) := by push_cast; rfl
    rw [e, readAt_cstr_of_lt (by omega), h1]
  have r2 : readAt (cstr prog) ((i : Int) + 2) = some cClose := by
    have e : (i : Int) + 2 = ((i + 2 : Nat) : Int) := by push_cast; rfl
    rw [e, readAt_cstr_of_lt (by omega), h2]
  intro v
  induction v with
  | zero =>
    intro s hcp hv _
    have j1 : step prog inp s = .next { s with cp := (i : Int) + 3 } :=
      step_open_jump (by rw [hcp]; exact r0) hv (by rw [hcp]; exact clear_scanFwd h1 h2)
    refine ⟨1, ?_, ?_, rfl⟩
    · rw [steps_succ_next j1, set_of_readAt hv]
      rfl
    · rw [visits_succ_next j1, visits_zero, if_neg (by omega)]
  | succ v ih =>
    intro s hcp hv hlt
    have s1 : step prog inp s = .next { s with cp := (i : Int) + 1 } := by
      rw [step_open_skip (by rw [hcp]; exact r0) hv (by omega), hcp]
    have s2 : step prog inp { s with cp := (i : Int) + 1 } =
        .next { s with cp := (i : Int) + 2, data := s.data.set s.dp.toNat v } := by
      rw [step_minus (s := { s with cp := (i : Int) + 1 }) (v := v + 1) r1 hv]
      simp only [Step.next.injEq, State.mk.injEq, and_true, true_and]
      refine ⟨by omega, ?_⟩
      congr 1
      omega
    have hv' : readAt (s.data.set s.dp.toNat v) s.dp = some v := readAt_set_self _ hv
    by_cases hz : v = 0
    · subst hz
      have s3 : step prog inp { s with cp := (i : Int) + 2, data := s.data.set s.dp.toNat 0 } =
          .next { s with cp := (i : Int) + 3, data := s.data.set s.dp.toNat 0 } := by
        rw [step_close_skip
          (s := { s with cp := (i : Int) + 2, data := s.data.set s.dp.toNat 0 }) r2 hv']
        simp only [Step.next.injEq, State.mk.injEq, and_true, true_and]
        omega
      refine ⟨3, ?_, ?_, rfl⟩
      · rw [steps_succ_next s1, steps_succ_next s2, steps_succ_next s3]
        rfl
      · rw [visits_succ_next s1, visits_succ_next s2, visits_succ_next s3, visits_zero]
        dsimp only
        rw [if_neg (by omega), if_pos rfl, if_neg (by omega)]
    · have s3 : step prog inp { s with cp := (i : Int) + 2, data := s.data.set s.dp.toNat v } =
          .next { s with cp := (i : Int), data := s.data.set s.dp.toNat v } := by
        rw [step_close_jump
          (s := { s with cp := (i : Int) + 2, data := s.data.set s.dp.toNat v })
          (v := v) r2 hv' hz (clear_scanBack h0 h1 h2)]
        simp
      obtain ⟨n, hn, hvis, hcount⟩ :=
        ih { s with cp := (i : Int), data := s.data.set s.dp.toNat v } rfl hv' (by omega)
      refine ⟨n + 3, ?_, ?_, ?_⟩
      · have e : n + 3 = n + 1 + 1 + 1 := by omega
        rw [e, steps_succ_next s1, steps_succ_next s2, steps_succ_next s3, hn]
        simp only [List.set_set]
      · have e : n + 3 = n + 1 + 1 + 1 := by omega
        rw [e, visits_succ_next s1, visits_succ_next s2, visits_succ_next s3, hvis]
        dsimp only
        rw [if_neg (by omega), if_pos rfl, if_neg (by omega)]
        omega
      · rw [hcount, if_neg hz, if_neg (by omega)]
        omega


theorem clearProgram_getElem? (n j : Nat) :
    (clearProgram n)[n + j]? = [cOpen, cMinus, cClose, cDot][j]? := by
  unfold clearProgram
  rw [List.getElem?_append_right (by simp)]
  simp

theorem clearProgram_read (n j : Nat) (hj : j < 4) :
    readAt (cstr (clearProgram n)) ((n : Int) + j) = [cOpen, cMinus, cClose, cDot][j]? := by
  have e : (n : Int) + j = ((n + j : Nat) : Int) := by push_cast; rfl
  rw [e, readAt_cstr_of_lt (by simp [clearProgram]; omega), clearProgram_getElem?]

theorem clearProgram_end (n : Nat) :
    readAt (cstr (clearProgram n)) ((n : Int) + 4) = some 0 := by
  have e : (n : Int) + 4 = (((clearProgram n).length : Nat) : Int) := by
    simp [clearProgram]
  rw [e]
  exact readAt_cstr_length _

/-- The run of `clearProgram n` up to the fetch of the terminator. -/
theorem clear_run (n : Nat) :
    ∃ N d, steps (clearProgram n) inp N initState =
      some { cp := (n : Int) + 4, dp := 500, data := d, input := 0, out := [0] } := by
  have h500 : 500 < DATASIZE := by decide
  have blk : steps (clearProgram n) inp n initState =
      some { cp := (n : Int), dp := 500, data := (List.replicate DATASIZE 0).set 500 (n % 256),
             input := 0, out := [] } := by
    rw [steps_plus_block n initState 0 (fun k hk => by
      have : initState.cp + (k : Int) = (k : Int) := by simp [initState]
      rw [this]; exact readAt_cstr_replicate _ _ hk) readAt_init_cell (by omega)]
    simp [initState]
  have hx : readAt ((List.replicate DATASIZE 0).set 500 (n % 256)) 500 = some (n % 256) := by
    simp [readAt, List.getElem?_set, h500]
  have g0 : (clearProgram n)[n]? = some cOpen := by simpa using clearProgram_getElem? n 0
  have g1 : (clearProgram n)[n + 1]? = some cMinus := by simpa using clearProgram_getElem? n 1
  have g2 : (clearProgram n)[n + 2]? = some cClose := by simpa using clearProgram_getElem? n 2
  obtain ⟨m, hm, _, _⟩ := clear_loop inp g0 g1 g2 (n % 256)
    { cp := (n : Int), dp := 500, data := (List.replicate DATASIZE 0).set 500 (n % 256),
      input := 0, out := [] } rfl hx (Nat.mod_lt _ (by omega))
  have hcell : readAt (((List.replicate DATASIZE 0).set 500 (n % 256)).set
      (500 : Int).toNat 0) 500 = some 0 := readAt_set_self (i := 500) _ hx
  have t1 : step (clearProgram n) inp
      { cp := (n : Int) + 3, dp := 500,
        data := ((List.replicate DATASIZE 0).set 500 (n % 256)).set (500 : Int).toNat 0,
        input := 0, out := [] } =
      .next { cp := (n : Int) + 4, dp := 500,
              data := ((List.replicate DATASIZE 0).set 500 (n % 256)).set (500 : Int).toNat 0,
              input := 0, out := [0] } := by
    rw [step_dot
      (s := { cp := (n : Int) + 3, dp := 500,
              data := ((List.replicate DATASIZE 0).set 500 (n % 256)).set (500 : Int).toNat 0,
              input := 0, out := [] })
      (v := 0) (by simpa using clearProgram_read n 3 (by omega)) hcell]
    simp only [Step.next.injEq, State.mk.injEq, and_true, true_and, List.nil_append]
    omega
  have hm' : steps (clearProgram n) inp m
      { cp := (n : Int), dp := 500, data := (List.replicate DATASIZE 0).set 500 (n % 256),
        input := 0, out := [] } =
      some { cp := (n : Int) + 3, dp := 500,
             data := ((List.replicate DATASIZE 0).set 500 (n % 256)).set (500 : Int).toNat 0,
             input := 0, out := [] } := hm
  refine ⟨n + (m + 1),
    ((List.replicate DATASIZE 0).set 500 (n % 256)).set (500 : Int).toNat 0, ?_⟩
  rw [steps_add n _ _ _ blk, steps_add m 1 _ _ hm', steps_succ_next t1]
  rfl

end Clear

/-! ## Balanced brackets -/

section BalancedLemmas

theorem foldl_bumpFwd_eq : ∀ (l : List Nat) (f : Int),
    l.foldl bumpFwd f = f + (l.count cOpen : Int) - (l.count cClose : Int) := by
  intro l
  induction l with
  | nil => intro f; simp
  | cons c l ih =>
    intro f
    rw [List.foldl_cons, ih, List.count_cons, List.count_cons]
    unfold bumpFwd
    by_cases h1 : c = cOpen
    · subst h1; simp; omega
    · by_cases h2 : c = cClose
      · subst h2; simp; omega
      · simp [h1, h2]

theorem foldl_bumpBack_eq : ∀ (l : List Nat) (f : Int),
    l.foldl bumpBack f = f - (l.count cOpen : Int) + (l.count cClose : Int) := by
  intro l
  induction l with
  | nil => intro f; simp
  | cons c l ih =>
    intro f
    rw [List.foldl_cons, ih, List.count_cons, List.count_cons]
    unfold bumpBack
    by_cases h1 : c = cOpen
    · subst h1; simp; omega
    · by_cases h2 : c = cClose
      · subst h2; simp; omega
      · simp [h1, h2]

theorem counterFwd_depth (prog : List Nat) {i k : Nat} (h : i ≤ k) :
    counterFwd prog i k = 1 + depth prog (k + 1) - depth prog (i + 1) := by
  unfold counterFwd depth
  rw [foldl_bumpFwd_eq]
  have e : k + 1 = (i + 1) + (k - i) := by omega
  rw [e, List.take_add, List.count_append, List.count_append]
  have e2 : i + 1 + (k - i) - i = k - i + 1 := by omega
  push_cast
  omega

theorem counterBack_depth (prog : List Nat) {j k : Nat} (h : k ≤ j) :
    counterBack prog j k = 1 - depth prog j + depth prog k := by
  unfold counterBack depth
  rw [foldl_bumpBack_eq, List.count_reverse, List.count_reverse]
  have e : prog.take j = prog.take k ++ (prog.take j).drop k := by
    conv_lhs => rw [← List.take_append_drop k (prog.take j)]
    rw [List.take_take, Nat.min_eq_left h]
  have e1 : (prog.take j).count cOpen =
      (prog.take k).count cOpen + ((prog.take j).drop k).count cOpen := by
    conv_lhs => rw [e, List.count_append]
  have e2 : (prog.take j).count cClose =
      (prog.take k).count cClose + ((prog.take j).drop k).count cClose := by
    conv_lhs => rw [e, List.count_append]
  rw [e1, e2]
  push_cast
  omega

theorem depth_succ (prog : List Nat) {k : Nat} (h : k < prog.length) :
    depth prog (k + 1) = depth prog k + bumpFwd 0 prog[k] := by
  unfold depth
  rw [List.take_succ, List.getElem?_eq_getElem h, List.count_append, List.count_append]
  unfold bumpFwd
  by_cases h1 : prog[k] = cOpen
  · simp [h1]; omega
  · by_cases h2 : prog[k] = cClose
    · simp [h2]; omega
    · simp [h1, h2, List.count_cons]

theorem depth_zero (prog : List Nat) : depth prog 0 = 0 := by
  simp [depth]

theorem depth_nonneg {prog : List Nat} (hb : Balanced prog) (k : Nat) : 0 ≤ depth prog k := by
  unfold depth
  rcases Nat.lt_or_ge k (prog.length + 1) with h | h
  · have := hb.1 k h
    omega
  · have := hb.1 prog.length (by omega)
    rw [List.take_of_length_le (by omega)]
    rw [List.take_length] at this
    omega

theorem depth_length {prog : List Nat} (hb : Balanced prog) : depth prog prog.length = 0 := by
  unfold depth
  rw [List.take_length, hb.2]
  omega

theorem bumpFwd_zero_ge (c : Nat) : -1 ≤ bumpFwd 0 c ∧ bumpFwd 0 c ≤ 1 := by
  unfold bumpFwd
  split_ifs <;> omega

/-- In a balanced text every `[` has a matching `]`. -/
theorem exists_matchFwd {prog : List Nat} (hb : Balanced prog) {i : Nat}
    (hi : prog[i]? = some cOpen) : ∃ j, MatchFwd prog i j := by
  have hlen : i < prog.length := by
    rcases Nat.lt_or_ge i prog.length with h | h
    · exact h
    · rw [List.getElem?_eq_none h] at hi; exact absurd hi (by simp)
  rw [List.getElem?_eq_getElem hlen] at hi
  injection hi with hi
  have hd1 : depth prog (i + 1) = depth prog i + 1 := by
    rw [depth_succ prog hlen, hi]; rfl
  have hdi := depth_nonneg hb i
  have hex : ∃ k, i < k ∧ k < prog.length ∧ counterFwd prog i k ≤ 0 := by
    refine ⟨prog.length - 1, ?_, by omega, ?_⟩
    · by_contra hcon
      have e : i + 1 = prog.length := by omega
      have := depth_length hb
      rw [← e] at this
      omega
    · rw [counterFwd_depth prog (by omega)]
      have e : prog.length - 1 + 1 = prog.length := by omega
      rw [e, depth_length hb]
      omega
  classical
  refine ⟨Nat.find hex, ?_⟩
  obtain ⟨h1, h2, h3⟩ := Nat.find_spec hex
  have hmin : ∀ k, i < k → k < Nat.find hex → 0 < counterFwd prog i k := by
    intro k hik hk
    have := Nat.find_min hex hk
    simp only [not_and, not_le] at this
    exact this hik (by omega)
  have hprev : 0 < counterFwd prog i (Nat.find hex - 1) := by
    rcases Nat.lt_or_ge i (Nat.find hex - 1) with h | h
    · exact hmin _ h (by omega)
    · have e : Nat.find hex - 1 = i := by omega
      rw [e, counterFwd_depth prog (Nat.le_refl _)]
      omega
  have hstep : counterFwd prog i (Nat.find hex) =
      counterFwd prog i (Nat.find hex - 1) + bumpFwd 0 prog[Nat.find hex] := by
    rw [counterFwd_depth prog (by omega), counterFwd_depth prog (by omega), depth_succ prog h2]
    have e : Nat.find hex - 1 + 1 = Nat.find hex := by omega
    rw [e]
    omega
  have hb1 := (bumpFwd_zero_ge prog[Nat.find hex]).1
  refine ⟨h1, h2, by omega, fun k hk hik => ?_⟩
  have := hmin k hik hk
  omega

/-- In a balanced text every `]` has a matching `[`. -/
theorem exists_matchBack {prog : List Nat} (hb : Balanced prog) {j : Nat}
    (hj : prog[j]? = some cClose) : ∃ i, MatchBack prog j i := by
  have hlen : j < prog.length := by
    rcases Nat.lt_or_ge j prog.length with h | h
    · exact h
    · rw [List.getElem?_eq_none h] at hj; exact absurd hj (by simp)
  rw [List.getElem?_eq_getElem hlen] at hj
  injection hj with hj
  have hd1 : depth prog (j + 1) = depth prog j - 1 := by
    rw [depth_succ prog hlen, hj]; rfl
  have hdj := depth_nonneg hb (j + 1)
  have hj0 : 0 < j := by
    by_contra hcon
    have e : j = 0 := by omega
    rw [e, depth_zero] at hd1
    rw [e] at hdj
    omega
  have hex : ∃ m, m < j ∧ counterBack prog j (j - 1 - m) ≤ 0 := by
    refine ⟨j - 1, by omega, ?_⟩
    have e : j - 1 - (j - 1) = 0 := by omega
    rw [e, counterBack_depth prog (Nat.zero_le _), depth_zero]
    omega
  classical
  refine ⟨j - 1 - Nat.find hex, ?_⟩
  obtain ⟨h1, h3⟩ := Nat.find_spec hex
  have hmin : ∀ k, j - 1 - Nat.find hex < k → k < j → 0 < counterBack prog j k := by
    intro k hik hk
    have := Nat.find_min hex (m := j - 1 - k) (by omega)
    simp only [not_and, not_le] at this
    have e : j - 1 - (j - 1 - k) = k := by omega
    rw [e] at this
    exact this (by omega)
  have hprev : 0 < counterBack prog j (j - 1 - Nat.find hex + 1) := by
    rcases Nat.lt_or_ge (j - 1 - Nat.find hex + 1) j with h | h
    · exact hmin _ (by omega) h
    · have e : j - 1 - Nat.find hex + 1 = j := by omega
      rw [e, counterBack_depth prog (Nat.le_refl _)]
      omega
  have hstep : counterBack prog j (j - 1 - Nat.find hex) =
      counterBack prog j (j - 1 - Nat.find hex + 1) - bumpFwd 0 prog[j - 1 - Nat.find hex] := by
    rw [counterBack_depth prog (by omega), counterBack_depth prog (by omega),
      depth_succ prog (by omega : j - 1 - Nat.find hex < prog.length)]
    omega
  have hb1 := (bumpFwd_zero_ge prog[j - 1 - Nat.find hex]).2
  refine ⟨by omega, hlen, by omega, fun k hk hik => ?_⟩
  have := hmin k hik hk
  omega


variable {prog : List Nat} (inp : List Nat)

/-- In a balanced text one executed instruction keeps the instruction pointer inside the
text or on its terminator. -/
theorem step_in_text (hb : Balanced prog) {s s' : State} {i : Nat} (hcp : s.cp = (i : Int))
    (hi : i ≤ prog.length) (h : step prog inp s = .next s') :
    ∃ i' : Nat, s'.cp = (i' : Int) ∧ i' ≤ prog.length := by
  rcases Nat.lt_or_ge i prog.length with hlt | hge
  · have hfetch : readAt (cstr prog) s.cp = some prog[i] := by
      rw [hcp, readAt_cstr_of_lt hlt, List.getElem?_eq_getElem hlt]
    by_cases ho : prog[i] = cOpen
    · rw [ho] at hfetch
      cases hv : readAt s.data s.dp with
      | none => simp [step_cell_none hfetch (by simp) hv] at h
      | some v =>
        by_cases hz : v = 0
        · subst hz
          obtain ⟨j, hj⟩ := exists_matchFwd hb
            (show prog[i]? = some cOpen by rw [List.getElem?_eq_getElem hlt, ho])
          rw [step_open_jump hfetch hv (by rw [hcp]; exact scanFwd_of_match hj)] at h
          injection h with h
          subst h
          exact ⟨j + 1, by push_cast; rfl, hj.2.1⟩
        · rw [step_open_skip hfetch hv hz] at h
          injection h with h
          subst h
          exact ⟨i + 1, by show s.cp + 1 = _; rw [hcp]; push_cast; rfl, hlt⟩
    · by_cases hc : prog[i] = cClose
      · rw [hc] at hfetch
        cases hv : readAt s.data s.dp with
        | none => simp [step_cell_none hfetch (by simp) hv] at h
        | some v =>
          by_cases hz : v = 0
          · subst hz
            rw [step_close_skip hfetch hv] at h
            injection h with h
            subst h
            exact ⟨i + 1, by show s.cp + 1 = _; rw [hcp]; push_cast; rfl, hlt⟩
          · obtain ⟨k, hk⟩ := exists_matchBack hb
              (show prog[i]? = some cClose by rw [List.getElem?_eq_getElem hlt, hc])
            rw [step_close_jump hfetch hv hz (by rw [hcp]; exact scanBack_of_match hk)] at h
            injection h with h
            subst h
            exact ⟨k, by show (k : Int) - 1 + 1 = _; omega, by have := hk.1; omega⟩
      · have := step_next_cp h hfetch ho hc
        exact ⟨i + 1, by rw [this, hcp]; push_cast; rfl, hlt⟩
  · have e : i = prog.length := by omega
    subst e
    have hfetch : readAt (cstr prog) s.cp = some 0 := by
      rw [hcp]; exact readAt_cstr_length prog
    rw [step_zero hfetch] at h
    exact absurd h (by simp)

/-- In a balanced text the bracket scans read inside the text only. -/
theorem scanReads_in_text (hb : Balanced prog) {s : State} {i : Nat} (hcp : s.cp = (i : Int))
    (hi : i ≤ prog.length) : ∀ r ∈ scanReads prog s, 0 ≤ r ∧ r < (prog.length : Int) := by
  intro r hr
  rcases Nat.lt_or_ge i prog.length with hlt | hge
  · have hfetch : readAt (cstr prog) s.cp = some prog[i] := by
      rw [hcp, readAt_cstr_of_lt hlt, List.getElem?_eq_getElem hlt]
    cases hv : readAt s.data s.dp with
    | none => rw [scanReads_cell_none hv] at hr; simp at hr
    | some v =>
      by_cases ho : prog[i] = cOpen
      · rw [ho] at hfetch
        by_cases hz : v = 0
        · subst hz
          obtain ⟨j, hj⟩ := exists_matchFwd hb
            (show prog[i]? = some cOpen by rw [List.getElem?_eq_getElem hlt, ho])
          rw [scanReads_open hfetch hv] at hr
          have hscan : scanFwd (memUp (cstr prog) (s.cp + 1)) 1 (s.cp + 1) =
              some ((j : Int) + 1) := by rw [hcp]; exact scanFwd_of_match hj
          have := (scanFwdReads_of_some _ _ _ _ hscan).2.2 r hr
          have hjl := hj.2.1
          omega
        · rw [scanReads_open_skip hfetch hv hz] at hr; simp at hr
      · by_cases hc : prog[i] = cClose
        · rw [hc] at hfetch
          by_cases hz : v = 0
          · subst hz
            rw [scanReads_close_skip hfetch hv] at hr; simp at hr
          · obtain ⟨k, hk⟩ := exists_matchBack hb
              (show prog[i]? = some cClose by rw [List.getElem?_eq_getElem hlt, hc])
            rw [scanReads_close hfetch hv hz] at hr
            have hscan : scanBack (memDown (cstr prog) (s.cp - 1)) 1 (s.cp - 1) =
                some ((k : Int) - 1) := by rw [hcp]; exact scanBack_of_match hk
            have := (scanBackReads_of_some _ _ _ _ hscan).2.2 r hr
            omega
        · rw [scanReads_plain hfetch ho hc] at hr; simp at hr
  · have e : i = prog.length := by omega
    subst e
    have hfetch : readAt (cstr prog) s.cp = some 0 := by
      rw [hcp]; exact readAt_cstr_length prog
    rw [scanReads_plain hfetch (by decide) (by decide)] at hr
    simp at hr

/-- In a balanced text every state of a run that starts inside the text is inside the
text or on its terminator. -/
theorem steps_in_text (hb : Balanced prog) : ∀ (n : Nat) (s0 s : State) (i : Nat),
    s0.cp = (i : Int) → i ≤ prog.length → steps prog inp n s0 = some s →
    ∃ i' : Nat, s.cp = (i' : Int) ∧ i' ≤ prog.length := by
  intro n
  induction n with
  | zero =>
    intro s0 s i hcp hi h
    simp only [steps, Option.some.injEq] at h
    subst h
    exact ⟨i, hcp, hi⟩
  | succ n ih =>
    intro s0 s i hcp hi h
    cases hs : step prog inp s0 with
    | halt t => simp [steps, hs] at h
    | outOfBounds => simp [steps, hs] at h
    | next t =>
      rw [steps_succ_next hs] at h
      obtain ⟨i', hcp', hi'⟩ := step_in_text inp hb hcp hi hs
      exact ih t s i' hcp' hi' h

end BalancedLemmas

/-! ## The claims -/

/-- C1. Whenever `brainfuck` returns, what it has written is the bytes emitted by the
executed `.` instructions, each the value of the current cell at that moment, in
execution order, followed by exactly one newline; when no `.` was executed the output
is the newline alone, and the empty program returns after writing just the newline. -/
theorem C1_output_is_dot_bytes_then_newline (prog inp : List Nat) (fuel : Nat) (r : State)
    (h : brainfuck prog inp fuel = .done r) :
    r.out = dotBytes prog inp fuel initState ++ [cNewline] ∧
    ((∀ s ∈ trace prog inp fuel initState, readAt (cstr prog) s.cp ≠ some cDot) →
      r.out = [cNewline]) ∧
    (∀ inp' : List Nat, ∃ r' : State, brainfuck [] inp' 1 = .done r' ∧ r'.out = [cNewline]) := by
  obtain ⟨s, hs, rfl⟩ := brainfuck_done_iff.mp h
  have ho := run_done_out fuel initState s hs
  have e : s.out = dotBytes prog inp fuel initState := by simpa [initState] using ho
  refine ⟨by simp [e], ?_, ?_⟩
  · intro hno
    have : dotBytes prog inp fuel initState = [] := by
      unfold dotBytes
      rw [List.filterMap_eq_nil_iff]
      intro t ht
      simp [dotByte, hno t ht]
    simp [e, this]
  · intro inp'
    exact ⟨_, rfl, rfl⟩

set_option maxRecDepth 100000 in
theorem C1_witness :
    brainfuck [cPlus, cDot, cDot] [] 4 =
        .done { cp := 4, dp := 500, data := (List.replicate 1001 0).set 500 1, input := 0,
                out := [1, 1, cNewline] } ∧
      ({ cp := 4, dp := 500, data := (List.replicate 1001 0).set 500 1, input := 0,
          out := [1, 1, cNewline] } : State).out =
        dotBytes [cPlus, cDot, cDot] [] 4 initState ++ [cNewline] :=
  ⟨by rfl, (C1_output_is_dot_bytes_then_newline [cPlus, cDot, cDot] [] 4 _ (by rfl)).1⟩

set_option maxRecDepth 1000000 in
/-- C2. Let `p` be a program text (a C string) and `strip p` the same text without the
bytes that are not commands.  If `brainfuck` returns on `p` and an input, it returns on
`strip p` and that input with the same output, tape and data pointer, and conversely;
`+hello.` and `+.` both write the byte 1 and a newline. -/
theorem C2_comments_have_no_effect (p inp : List Nat) (hp : IsCString p) :
    (∀ fuel r, brainfuck p inp fuel = .done r →
      ∃ fuel' r', brainfuck (strip p) inp fuel' = .done r' ∧
        r'.out = r.out ∧ r'.data = r.data ∧ r'.dp = r.dp) ∧
    (∀ fuel' r', brainfuck (strip p) inp fuel' = .done r' →
      ∃ fuel r, brainfuck p inp fuel = .done r ∧
        r.out = r'.out ∧ r.data = r'.data ∧ r.dp = r'.dp) ∧
    strip [cPlus, 104, 101, 108, 108, 111, cDot] = [cPlus, cDot] ∧
    (∃ r, brainfuck [cPlus, 104, 101, 108, 108, 111, cDot] inp 8 = .done r ∧
      r.out = [1, cNewline]) ∧
    (∃ r, brainfuck [cPlus, cDot] inp 3 = .done r ∧ r.out = [1, cNewline]) := by
  refine ⟨?_, ?_, by decide, ?_, ?_⟩
  · intro fuel r h
    obtain ⟨s, hs, rfl⟩ := brainfuck_done_iff.mp h
    obtain ⟨fuel', r', hr', hdp, hdata, _, hout⟩ :=
      run_strip_forward inp hp fuel initState s ⟨0, rfl, Nat.zero_le _⟩ hs
    rw [shadow_initState] at hr'
    exact ⟨fuel', _, brainfuck_done_iff.mpr ⟨r', hr', rfl⟩, by simp [hout], hdata, hdp⟩
  · intro fuel' r' h
    obtain ⟨s, hs, rfl⟩ := brainfuck_done_iff.mp h
    rw [← shadow_initState p] at hs
    obtain ⟨fuel, r, hr, hdp, hdata, _, hout⟩ :=
      run_strip_backward inp hp fuel' p.length initState s 0 rfl (Nat.zero_le _) (by omega) hs
    exact ⟨fuel, _, brainfuck_done_iff.mpr ⟨r, hr, rfl⟩, by simp [hout], hdata.symm, hdp.symm⟩
  · exact ⟨_, rfl, rfl⟩
  · exact ⟨_, rfl, rfl⟩

set_option maxRecDepth 1000000 in
theorem C2_witness :
    IsCString [cPlus, cOpen, 97, cMinus, 98, cClose, 99, cOpen, 100, cClose, cDot] ∧
      brainfuck [cPlus, cOpen, 97, cMinus, 98, cClose, 99, cOpen, 100, cClose, cDot] [] 10 =
        .done { cp := 12, dp := 500, data := List.replicate DATASIZE 0, input := 0,
                out := [0, cNewline] } ∧
      ∃ fuel' r',
        brainfuck (strip [cPlus, cOpen, 97, cMinus, 98, cClose, 99, cOpen, 100, cClose, cDot])
            [] fuel' = .done r' ∧
          r'.out = [0, cNewline] ∧ r'.data = List.replicate DATASIZE 0 ∧ r'.dp = 500 :=
  ⟨by decide, by rfl,
    (C2_comments_have_no_effect
      [cPlus, cOpen, 97, cMinus, 98, cClose, 99, cOpen, 100, cClose, cDot] [] (by decide)).1
      10 { cp := 12, dp := 500, data := List.replicate DATASIZE 0, input := 0,
           out := [0, cNewline] } (by rfl)⟩

/-- C3. When the instruction being executed is a `[` at index `i`, the current cell is
0 and `j` is the index of the matching `]`, executing the `[` leaves the instruction
pointer at `j + 1`, just past that `]`, and leaves the tape, the data pointer, the
input cursor and the output unchanged. -/
theorem C3_open_on_zero_jumps_past_match (prog inp : List Nat) (s : State) (i j : Nat)
    (hcp : s.cp = (i : Int)) (hi : prog[i]? = some cOpen)
    (hcell : readAt s.data s.dp = some 0) (hm : MatchFwd prog i j) :
    step prog inp s = .next { s with cp := (j : Int) + 1 } ∧ prog[j]? = some cClose := by
  have hlen : i < prog.length := by
    rcases Nat.lt_or_ge i prog.length with h | h
    · exact h
    · rw [List.getElem?_eq_none h] at hi; exact absurd hi (by simp)
  have hfetch : readAt (cstr prog) s.cp = some cOpen := by
    rw [hcp, readAt_cstr_of_lt hlen, hi]
  refine ⟨step_open_jump hfetch hcell ?_, close_of_matchFwd hm⟩
  rw [hcp]
  exact scanFwd_of_match hm

set_option maxRecDepth 100000 in
theorem C3_witness :
    MatchFwd [cOpen, cOpen, cClose, cClose] 0 3 ∧
      step [cOpen, cOpen, cClose, cClose] [] initState =
        .next { initState with cp := ((3 : Nat) : Int) + 1 } :=
  ⟨by decide,
    (C3_open_on_zero_jumps_past_match [cOpen, cOpen, cClose, cClose] [] initState 0 3
      (by rfl) (by rfl) (by rfl) (by decide)).1⟩

/-- C4. When the instruction being executed is a `]` at index `j`, the current cell is
not 0 and `i` is the index of the matching `[`, executing the `]` leaves the
instruction pointer at `i`, so that the next instruction fetched is that `[` itself;
the tape, the data pointer, the input cursor and the output are unchanged. -/
theorem C4_close_on_nonzero_jumps_to_match (prog inp : List Nat) (s : State) (j i v : Nat)
    (hcp : s.cp = (j : Int)) (hj : prog[j]? = some cClose)
    (hcell : readAt s.data s.dp = some v) (hv : v ≠ 0) (hm : MatchBack prog j i) :
    step prog inp s = .next { s with cp := (i : Int) } ∧
      readAt (cstr prog) (i : Int) = some cOpen := by
  have hlen : j < prog.length := hm.2.1
  have hfetch : readAt (cstr prog) s.cp = some cClose := by
    rw [hcp, readAt_cstr_of_lt hlen, hj]
  have hscan : scanBack (memDown (cstr prog) (s.cp - 1)) 1 (s.cp - 1) = some ((i : Int) - 1) := by
    rw [hcp]; exact scanBack_of_match hm
  refine ⟨?_, ?_⟩
  · rw [step_close_jump hfetch hcell hv hscan]
    simp
  · rw [readAt_cstr_of_lt (by have := hm.1; omega)]
    exact open_of_matchBack hm

set_option maxRecDepth 100000 in
theorem C4_witness :
    MatchBack [cOpen, cClose] 1 0 ∧
      step [cOpen, cClose] []
          { initState with cp := 1, data := initState.data.set 500 1 } =
        .next { initState with cp := ((0 : Nat) : Int), data := initState.data.set 500 1 } :=
  ⟨by decide,
    (C4_close_on_nonzero_jumps_to_match [cOpen, cClose] []
      { initState with cp := 1, data := initState.data.set 500 1 } 1 0 1
      (by rfl) (by rfl) (by rfl) (by decide) (by decide)).1⟩

set_option maxRecDepth 1000000 in
/-- C5. For all `a` and `b` the program of `a` copies of `+`, then `[>`, then `b` copies
of `+`, then `<-]>.` returns on any input after writing exactly the byte
`(a * b) % 256` and a newline, the first instruction of the loop body having been
executed exactly `a % 256` times; `++[>+++<-]>.` writes the byte 6 and a newline. -/
theorem C5_multiplication_loop (a b : Nat) (inp : List Nat) :
    (∃ fuel r, brainfuck (mulProgram a b) inp fuel = .done r ∧
      r.out = [(a * b) % 256, cNewline] ∧
      visits (mulProgram a b) inp ((a : Int) + 1) fuel initState = a % 256) ∧
    mulProgram 2 3 =
      [cPlus, cPlus, cOpen, cGt, cPlus, cPlus, cPlus, cLt, cMinus, cClose, cGt, cDot] ∧
    brainfuck (mulProgram 2 3) inp 21 =
      .done { cp := 13, dp := 501, data := (List.replicate DATASIZE 0).set 501 6, input := 0,
              out := [6, cNewline] } := by
  refine ⟨?_, rfl, rfl⟩
  obtain ⟨N, d', hsteps, hvis⟩ := mul_run a b inp
  have hz : step (mulProgram a b) inp
      { cp := (a : Int) + b + 7, dp := 501, data := d', input := 0, out := [(a * b) % 256] } =
      .halt { cp := (a : Int) + b + 7 + 1, dp := 501, data := d', input := 0,
              out := [(a * b) % 256] } :=
    step_zero
      (s := { cp := (a : Int) + b + 7, dp := 501, data := d', input := 0,
              out := [(a * b) % 256] })
      (mulProgram_end a b)
  refine ⟨N + 1, { cp := (a : Int) + b + 7 + 1, dp := 501, data := d', input := 0,
                   out := [(a * b) % 256] ++ [cNewline] }, ?_, rfl, ?_⟩
  · unfold brainfuck
    rw [run_steps N 1 _ _ hsteps, run_succ_halt hz]
  · rw [visits_steps hsteps, hvis, visits_succ_halt hz]
    rfl

set_option maxRecDepth 1000000 in
/-- C6. The program `++[>++[>+<-]<-]` returns on any input after writing exactly one
newline, with the data pointer back on cell 500 and a tape that holds 4 in cell 502 and 0
everywhere else; on the way the inner `]` (index 11) jumps back to the inner `[`
(index 6) and the outer `]` (index 14) to the outer `[` (index 2). -/
theorem C6_nested_loops (inp : List Nat) :
    brainfuck nestedProgram inp 41 =
        .done { cp := 16, dp := 500, data := (List.replicate DATASIZE 0).set 502 4, input := 0,
                out := [cNewline] } ∧
      (trace nestedProgram inp 41 initState).map (fun s => s.cp) =
        [0, 1, 2, 3, 4, 5, 6, 7, 8, 9, 10, 11, 6, 7, 8, 9, 10, 11, 12, 13, 14,
          2, 3, 4, 5, 6, 7, 8, 9, 10, 11, 6, 7, 8, 9, 10, 11, 12, 13, 14] ∧
      MatchBack nestedProgram 11 6 ∧ MatchBack nestedProgram 14 2 ∧
      (∀ i, i < DATASIZE → i ≠ 502 → ((List.replicate DATASIZE 0).set 502 4)[i]? = some 0) ∧
      ((List.replicate DATASIZE 0).set 502 4)[502]? = some 4 := by
  refine ⟨rfl, rfl, by decide, by decide, ?_, ?_⟩
  · intro i hi hne
    rw [List.getElem?_set_ne (Ne.symm hne), List.getElem?_replicate, if_pos hi]
  · have h : 502 < DATASIZE := by decide
    simp [List.getElem?_set, h]

/-- C7. For every `n` the program of `n` copies of `+` followed by `.` returns on any
input and writes exactly the byte `n % 256` and a newline; in particular `+++.` writes
the byte 3 and a newline, and 256 increments bring the cell back to 0. -/
theorem C7_plus_block_outputs_n_mod_256 (n : Nat) (inp : List Nat) :
    brainfuck (List.replicate n cPlus ++ [cDot]) inp (n + 2) =
        .done { cp := (n : Int) + 2, dp := 500,
                data := (List.replicate DATASIZE 0).set 500 (n % 256), input := 0,
                out := [n % 256, cNewline] } ∧
      (∃ r, brainfuck [cPlus, cPlus, cPlus, cDot] inp 5 = .done r ∧ r.out = [3, cNewline]) ∧
      (∃ r, brainfuck (List.replicate 256 cPlus ++ [cDot]) inp 258 = .done r ∧
        r.out = [0, cNewline]) := by
  have key : ∀ m : Nat, brainfuck (List.replicate m cPlus ++ [cDot]) inp (m + 2) =
      .done { cp := (m : Int) + 2, dp := 500,
              data := (List.replicate DATASIZE 0).set 500 (m % 256), input := 0,
              out := [m % 256, cNewline] } := by
    intro m
    have h1 := @steps_plus_block (List.replicate m cPlus ++ [cDot]) inp m
      initState 0 (fun k hk => by
        have : initState.cp + (k : Int) = (k : Int) := by simp [initState]
        rw [this]; exact readAt_cstr_replicate _ _ hk) readAt_init_cell (by omega)
    have hdot : readAt (cstr (List.replicate m cPlus ++ [cDot])) ((m : Int)) = some cDot := by
      have := readAt_cstr_append (List.replicate m cPlus) [cDot] 0
      simpa [readAt, cstr] using this
    have hend : readAt (cstr (List.replicate m cPlus ++ [cDot])) ((m : Int) + 1) = some 0 := by
      have := readAt_cstr_append (List.replicate m cPlus) [cDot] 1
      simpa [readAt, cstr] using this
    have h2 : steps (List.replicate m cPlus ++ [cDot]) inp m initState =
        some { cp := (m : Int), dp := 500,
               data := (List.replicate DATASIZE 0).set 500 (m % 256), input := 0, out := [] } := by
      simpa [initState] using h1
    have hcell : readAt ((List.replicate DATASIZE 0).set 500 (m % 256)) 500 = some (m % 256) := by
      have h500 : 500 < DATASIZE := by decide
      simp [readAt, List.getElem?_set, h500]
    have s1 := @step_dot (List.replicate m cPlus ++ [cDot]) inp
      ({ cp := (m : Int), dp := 500,
              data := (List.replicate DATASIZE 0).set 500 (m % 256), input := 0, out := [] })
      _ hdot hcell
    have s2 := @step_zero (List.replicate m cPlus ++ [cDot]) inp
      ({ cp := (m : Int) + 1, dp := 500,
              data := (List.replicate DATASIZE 0).set 500 (m % 256), input := 0,
              out := [] ++ [m % 256] })
      hend
    unfold brainfuck
    rw [run_steps m 2 _ _ h2, run_succ_next s1, run_succ_halt s2]
    simp
    omega
  refine ⟨key n, ⟨_, key 3, rfl⟩, ⟨_, key 256, rfl⟩⟩

/-- C8. For every `n` the program of `n` copies of `-` followed by `.` returns on any
input and writes exactly the byte `(256 - n % 256) % 256` and a newline; in particular
`-.` on a fresh tape writes the byte 255 and a newline. -/
theorem C8_minus_block_outputs_complement (n : Nat) (inp : List Nat) :
    brainfuck (List.replicate n cMinus ++ [cDot]) inp (n + 2) =
        .done { cp := (n : Int) + 2, dp := 500,
                data := (List.replicate DATASIZE 0).set 500 ((256 - n % 256) % 256), input := 0,
                out := [(256 - n % 256) % 256, cNewline] } ∧
      (∃ r, brainfuck [cMinus, cDot] inp 3 = .done r ∧ r.out = [255, cNewline]) := by
  have key : ∀ m : Nat, brainfuck (List.replicate m cMinus ++ [cDot]) inp (m + 2) =
      .done { cp := (m : Int) + 2, dp := 500,
              data := (List.replicate DATASIZE 0).set 500 ((256 - m % 256) % 256), input := 0,
              out := [(256 - m % 256) % 256, cNewline] } := by
    intro m
    have h1 := @steps_minus_block (List.replicate m cMinus ++ [cDot]) inp m
      initState 0 (fun k hk => by
        have : initState.cp + (k : Int) = (k : Int) := by simp [initState]
        rw [this]; exact readAt_cstr_replicate _ _ hk) readAt_init_cell (by omega)
    have hdot : readAt (cstr (List.replicate m cMinus ++ [cDot])) ((m : Int)) = some cDot := by
      have := readAt_cstr_append (List.replicate m cMinus) [cDot] 0
      simpa [readAt, cstr] using this
    have hend : readAt (cstr (List.replicate m cMinus ++ [cDot])) ((m : Int) + 1) = some 0 := by
      have := readAt_cstr_append (List.replicate m cMinus) [cDot] 1
      simpa [readAt, cstr] using this
    have h2 : steps (List.replicate m cMinus ++ [cDot]) inp m initState =
        some { cp := (m : Int), dp := 500,
               data := (List.replicate DATASIZE 0).set 500 ((256 - m % 256) % 256),
               input := 0, out := [] } := by
      have hval : (0 + 255 * m) % 256 = (256 - m % 256) % 256 := by omega
      rw [hval] at h1
      simpa [initState] using h1
    have hcell : readAt ((List.replicate DATASIZE 0).set 500 ((256 - m % 256) % 256)) 500 =
        some ((256 - m % 256) % 256) := by
      have h500 : 500 < DATASIZE := by decide
      simp [readAt, List.getElem?_set, h500]
    have s1 := @step_dot (List.replicate m cMinus ++ [cDot]) inp
      ({ cp := (m : Int), dp := 500,
              data := (List.replicate DATASIZE 0).set 500 ((256 - m % 256) % 256),
              input := 0, out := [] })
      _ hdot hcell
    have s2 := @step_zero (List.replicate m cMinus ++ [cDot]) inp
      ({ cp := (m : Int) + 1, dp := 500,
              data := (List.replicate DATASIZE 0).set 500 ((256 - m % 256) % 256), input := 0,
              out := [] ++ [(256 - m % 256) % 256] })
      hend
    unfold brainfuck
    rw [run_steps m 2 _ _ h2, run_succ_next s1, run_succ_halt s2]
    simp
    omega
  exact ⟨key n, ⟨_, key 1, rfl⟩⟩

/-- C9. For every non-empty input the program `,.` returns after writing exactly the
first byte of the input and a newline, whatever follows that byte; the run starts from
the fresh initial state, so one invocation per one-byte input echoes each byte once. -/
theorem C9_echo_first_input_byte (c : Nat) (rest : List Nat) :
    brainfuck [cComma, cDot] (c :: rest) 3 =
        .done { cp := 3, dp := 500, data := (List.replicate DATASIZE 0).set 500 c, input := 1,
                out := [c, cNewline] } ∧
      (∀ cs : List Nat,
        cs.map (fun b => brainfuck [cComma, cDot] [b] 3) =
          cs.map (fun b => .done { cp := 3, dp := 500,
                                   data := (List.replicate DATASIZE 0).set 500 b, input := 1,
                                   out := [b, cNewline] })) ∧
      (∃ r, brainfuck [cComma, cDot] [65] 3 = .done r ∧ r.out = [65, cNewline]) := by
  have key : ∀ (b : Nat) (tl : List Nat), brainfuck [cComma, cDot] (b :: tl) 3 =
      .done { cp := 3, dp := 500, data := (List.replicate DATASIZE 0).set 500 b, input := 1,
              out := [b, cNewline] } := by
    intro b tl
    have h500 : 500 < DATASIZE := by decide
    have s1 : step [cComma, cDot] (b :: tl) initState =
        .next { cp := 1, dp := 500, data := (List.replicate DATASIZE 0).set 500 b, input := 1,
                out := [] } := by
      rw [step_comma (s := initState) (v := 0) (c := b) (by simp [readAt, cstr, initState])
        readAt_init_cell (by simp [readAt, cstr, initState])]
      simp [initState]
    have s2 : step [cComma, cDot] (b :: tl)
        { cp := 1, dp := 500, data := (List.replicate DATASIZE 0).set 500 b, input := 1,
          out := [] } =
        .next { cp := 2, dp := 500, data := (List.replicate DATASIZE 0).set 500 b, input := 1,
                out := [b] } := by
      rw [step_dot (v := b) (by simp [readAt, cstr]) (by simp [readAt, List.getElem?_set, h500])]
      simp
    have s3 : step [cComma, cDot] (b :: tl)
        { cp := 2, dp := 500, data := (List.replicate DATASIZE 0).set 500 b, input := 1,
          out := [b] } =
        .halt { cp := 3, dp := 500, data := (List.replicate DATASIZE 0).set 500 b, input := 1,
                out := [b] } := by
      rw [step_zero (by simp [readAt, cstr])]
      simp
    unfold brainfuck
    rw [run_succ_next s1, run_succ_next s2, run_succ_halt s3]
    simp
  exact ⟨key c rest, fun cs => List.map_congr_left (fun b _ => key b []), ⟨_, key 65 [], rfl⟩⟩

/-- C10. Input is consumed left to right, one byte per executed `,`: on an input `s` of
length `N` the program of `N` repetitions of `,.` returns after writing exactly `s` and
a newline, with the input cursor at `N`; the `,` executed after `k` repetitions finds
the cursor at `k`, stores the byte of `s` at index `k` in the current cell and leaves
the cursor at `k + 1`. -/
theorem C10_input_consumed_left_to_right (s : List Nat) :
    (∃ r, brainfuck (echoProgram s.length) s (2 * s.length + 1) = .done r ∧
      r.out = s ++ [cNewline] ∧ r.input = s.length) ∧
    (∀ k, k < s.length → ∃ before after,
      steps (echoProgram s.length) s (2 * k) initState = some before ∧
      readAt (cstr (echoProgram s.length)) before.cp = some cComma ∧
      before.input = k ∧
      step (echoProgram s.length) s before = .next after ∧
      readAt after.data after.dp = s[k]? ∧ after.input = k + 1) := by
  have hlen := echoProgram_length s.length
  constructor
  · obtain ⟨d, v, hsteps, _⟩ := echo_steps s s.length (Nat.le_refl _)
    have hz : step (echoProgram s.length) s
        { cp := ((2 * s.length : Nat) : Int), dp := 500, data := d, input := s.length,
          out := s.take s.length } =
        .halt { cp := ((2 * s.length : Nat) : Int) + 1, dp := 500, data := d,
                input := s.length, out := s.take s.length } :=
      step_zero
        (s := { cp := ((2 * s.length : Nat) : Int), dp := 500, data := d, input := s.length,
                out := s.take s.length })
        (by rw [← hlen]; exact readAt_cstr_length _)
    refine ⟨{ cp := ((2 * s.length : Nat) : Int) + 1, dp := 500, data := d,
              input := s.length, out := s.take s.length ++ [cNewline] }, ?_, ?_, ?_⟩
    · unfold brainfuck
      rw [run_steps (2 * s.length) 1 _ _ hsteps, run_succ_halt hz]
    · simp
    · rfl
  · intro k hk
    obtain ⟨d, v, hsteps, hv⟩ := echo_steps s k (by omega)
    obtain ⟨hc, _⟩ := echoProgram_get s.length k hk
    have hfetch : readAt (cstr (echoProgram s.length)) ((2 * k : Nat) : Int) = some cComma := by
      rw [readAt_cstr_of_lt (by omega)]; exact hc
    refine ⟨{ cp := ((2 * k : Nat) : Int), dp := 500, data := d, input := k, out := s.take k },
      { cp := ((2 * k : Nat) : Int) + 1, dp := 500, data := d.set (500 : Int).toNat s[k],
        input := k + 1, out := s.take k }, hsteps, hfetch, rfl, ?_, ?_, ?_⟩
    · exact step_comma
        (s := { cp := ((2 * k : Nat) : Int), dp := 500, data := d, input := k, out := s.take k })
        (v := v) (c := s[k]) hfetch hv (by rw [readAt_cstr_of_lt hk]; simp)
    · rw [List.getElem?_eq_getElem hk]
      exact readAt_set_self (i := 500) _ hv
    · rfl

theorem C10_witness :
    (1 : Nat) < [104, 105].length ∧
      ∃ before after,
        steps (echoProgram [104, 105].length) [104, 105] (2 * 1) initState = some before ∧
        readAt (cstr (echoProgram [104, 105].length)) before.cp = some cComma ∧
        before.input = 1 ∧
        step (echoProgram [104, 105].length) [104, 105] before = .next after ∧
        readAt after.data after.dp = [104, 105][1]? ∧ after.input = 1 + 1 :=
  ⟨by decide, (C10_input_consumed_left_to_right [104, 105]).2 1 (by decide)⟩

/-- C11. The function `main` returns exit code 1 with the message `invalid arguments` on
standard error and nothing on standard output, without running the interpreter, exactly
when `argc` is not 3; when `argc` is 3 it runs `brainfuck` on `argv[1]` and `argv[2]`
and, when that returns, the exit code is 0 and standard output is what `brainfuck`
wrote. -/
theorem C11_main_argument_count (argc : Int) (argv : List (List Nat)) (fuel : Nat) :
    (main argc argv fuel = .exit { code := 1, stdout := [], stderr := invalidArguments } ↔
      argc ≠ 3) ∧
    (∀ e, main argc argv fuel = .exit e → (e.code = 1 ↔ argc ≠ 3)) ∧
    (argc ≠ 3 → ∀ (argv' : List (List Nat)) (fuel' : Nat),
      main argc argv' fuel' = .exit { code := 1, stdout := [], stderr := invalidArguments }) ∧
    (∀ (a0 prog inp : List Nat),
      (∀ r, brainfuck prog inp fuel = .done r →
        main 3 [a0, prog, inp] fuel = .exit { code := 0, stdout := r.out, stderr := [] }) ∧
      (brainfuck prog inp fuel = .timeout → main 3 [a0, prog, inp] fuel = .timeout) ∧
      (brainfuck prog inp fuel = .outOfBounds → main 3 [a0, prog, inp] fuel = .outOfBounds)) ∧
    invalidArguments = "invalid arguments".toList.map Char.toNat := by
  refine ⟨⟨fun h => ?_, fun h => main_of_ne h argv fuel⟩, fun e he => ⟨fun h1 => ?_, fun h => ?_⟩,
    fun h argv' fuel' => main_of_ne h argv' fuel', fun a0 prog inp => ⟨fun r hr => ?_, fun h => ?_,
    fun h => ?_⟩, invalidArguments_eq⟩
  · rintro rfl
    have := (main_three_code h).1
    simp at this
  · rintro rfl
    have := (main_three_code he).1
    omega
  · rw [main_of_ne h] at he
    injection he with he
    rw [← he]
  · exact main_three_done hr a0
  · exact main_three_timeout h a0
  · exact main_three_outOfBounds h a0

set_option maxRecDepth 1000000 in
theorem C11_witness :
    brainfuck [cPlus, cDot] [] 3 =
        .done { cp := 3, dp := 500, data := (List.replicate DATASIZE 0).set 500 1, input := 0,
                out := [1, cNewline] } ∧
      main 3 [[], [cPlus, cDot], []] 3 =
        .exit { code := 0, stdout := [1, cNewline], stderr := [] } ∧
      main 2 [[], [cPlus, cDot]] 3 =
        .exit { code := 1, stdout := [], stderr := invalidArguments } :=
  ⟨by rfl,
    ((C11_main_argument_count 3 [] 3).2.2.2.1 [] [cPlus, cDot] []).1 _ (by rfl),
    (C11_main_argument_count 2 [[], [cPlus, cDot]] 3).1.mpr (by decide)⟩

/-- C12. The tape has 1001 cells, all zero at the start, and the data pointer starts at
index 500.  For every `k ≤ 500` the programs of `k` copies of `<`, respectively `>`,
followed by `+.` return after writing the byte 1 and a newline, the cell accessed being
cell `500 - k`, respectively `500 + k`.  For `k = 501` the `+` accesses cell `-1`,
respectively `1001`, and the run ends in the out-of-bounds error for every sufficient
fuel, never in a normal result. -/
theorem C12_tape_bounds (inp : List Nat) :
    (initState.data.length = 1001 ∧ (∀ i, i < 1001 → initState.data[i]? = some 0) ∧
      initState.dp = 500) ∧
    (∀ k, k ≤ 500 →
      brainfuck (leftProgram k) inp (k + 3) =
        .done { cp := (k : Int) + 3, dp := 500 - (k : Int),
                data := (List.replicate DATASIZE 0).set (500 - k) 1, input := 0,
                out := [1, cNewline] }) ∧
    (∀ k, k ≤ 500 →
      brainfuck (rightProgram k) inp (k + 3) =
        .done { cp := (k : Int) + 3, dp := 500 + (k : Int),
                data := (List.replicate DATASIZE 0).set (500 + k) 1, input := 0,
                out := [1, cNewline] }) ∧
    (steps (leftProgram 501) inp 501 initState =
        some { cp := 501, dp := -1, data := List.replicate DATASIZE 0, input := 0, out := [] } ∧
      readAt (cstr (leftProgram 501)) 501 = some cPlus ∧
      (∀ fuel, 502 ≤ fuel → brainfuck (leftProgram 501) inp fuel = .outOfBounds) ∧
      ∀ fuel r, brainfuck (leftProgram 501) inp fuel ≠ .done r) ∧
    (steps (rightProgram 501) inp 501 initState =
        some { cp := 501, dp := 1001, data := List.replicate DATASIZE 0, input := 0,
               out := [] } ∧
      readAt (cstr (rightProgram 501)) 501 = some cPlus ∧
      (∀ fuel, 502 ≤ fuel → brainfuck (rightProgram 501) inp fuel = .outOfBounds) ∧
      ∀ fuel r, brainfuck (rightProgram 501) inp fuel ≠ .done r) := by
  refine ⟨⟨by simp [initState], fun i hi => ?_, rfl⟩, fun k hk => ?_, fun k hk => ?_, ?_, ?_⟩
  · have : i < DATASIZE := hi
    simp [initState, List.getElem?_replicate, this]
  · exact move_run inp cLt (Or.inl rfl) k (500 - (k : Int)) (500 - k) (by simp) (by omega)
      (by have : DATASIZE = 1001 := rfl; omega)
  · exact move_run inp cGt (Or.inr rfl) k (500 + (k : Int)) (500 + k) (by simp)
      (by push_cast; rfl) (by have : DATASIZE = 1001 := rfl; omega)
  · have h0 : steps (leftProgram 501) inp 501 initState =
        some { cp := 501, dp := -1, data := List.replicate DATASIZE 0, input := 0,
               out := [] } := left_steps inp 501
    exact ⟨h0, left_plus 501,
      brainfuck_fault_of_steps h0 (move_fault inp cLt 501 (-1) (Or.inl (by omega)))⟩
  · have h0 : steps (rightProgram 501) inp 501 initState =
        some { cp := 501, dp := 1001, data := List.replicate DATASIZE 0, input := 0,
               out := [] } := right_steps inp 501
    exact ⟨h0, right_plus 501,
      brainfuck_fault_of_steps h0
        (move_fault inp cGt 501 1001 (Or.inr (by have : DATASIZE = 1001 := rfl; omega)))⟩

theorem C12_witness :
    (500 : Nat) ≤ 500 ∧
      brainfuck (leftProgram 500) [] (500 + 3) =
        .done { cp := ((500 : Nat) : Int) + 3, dp := 500 - ((500 : Nat) : Int),
                data := (List.replicate DATASIZE 0).set (500 - 500) 1, input := 0,
                out := [1, cNewline] } :=
  ⟨Nat.le_refl _, (C12_tape_bounds []).2.1 500 (Nat.le_refl _)⟩

set_option maxRecDepth 1000000 in
/-- C13. A `[` without a matching `]`, executed on a zero cell, makes the forward scan
read the terminator and the index after it, outside the memory of the program; a `]`
without a matching `[`, executed on a non-zero cell, makes the backward scan read index
`-1`.  Both iterations end in the out-of-bounds error, and a run that reaches one ends in
that error for every sufficient fuel and never in a normal result; so do the runs of
the programs `[` and `+]`. -/
theorem C13_unmatched_bracket_scans_fault (prog inp : List Nat) (s : State) (i : Nat)
    (hcp : s.cp = (i : Int)) :
    (prog[i]? = some cOpen → readAt s.data s.dp = some 0 → (∀ j, ¬ MatchFwd prog i j) →
      step prog inp s = .outOfBounds ∧ (prog.length : Int) ∈ scanReads prog s ∧
        (prog.length : Int) + 1 ∈ scanReads prog s ∧
        ∀ n, steps prog inp n initState = some s →
          (∀ fuel, n + 1 ≤ fuel → brainfuck prog inp fuel = .outOfBounds) ∧
            ∀ fuel r, brainfuck prog inp fuel ≠ .done r) ∧
    (∀ v, prog[i]? = some cClose → readAt s.data s.dp = some v → v ≠ 0 →
      (∀ k, ¬ MatchBack prog i k) →
      step prog inp s = .outOfBounds ∧ (-1 : Int) ∈ scanReads prog s ∧
        ∀ n, steps prog inp n initState = some s →
          (∀ fuel, n + 1 ≤ fuel → brainfuck prog inp fuel = .outOfBounds) ∧
            ∀ fuel r, brainfuck prog inp fuel ≠ .done r) ∧
    (scanReads [cOpen] initState = [1, 2] ∧
      (∀ fuel, 1 ≤ fuel → brainfuck [cOpen] inp fuel = .outOfBounds) ∧
      ∀ fuel r, brainfuck [cOpen] inp fuel ≠ .done r) ∧
    (steps [cPlus, cClose] inp 1 initState =
        some { initState with cp := 1, data := initState.data.set 500 1 } ∧
      scanReads [cPlus, cClose] { initState with cp := 1, data := initState.data.set 500 1 } =
        [0, -1] ∧
      (∀ fuel, 2 ≤ fuel → brainfuck [cPlus, cClose] inp fuel = .outOfBounds) ∧
      ∀ fuel r, brainfuck [cPlus, cClose] inp fuel ≠ .done r) := by
  refine ⟨fun hi hcell hno => ?_, fun v hi hcell hv hno => ?_, ?_, ?_⟩
  · obtain ⟨h1, h2, h3⟩ := open_unmatched inp hcp hi hcell hno
    exact ⟨h1, h2, h3, fun n hn => brainfuck_fault_of_steps hn h1⟩
  · obtain ⟨h1, h2⟩ := close_unmatched inp hcp hi hcell hv hno
    exact ⟨h1, h2, fun n hn => brainfuck_fault_of_steps hn h1⟩
  · have hno : ∀ j, ¬ MatchFwd [cOpen] 0 j := by
      intro j hj
      have h1 := hj.1
      have h2 := hj.2.1
      simp at h2
      omega
    have h := (open_unmatched inp (s := initState) (i := 0) rfl rfl readAt_init_cell hno).1
    exact ⟨rfl, brainfuck_fault_of_steps (n := 0) rfl h⟩
  · have hno : ∀ k, ¬ MatchBack [cPlus, cClose] 1 k := by
      intro k hk
      have h1 := hk.1
      have h3 := hk.2.2.1
      have : k = 0 := by omega
      subst this
      exact absurd h3 (by decide)
    have hs : steps [cPlus, cClose] inp 1 initState =
        some { initState with cp := 1, data := initState.data.set 500 1 } := rfl
    have h := (close_unmatched inp
      (s := { initState with cp := 1, data := initState.data.set 500 1 }) (j := 1) (v := 1)
      rfl rfl rfl (by decide) hno).1
    exact ⟨hs, rfl, brainfuck_fault_of_steps hs h⟩

set_option maxRecDepth 1000000 in
theorem C13_witness :
    initState.cp = ((0 : Nat) : Int) ∧ [cOpen][0]? = some cOpen ∧
      readAt initState.data initState.dp = some 0 ∧ (∀ j, ¬ MatchFwd [cOpen] 0 j) ∧
      step [cOpen] [] initState = .outOfBounds :=
  have hno : ∀ j, ¬ MatchFwd [cOpen] 0 j := by
    intro j hj
    have h1 := hj.1
    have h2 := hj.2.1
    simp at h2
    omega
  ⟨rfl, rfl, readAt_init_cell, hno,
    ((C13_unmatched_bracket_scans_fault [cOpen] [] initState 0 rfl).1 rfl readAt_init_cell
      hno).1⟩

set_option maxRecDepth 1000000 in
/-- C14. The program `+[]` runs forever on any input: for every fuel the run times out,
so nothing is returned and the trailing newline is never written; any number of
instructions can be executed, none of them fetches the terminator, no state has any
output, and every state reached after at least one instruction has the instruction
pointer on the `[` (index 1) or the `]` (index 2) with the current cell equal to 1. -/
theorem C14_forever_loop (inp : List Nat) :
    (∀ fuel, brainfuck foreverProgram inp fuel = .timeout) ∧
    (∀ n, ∃ s, steps foreverProgram inp n initState = some s) ∧
    (∀ n s, steps foreverProgram inp n initState = some s →
      readAt (cstr foreverProgram) s.cp ≠ some 0 ∧ s.out = []) ∧
    (∀ n s, 1 ≤ n → steps foreverProgram inp n initState = some s →
      (s.cp = 1 ∨ s.cp = 2) ∧ readAt s.data s.dp = some 1) := by
  have hreach : ∀ n s, steps foreverProgram inp (n + 1) initState = some s →
      s = { initState with cp := 1, data := initState.data.set 500 1 } ∨
        s = { initState with cp := 2, data := initState.data.set 500 1 } := by
    intro n s h
    rw [steps_succ_next (forever_step_init inp)] at h
    rcases (forever_steps inp n).1 with h1 | h1 <;> rw [h1] at h <;> injection h with h
    · exact Or.inl h.symm
    · exact Or.inr h.symm
  refine ⟨fun fuel => ?_, fun n => ?_, fun n s h => ?_, fun n s hn h => ?_⟩
  · rw [brainfuck_timeout_iff]
    cases fuel with
    | zero => rfl
    | succ k => rw [run_succ_next (forever_step_init inp)]; exact (forever_run inp k).1
  · cases n with
    | zero => exact ⟨initState, rfl⟩
    | succ k =>
      rw [steps_succ_next (forever_step_init inp)]
      rcases (forever_steps inp k).1 with h1 | h1 <;> exact ⟨_, h1⟩
  · cases n with
    | zero =>
      simp only [steps, Option.some.injEq] at h
      subst h
      exact ⟨by decide, rfl⟩
    | succ k =>
      rcases hreach k s h with rfl | rfl
      · exact ⟨by decide, rfl⟩
      · exact ⟨by decide, rfl⟩
  · obtain ⟨k, rfl⟩ : ∃ k, n = k + 1 := ⟨n - 1, by omega⟩
    rcases hreach k s h with rfl | rfl
    · exact ⟨Or.inl rfl, rfl⟩
    · exact ⟨Or.inr rfl, rfl⟩

/-- Counterexample to C14 as stated: the initial state of the run of `+[]`, reached after
no instruction, has the instruction pointer on the `+` (index 0) and the current cell
equal to 0. -/
theorem C14_counterexample :
    ¬ (∀ n s, steps foreverProgram [] n initState = some s →
      (s.cp = 1 ∨ s.cp = 2) ∧ readAt s.data s.dp = some 1) := by
  intro h
  have := (h 0 initState rfl).1
  simp [initState] at this

set_option maxRecDepth 1000000 in
theorem C14_witness :
    (1 : Nat) ≤ 2 ∧
      steps foreverProgram [] 2 initState =
        some { initState with cp := 2, data := initState.data.set 500 1 } ∧
      ((({ initState with cp := 2, data := initState.data.set 500 1 } : State).cp = 1 ∨
        ({ initState with cp := 2, data := initState.data.set 500 1 } : State).cp = 2) ∧
        readAt ({ initState with cp := 2, data := initState.data.set 500 1 } : State).data
          ({ initState with cp := 2, data := initState.data.set 500 1 } : State).dp = some 1) :=
  ⟨by decide, rfl, (C14_forever_loop []).2.2.2 2 _ (by decide) rfl⟩

/-- C15. Executing an instruction other than `[` and `]` advances the instruction
pointer by exactly one: such an instruction never ends the loop; `>`, `<` and the bytes
that are not commands always execute, `+`, `-` and `.` execute whenever the current cell
is inside the tape, `,` whenever moreover the input cursor is inside the input memory;
and a byte that is not a command changes nothing else. -/
theorem C15_plain_instructions_advance_by_one (prog inp : List Nat) (s : State) (c : Nat)
    (hfetch : readAt (cstr prog) s.cp = some c) (h0 : c ≠ 0) (ho : c ≠ cOpen)
    (hcl : c ≠ cClose) :
    (∀ s', step prog inp s = .next s' → s'.cp = s.cp + 1) ∧
    (∀ t, step prog inp s ≠ .halt t) ∧
    (isCommand c = false → step prog inp s = .next { s with cp := s.cp + 1 }) ∧
    (c = cGt ∨ c = cLt → ∃ s', step prog inp s = .next s' ∧ s'.cp = s.cp + 1) ∧
    (c = cPlus ∨ c = cMinus ∨ c = cDot → (∃ v, readAt s.data s.dp = some v) →
      ∃ s', step prog inp s = .next s' ∧ s'.cp = s.cp + 1) ∧
    (c = cComma → (∃ v, readAt s.data s.dp = some v) →
      (∃ b, readAt (cstr inp) s.input = some b) →
      ∃ s', step prog inp s = .next s' ∧ s'.cp = s.cp + 1) := by
  refine ⟨fun s' h => step_next_cp h hfetch ho hcl, fun t h => ?_,
    fun hn => step_other hfetch h0 hn, fun hc => ?_, fun hc ⟨v, hv⟩ => ?_,
    fun hc ⟨v, hv⟩ ⟨b, hb⟩ => ?_⟩
  · have := (step_halt_inv h).1
    rw [hfetch] at this
    injection this with this
    exact h0 this
  · rcases hc with rfl | rfl
    · exact ⟨_, step_gt hfetch, rfl⟩
    · exact ⟨_, step_lt hfetch, rfl⟩
  · rcases hc with rfl | rfl | rfl
    · exact ⟨_, step_plus hfetch hv, rfl⟩
    · exact ⟨_, step_minus hfetch hv, rfl⟩
    · exact ⟨_, step_dot hfetch hv, rfl⟩
  · subst hc
    exact ⟨_, step_comma hfetch hv hb, rfl⟩

set_option maxRecDepth 1000000 in
theorem C15_witness :
    readAt (cstr [104, cPlus]) initState.cp = some 104 ∧
      step [104, cPlus] [] initState = .next { initState with cp := initState.cp + 1 } :=
  ⟨rfl,
    (C15_plain_instructions_advance_by_one [104, cPlus] [] initState 104 rfl (by decide)
      (by decide) (by decide)).2.2.1 (by decide)⟩

set_option maxRecDepth 1000000 in
/-- C16. A `,` executed with the input cursor exactly at the end of the input reads the
terminator: the current cell becomes 0 and the cursor still advances by one.  The
program `+,.` on the empty input writes the byte 0 and a newline, and the program
`,[.,]` on any input without zero bytes returns after writing that input and a
newline. -/
theorem C16_comma_at_end_reads_terminator (s : List Nat) (hs : IsCString s) :
    (∀ (prog : List Nat) (t : State) (v : Nat),
      readAt (cstr prog) t.cp = some cComma → readAt t.data t.dp = some v →
      t.input = s.length →
      step prog s t =
        .next { t with cp := t.cp + 1, data := t.data.set t.dp.toNat 0,
                       input := t.input + 1 }) ∧
    brainfuck [cPlus, cComma, cDot] [] 4 =
      .done { cp := 4, dp := 500, data := List.replicate DATASIZE 0, input := 1,
              out := [0, cNewline] } ∧
    (∃ fuel r, brainfuck catProgram s fuel = .done r ∧ r.out = s ++ [cNewline] ∧
      r.input = s.length + 1) := by
  refine ⟨fun prog t v hf hv hi => ?_, rfl, ?_⟩
  · exact step_comma hf hv (by rw [hi]; exact readAt_cstr_length s)
  · obtain ⟨n, d', hn⟩ := cat_steps s hs
    have hz : step catProgram s
        { cp := 5, dp := 500, data := d', input := s.length + 1, out := s } =
        .halt { cp := 5 + 1, dp := 500, data := d', input := s.length + 1, out := s } :=
      step_zero
        (s := { cp := 5, dp := 500, data := d', input := s.length + 1, out := s })
        (show readAt (cstr catProgram) 5 = some 0 by decide)
    refine ⟨n + 1, { cp := 5 + 1, dp := 500, data := d', input := s.length + 1,
                     out := s ++ [cNewline] }, ?_, rfl, rfl⟩
    unfold brainfuck
    rw [run_steps n 1 _ _ hn, run_succ_halt hz]

set_option maxRecDepth 1000000 in
theorem C16_witness :
    IsCString [104, 105] ∧
      ∃ fuel r, brainfuck catProgram [104, 105] fuel = .done r ∧
        r.out = [104, 105] ++ [cNewline] ∧ r.input = [104, 105].length + 1 :=
  ⟨by decide, (C16_comma_at_end_reads_terminator [104, 105] (by decide)).2.2⟩

/-- C17. In every run of a program with balanced brackets from the initial state, every
instruction is fetched at an index between 0 and the length of the text, the terminator
included, and every byte read by a bracket scan is at an index inside the text, never
the terminator and never before index 0; a fetch of the terminator ends the run. -/
theorem C17_balanced_program_reads_in_text (prog inp : List Nat) (hb : Balanced prog)
    (n : Nat) (s : State) (hs : steps prog inp n initState = some s) :
    (0 ≤ s.cp ∧ s.cp ≤ (prog.length : Int)) ∧
    (∃ c, readAt (cstr prog) s.cp = some c) ∧
    (∀ r ∈ scanReads prog s, 0 ≤ r ∧ r < (prog.length : Int)) ∧
    (s.cp = (prog.length : Int) → step prog inp s = .halt { s with cp := s.cp + 1 }) := by
  obtain ⟨i, hcp, hi⟩ := steps_in_text inp hb n initState s 0 rfl (Nat.zero_le _) hs
  refine ⟨by omega, ?_, scanReads_in_text hb hcp hi, fun h => ?_⟩
  · rcases Nat.lt_or_ge i prog.length with hlt | hge
    · exact ⟨prog[i], by rw [hcp, readAt_cstr_of_lt hlt, List.getElem?_eq_getElem hlt]⟩
    · have e : i = prog.length := by omega
      subst e
      exact ⟨0, by rw [hcp]; exact readAt_cstr_length prog⟩
  · exact step_zero (by rw [h]; exact readAt_cstr_length prog)

set_option maxRecDepth 1000000 in
theorem C17_witness :
    Balanced nestedProgram ∧
      steps nestedProgram [] 11 initState =
        some { cp := 11, dp := 501,
               data := (((List.replicate DATASIZE 0).set 500 2).set 501 1).set 502 1,
               input := 0, out := [] } ∧
      scanReads nestedProgram
          { cp := 11, dp := 501,
            data := (((List.replicate DATASIZE 0).set 500 2).set 501 1).set 502 1,
            input := 0, out := [] } = [10, 9, 8, 7, 6] ∧
      ∀ r ∈ scanReads nestedProgram
          { cp := 11, dp := 501,
            data := (((List.replicate DATASIZE 0).set 500 2).set 501 1).set 502 1,
            input := 0, out := [] }, 0 ≤ r ∧ r < (nestedProgram.length : Int) :=
  ⟨by decide, rfl, rfl,
    (C17_balanced_program_reads_in_text nestedProgram [] (by decide) 11 _ rfl).2.2.1⟩

/-- C18. The fragment `[-]` clears the current cell: from a state whose instruction
pointer is on the `[` of an occurrence of `[-]` and whose current cell holds `v < 256`,
finitely many instructions (one when `v = 0`, `3 * v` otherwise) lead to the state with
the instruction pointer just past the `]`, the current cell at 0 and everything else
unchanged, the body having run exactly `v` times.  For every `n` the program of `n`
copies of `+` followed by `[-].` returns after writing the byte 0 and a newline. -/
theorem C18_clear_loop (prog inp : List Nat) (s : State) (i v : Nat)
    (hcp : s.cp = (i : Int)) (h0 : prog[i]? = some cOpen) (h1 : prog[i + 1]? = some cMinus)
    (h2 : prog[i + 2]? = some cClose) (hv : readAt s.data s.dp = some v) (hlt : v < 256) :
    (∃ n, steps prog inp n s =
        some { s with cp := (i : Int) + 3, data := s.data.set s.dp.toNat 0 } ∧
      visits prog inp ((i : Int) + 1) n s = v ∧ n = if v = 0 then 1 else 3 * v) ∧
    readAt (s.data.set s.dp.toNat 0) s.dp = some 0 ∧
    (∀ k : Nat, (k : Int) ≠ s.dp → (s.data.set s.dp.toNat 0)[k]? = s.data[k]?) ∧
    (∀ (n : Nat) (inp' : List Nat), ∃ fuel r,
      brainfuck (clearProgram n) inp' fuel = .done r ∧ r.out = [0, cNewline]) := by
  refine ⟨clear_loop inp h0 h1 h2 v s hcp hv hlt, readAt_set_self _ hv, fun k hk => ?_,
    fun n inp' => ?_⟩
  · have hnn := (readAt_some_iff.mp hv).1
    exact List.getElem?_set_ne (by omega)
  · obtain ⟨N, d, hN⟩ := clear_run inp' n
    have hz : step (clearProgram n) inp'
        { cp := (n : Int) + 4, dp := 500, data := d, input := 0, out := [0] } =
        .halt { cp := (n : Int) + 4 + 1, dp := 500, data := d, input := 0, out := [0] } :=
      step_zero
        (s := { cp := (n : Int) + 4, dp := 500, data := d, input := 0, out := [0] })
        (clearProgram_end n)
    refine ⟨N + 1, { cp := (n : Int) + 4 + 1, dp := 500, data := d, input := 0,
                     out := [0] ++ [cNewline] }, ?_, rfl⟩
    unfold brainfuck
    rw [run_steps N 1 _ _ hN, run_succ_halt hz]

set_option maxRecDepth 1000000 in
theorem C18_witness :
    steps [cOpen, cMinus, cClose] [] (3 * 2)
        { initState with data := initState.data.set 500 2 } =
      some { initState with cp := ((0 : Nat) : Int) + 3,
                            data := (initState.data.set 500 2).set (500 : Int).toNat 0 } ∧
      visits [cOpen, cMinus, cClose] [] (((0 : Nat) : Int) + 1) (3 * 2)
        { initState with data := initState.data.set 500 2 } = 2 :=
  have h := (C18_clear_loop [cOpen, cMinus, cClose] []
    { initState with data := initState.data.set 500 2 } 0 2 rfl rfl rfl rfl rfl
    (by decide)).1
  ⟨by obtain ⟨n, h1, _, h3⟩ := h; rw [← show n = 3 * 2 from h3]; exact h1,
    by obtain ⟨n, _, h2, h3⟩ := h; rw [← show n = 3 * 2 from h3]; exact h2⟩

set_option maxRecDepth 1000000 in
/-- C19. A bracket whose jump is not taken only advances the instruction pointer by one
and runs no scan, whether or not it has a match: a `[` on a non-zero cell, a `]` on a
zero cell.  So the program `]` returns after writing one newline and the program `+[.`
after writing the byte 1 and a newline, no iteration of their runs scanning at all. -/
theorem C19_untaken_bracket_is_noop (prog inp : List Nat) (s : State) (v : Nat)
    (hcell : readAt s.data s.dp = some v) :
    (readAt (cstr prog) s.cp = some cOpen → v ≠ 0 →
      step prog inp s = .next { s with cp := s.cp + 1 } ∧ scanReads prog s = []) ∧
    (readAt (cstr prog) s.cp = some cClose → v = 0 →
      step prog inp s = .next { s with cp := s.cp + 1 } ∧ scanReads prog s = []) ∧
    (brainfuck [cClose] inp 2 =
        .done { cp := 2, dp := 500, data := List.replicate DATASIZE 0, input := 0,
                out := [cNewline] } ∧
      (trace [cClose] inp 2 initState).map (scanReads [cClose]) = [[]]) ∧
    (brainfuck [cPlus, cOpen, cDot] inp 4 =
        .done { cp := 4, dp := 500, data := (List.replicate DATASIZE 0).set 500 1, input := 0,
                out := [1, cNewline] } ∧
      (trace [cPlus, cOpen, cDot] inp 4 initState).map (scanReads [cPlus, cOpen, cDot]) =
        [[], [], []]) ∧
    (∀ j, ¬ MatchBack [cClose] 0 j) ∧ (∀ j, ¬ MatchFwd [cPlus, cOpen, cDot] 1 j) := by
  refine ⟨fun h hv => ⟨step_open_skip h hcell hv, scanReads_open_skip h hcell hv⟩,
    fun h hv => ?_, ⟨rfl, rfl⟩, ⟨rfl, rfl⟩, fun j hj => ?_, fun j hj => ?_⟩
  · subst hv
    exact ⟨step_close_skip h hcell, scanReads_close_skip h hcell⟩
  · have := hj.1
    omega
  · have h1 := hj.1
    have h2 := hj.2.1
    have h3 := hj.2.2.1
    simp at h2
    have : j = 2 := by omega
    subst this
    exact absurd h3 (by decide)

set_option maxRecDepth 1000000 in
theorem C19_witness :
    readAt ({ initState with cp := 1, data := initState.data.set 500 1 } : State).data
        ({ initState with cp := 1, data := initState.data.set 500 1 } : State).dp = some 1 ∧
      readAt (cstr [cPlus, cOpen, cDot])
        ({ initState with cp := 1, data := initState.data.set 500 1 } : State).cp =
          some cOpen ∧
      step [cPlus, cOpen, cDot] []
          { initState with cp := 1, data := initState.data.set 500 1 } =
        .next { initState with cp := 1 + 1, data := initState.data.set 500 1 } :=
  ⟨rfl, rfl,
    ((C19_untaken_bracket_is_noop [cPlus, cOpen, cDot] []
      { initState with cp := 1, data := initState.data.set 500 1 } 1 rfl).1 rfl
      (by decide)).1⟩

/-- C20. One executed instruction leaves every tape cell other than the current one
unchanged and the tape as long as it was; it leaves the whole tape unchanged unless it
is `+`, `-` or `,`; it moves the data pointer by `+1` when it is `>`, by `-1` when it is
`<`, and not at all otherwise; it advances the input cursor by one when it is `,` and
leaves it otherwise; it appends the current cell to the output when it is `.` and
leaves the output otherwise. -/
theorem C20_frame_of_one_instruction (prog inp : List Nat) (s s' : State) (c : Nat)
    (hstep : step prog inp s = .next s') (hfetch : readAt (cstr prog) s.cp = some c) :
    (∀ i : Nat, (i : Int) ≠ s.dp → s'.data[i]? = s.data[i]?) ∧
    s'.data.length = s.data.length ∧
    (c ≠ cPlus → c ≠ cMinus → c ≠ cComma → s'.data = s.data) ∧
    (c = cGt → s'.dp = s.dp + 1) ∧ (c = cLt → s'.dp = s.dp - 1) ∧
    (c ≠ cGt → c ≠ cLt → s'.dp = s.dp) ∧
    (c = cComma → s'.input = s.input + 1) ∧ (c ≠ cComma → s'.input = s.input) ∧
    (c = cDot → ∃ v, readAt s.data s.dp = some v ∧ s'.out = s.out ++ [v]) ∧
    (c ≠ cDot → s'.out = s.out) := by
  have hset : ∀ (w : Nat) (v : Nat), readAt s.data s.dp = some v →
      ∀ i : Nat, (i : Int) ≠ s.dp → (s.data.set s.dp.toNat w)[i]? = s.data[i]? := by
    intro w v hv i hi
    have h0 := (readAt_some_iff.mp hv).1
    exact List.getElem?_set_ne (by omega)
  obtain ⟨c', hc', _, hcases⟩ := step_next_cases hstep
  rw [hfetch] at hc'
  injection hc' with hc'
  subst hc'
  rcases hcases with ⟨rfl, rfl⟩ | ⟨rfl, rfl⟩ | ⟨rfl, v, hv, rfl⟩ | ⟨rfl, v, hv, rfl⟩ |
    ⟨rfl, v, hv, rfl⟩ | ⟨rfl, v, b, hv, hb, rfl⟩ | ⟨rfl, v, cp', hv, rfl⟩ |
    ⟨rfl, v, cp', hv, rfl⟩ | ⟨hn, rfl⟩
  · simp
  · simp
  · refine ⟨hset _ v hv, by simp, by simp, by simp, by simp, by simp, by simp, by simp, by simp,
      by simp⟩
  · refine ⟨hset _ v hv, by simp, by simp, by simp, by simp, by simp, by simp, by simp, by simp,
      by simp⟩
  · simp [hv]
  · refine ⟨hset _ v hv, by simp, by simp, by simp, by simp, by simp, by simp, by simp, by simp,
      by simp⟩
  · simp
  · simp
  · have h1 : c ≠ cGt := by rintro rfl; simp [isCommand] at hn
    have h2 : c ≠ cLt := by rintro rfl; simp [isCommand] at hn
    have h3 : c ≠ cComma := by rintro rfl; simp [isCommand] at hn
    have h4 : c ≠ cDot := by rintro rfl; simp [isCommand] at hn
    simp [h1, h2, h3, h4]

set_option maxRecDepth 1000000 in
theorem C20_witness :
    step [cPlus] [] initState =
        .next { initState with cp := 1, data := initState.data.set 500 1 } ∧
      readAt (cstr [cPlus]) initState.cp = some cPlus ∧
      (∀ i : Nat, (i : Int) ≠ initState.dp →
        ({ initState with cp := 1, data := initState.data.set 500 1 } : State).data[i]? =
          initState.data[i]?) :=
  ⟨rfl, rfl, (C20_frame_of_one_instruction [cPlus] [] initState _ cPlus rfl rfl).1⟩

end Brainfuck
